import Mathlib

/-!
# Verification of the Alkaline diffing / range-set / reactive-array core

Shallow embedding of `src/Diffing.ts`, the `RangeSet` data structure, and the
`_ReactiveArrayCore` mutation-tracking state machine, with proofs of the
specified properties.

JS `number` values that are used as indices or range bounds are modelled as
`Int` (all involved values are integers); array reads that could yield JS
`undefined` are modelled with `Option` or, where an element of the array type
must be produced, with `default` from an `Inhabited` instance.  Loops become
folds or fuelled recursions; `while` loops whose bound is data-dependent carry
an explicit fuel that provably suffices on every state reachable from the
constructors.
-/

namespace Alkaline

universe u

variable {α : Type u}

/-! ## ECMAScript helpers -/

/-- JS `array[i]` for an integer index: `none` when the index is out of range
(JS would yield `undefined`). -/
def getI (l : List α) (i : Int) : Option α :=
  if 0 ≤ i then l[i.toNat]? else none

/-- JS `array[i]` at a position the algorithm guarantees to be in range; the
out-of-range completion returns `default` (standing for JS `undefined`). -/
def jsGet [Inhabited α] (l : List α) (i : Int) : α :=
  (getI l i).getD default

/-- `resolveIndex` from `_ESUtils.ts`, for an integer argument:
bounded in `[0, length]`. -/
def resolveIndex (index : Int) (length : Nat) (present : Bool) : Int :=
  if !present then 0
  else if index < 0 then max 0 ((length : Int) + index)
  else min index (length : Int)

/-- `Array.prototype.splice(start, deleteCount, ...items)` on a list, for
integer arguments: returns the new array and the removed elements. -/
def jsSplice (l : List α) (start delCnt : Int) (items : List α) : List α × List α :=
  let s : Nat := (resolveIndex start l.length true).toNat
  let dc : Nat := (min (max delCnt 0) ((l.length : Int) - (s : Int))).toNat
  (l.take s ++ items ++ l.drop (s + dc), (l.drop s).take dc)

/-- Stable insertion of an element into a list sorted by `le`: the element goes
after every earlier element it is `le`-greater-or-equal to. -/
def sortInsert (le : α → α → Bool) (x : α) : List α → List α
  | [] => [x]
  | y :: ys => if le y x then y :: sortInsert le x ys else x :: y :: ys

/-- A stable sort.  `Array.prototype.sort` (ES2019 and later: stable) with a
comparator `a - b` sorts ascending by the compared key and keeps the relative
order of equal keys; any stable sorting algorithm has exactly that behaviour,
and insertion sort is used here because it is structurally recursive. -/
def jsSort (le : α → α → Bool) : List α → List α
  | [] => []
  | x :: xs => sortInsert le x (jsSort le xs)

/-! ## RangeSet.ts

A `RangeSet` stores its ranges as a flat array
`bounds = [start₁, end₁, start₂, end₂, …]` (ends exclusive) plus a cached
element count.  All JS numbers involved are integers, modelled as `Int`. -/

structure RangeSet where
  bounds : List Int
  count : Int
deriving DecidableEq, Repr

/-- Interpret a flat bounds list as the list of its `(start, end)` pairs. -/
def pairsOf : List Int → List (Int × Int)
  | s :: e :: rest => (s, e) :: pairsOf rest
  | _ => []

/-- The recomputation of `count` performed at the end of `toggle`:
the sum of `end - start` over the stored ranges. -/
def countVal (bounds : List Int) : Int :=
  (pairsOf bounds).foldl (fun acc p => acc + (p.2 - p.1)) 0

namespace RangeSet

/-- `new RangeSet()`. -/
def mk0 : RangeSet := ⟨[], 0⟩

/-- `new RangeSet(start, end)`; the one-argument constructor is
`mk2 start (start + 1)`. -/
def mk2 (start end_ : Int) : RangeSet :=
  if ¬ start < end_ then ⟨[], 0⟩ else ⟨[start, end_], end_ - start⟩

def mk1 (start : Int) : RangeSet := mk2 start (start + 1)

/-- `ranges()`: the stored `(start, end)` pairs in order. -/
def ranges (rs : RangeSet) : List (Int × Int) := pairsOf rs.bounds

/-- `reversedRanges()`: the stored pairs from last to first. -/
def reversedRanges (rs : RangeSet) : List (Int × Int) := (pairsOf rs.bounds).reverse

/-- Membership in the set denoted by a `RangeSet` (the iteration semantics:
some stored range `[start, end)` contains the integer). -/
def memB (rs : RangeSet) (i : Int) : Bool :=
  (pairsOf rs.bounds).any fun p => decide (p.1 ≤ i) && decide (i < p.2)

/-- The binary search of `insert`: narrow `[l, r)` (both even) until either a
range whose closed hull `[lo, hi]` contains `start` is found (then `start` is
lowered to `lo` and the search index is that range) or `l = r`.  The fuel is
at least `bounds.length + 1`, which suffices for every even-length bounds
list. -/
def insertFind (bounds : List Int) (start : Int) : Nat → Nat → Nat → Nat × Int
  | 0, l, _ => (l, start)
  | fuel + 1, l, r =>
    if l < r then
      let m := (l + r) / 4 * 2
      let lo := bounds.getD m 0
      let hi := bounds.getD (m + 1) 0
      if start < lo then insertFind bounds start fuel l m
      else if start > hi then insertFind bounds start fuel (m + 2) r
      else (m, lo)
    else (l, start)

/-- The forward merge scan of `insert` over the bounds from the search index
on: consume ranges that the (possibly lowered) inserted range reaches, adding
up their lengths, and possibly raise `end` to the end of the last consumed
range.  Returns (number of bound entries consumed, final `end`, removed
count). -/
def insertScan (end_ : Int) : List Int → Nat × Int × Int
  | lo :: hi :: rest =>
    if end_ < lo then (0, end_, 0)
    else if end_ ≤ hi then (2, hi, hi - lo)
    else
      let s := insertScan end_ rest
      (s.1 + 2, s.2.1, s.2.2 + (hi - lo))
  | _ => (0, end_, 0)

/-- `RangeSet.insert`. -/
def insert (rs : RangeSet) (start end_ : Int) : RangeSet :=
  if ¬ start < end_ then rs else
  let last := rs.bounds.getD (rs.bounds.length - 1) 0
  if rs.count = 0 ∨ start > last then
    ⟨rs.bounds ++ [start, end_], rs.count + (end_ - start)⟩
  else if start = last then
    ⟨rs.bounds.dropLast ++ [end_], rs.count + (end_ - start)⟩
  else
    let fl := insertFind rs.bounds start (rs.bounds.length + 1) 0 rs.bounds.length
    let l := fl.1
    let start1 := fl.2
    let scan := insertScan end_ (rs.bounds.drop l)
    ⟨rs.bounds.take l ++ [start1, scan.2.1] ++ rs.bounds.drop (l + scan.1),
     rs.count + (scan.2.1 - start1) - scan.2.2⟩

/-- Outcome of the binary search of `_remove`. -/
inductive RemoveFindOut where
  | notFound (l : Nat)   -- the loop exited with `l = r`
  | atStart (l : Nat)    -- `start == lo`: break with `l = m`
  | clipTail (m : Nat)   -- `end >= hi`: truncate range `m` to `start`, continue at `l = m+2`
  | split (m : Nat)      -- interior removal: split range `m` and return immediately
deriving DecidableEq, Repr

/-- The binary search of `_remove`: like `insert`'s but with `hi` exclusive,
and with three distinct found-cases. -/
def removeFind (bounds : List Int) (start end_ : Int) : Nat → Nat → Nat → RemoveFindOut
  | 0, l, _ => .notFound l
  | fuel + 1, l, r =>
    if l < r then
      let m := (l + r) / 4 * 2
      let lo := bounds.getD m 0
      let hi := bounds.getD (m + 1) 0
      if start < lo then removeFind bounds start end_ fuel l m
      else if start ≥ hi then removeFind bounds start end_ fuel (m + 2) r
      else
        if start = lo then .atStart m
        else if end_ ≥ hi then .clipTail m
        else .split m
    else .notFound l

/-- The forward scan of `_remove` over the bounds from `l` on: consume ranges
fully covered by the removed interval; a final partially covered range has its
start raised to `end`.  Returns (new suffix, removed count from consumed
ranges, count delta from the clipped range). -/
def removeScan (end_ : Int) : List Int → List Int × Int × Int
  | lo :: hi :: rest =>
    if end_ ≤ lo then (lo :: hi :: rest, 0, 0)
    else if end_ < hi then (end_ :: hi :: rest, 0, end_ - lo)
    else
      let s := removeScan end_ rest
      (s.1, s.2.1 + (hi - lo), s.2.2)
  | other => (other, 0, 0)

/-- The scan-and-splice tail of `_remove`, shared by its non-returning search
outcomes. -/
def removeAssemble (end_ : Int) (l : Nat) (bounds : List Int) (count : Int) : RangeSet :=
  let s := removeScan end_ (bounds.drop l)
  let newBounds := bounds.take l ++ s.1
  let newCount := count - s.2.2 - s.2.1
  ⟨newBounds, if newBounds.length = 0 then 0 else newCount⟩

/-- `RangeSet.remove` (the public wrapper around `_remove`, whose returned
index is unused here). -/
def remove (rs : RangeSet) (start end_ : Int) : RangeSet :=
  if ¬ start < end_ then rs
  else if rs.count = 0 then rs
  else
    match removeFind rs.bounds start end_ (rs.bounds.length + 1) 0 rs.bounds.length with
    | .notFound l => removeAssemble end_ l rs.bounds rs.count
    | .atStart m => removeAssemble end_ m rs.bounds rs.count
    | .clipTail m =>
      let hi := rs.bounds.getD (m + 1) 0
      removeAssemble end_ (m + 2)
        (rs.bounds.take (m + 1) ++ [start] ++ rs.bounds.drop (m + 2))
        (rs.count - (hi - start))
    | .split m =>
      let hi := rs.bounds.getD (m + 1) 0
      ⟨rs.bounds.take (m + 1) ++ [start, end_, hi] ++ rs.bounds.drop (m + 2),
       rs.count - (end_ - start)⟩

/-- The binary search of `toggle`: the first index (of either parity) whose
bound is `≥ start`.  `(l + r) >>> 1` on even naturals of this size is
`(l + r) / 2`. -/
def lowerBound (bounds : List Int) (start : Int) : Nat → Nat → Nat → Nat
  | 0, l, _ => l
  | fuel + 1, l, r =>
    if l < r then
      let m := (l + r) / 2
      if start ≤ bounds.getD m 0 then lowerBound bounds start fuel l m
      else lowerBound bounds start fuel (m + 1) r
    else l

/-- The linear scan of `toggle`: how many bounds from position `l` on are
`< end`. -/
def toggleScanGo (end_ : Int) : List Int → Nat
  | [] => 0
  | v :: rest => if end_ ≤ v then 0 else toggleScanGo end_ rest + 1

/-- `RangeSet.toggle`: symmetric difference with `[start, end)`, implemented
as boundary-point surgery on the flat bounds list followed by a recount. -/
def toggle (rs : RangeSet) (start end_ : Int) : RangeSet :=
  if ¬ start < end_ then rs
  else if rs.count = 0 then
    ⟨rs.bounds ++ [start, end_], rs.count + (end_ - start)⟩
  else
    let len := rs.bounds.length
    let l := lowerBound rs.bounds start (len + 1) 0 len
    let r := l + toggleScanGo end_ (rs.bounds.drop l)
    let br :=
      if l ≠ len ∧ start = rs.bounds.getD l 0
      then (rs.bounds.eraseIdx l, r - 1)
      else (rs.bounds.insertIdx l start, r + 1)
    let b2 :=
      if br.2 ≠ br.1.length ∧ end_ = br.1.getD br.2 0
      then br.1.eraseIdx br.2
      else br.1.insertIdx br.2 end_
    ⟨b2, countVal b2⟩

/-- The `lastHi` variable of `union` starts as `NaN`; every comparison with
`NaN` is false, which the `Option Int` model reproduces with `none`. -/
def hiLE (v : Int) (lastHi : Option Int) : Bool :=
  match lastHi with
  | some lh => decide (v ≤ lh)
  | none => false

def hiLT (v : Int) (lastHi : Option Int) : Bool :=
  match lastHi with
  | some lh => decide (v < lh)
  | none => false

/-- The `addRest` helper of `union`: the first not-fully-covered range merges
with or follows the accumulated bounds, after which the rest is appended
verbatim. -/
def addRest (lastHi : Option Int) (acc : List Int) (count : Int) :
    List (Int × Int) → List Int × Int
  | [] => (acc, count)
  | (lo, hi) :: rest =>
    if hiLT hi lastHi then addRest lastHi acc count rest
    else
      let step :
          List Int × Int :=
        if hiLE lo lastHi then
          (acc.dropLast ++ [hi], count + (hi - lastHi.getD 0))
        else (acc ++ [lo, hi], count + (hi - lo))
      (rest.foldl (fun st p => (st.1 ++ [p.1, p.2], st.2 + (p.2 - p.1))) step)

/-- The main merge loop of `union`; consumes one range per iteration, so fuel
`xs.length + ys.length + 1` suffices. -/
def unionGo : Nat → List (Int × Int) → List (Int × Int) → Option Int →
    List Int → Int → List Int × Int
  | 0, _, _, _, acc, count => (acc, count)
  | _ + 1, [], ys, lastHi, acc, count => addRest lastHi acc count ys
  | _ + 1, xs, [], lastHi, acc, count => addRest lastHi acc count xs
  | fuel + 1, (tl, th) :: xs, (ol, oh) :: ys, lastHi, acc, count =>
    let pick :=
      if tl < ol then ((tl, th), xs, (ol, oh) :: ys)
      else ((ol, oh), (tl, th) :: xs, ys)
    let lo := pick.1.1
    let hi := pick.1.2
    if hiLE hi lastHi then unionGo fuel pick.2.1 pick.2.2 lastHi acc count
    else if hiLE lo lastHi then
      unionGo fuel pick.2.1 pick.2.2 (some hi)
        (acc.dropLast ++ [hi]) (count + (hi - lastHi.getD 0))
    else
      unionGo fuel pick.2.1 pick.2.2 (some hi) (acc ++ [lo, hi]) (count + (hi - lo))

/-- `RangeSet.union`. -/
def union (rs other : RangeSet) : RangeSet :=
  let xs := pairsOf rs.bounds
  let ys := pairsOf other.bounds
  let r := unionGo (xs.length + ys.length + 1) xs ys none [] 0
  ⟨r.1, r.2⟩

/-- The merge loop of `intersection`; consumes at least one range per
iteration. -/
def interGo : Nat → List (Int × Int) → List (Int × Int) → List Int → Int →
    List Int × Int
  | 0, _, _, acc, count => (acc, count)
  | _ + 1, [], _, acc, count => (acc, count)
  | _ + 1, _, [], acc, count => (acc, count)
  | fuel + 1, (tl, th) :: xs, (ol, oh) :: ys, acc, count =>
    let step : List Int × Int :=
      if th > ol ∧ tl < oh then
        (acc ++ [max tl ol, min th oh], count + (min th oh - max tl ol))
      else (acc, count)
    if th = oh then interGo fuel xs ys step.1 step.2
    else if th < oh then interGo fuel xs ((ol, oh) :: ys) step.1 step.2
    else interGo fuel ((tl, th) :: xs) ys step.1 step.2

/-- `RangeSet.intersection`. -/
def intersection (rs other : RangeSet) : RangeSet :=
  let xs := pairsOf rs.bounds
  let ys := pairsOf other.bounds
  let r := interGo (xs.length + ys.length + 1) xs ys [] 0
  ⟨r.1, r.2⟩

/-- `RangeSet.difference`: copy, then `remove` each range of the other set. -/
def difference (rs other : RangeSet) : RangeSet :=
  (pairsOf other.bounds).foldl (fun acc p => acc.remove p.1 p.2) rs

/-- `RangeSet.symmetricDifference`: copy the set with more ranges, then
`toggle` each range of the one with fewer. -/
def symmetricDifference (rs other : RangeSet) : RangeSet :=
  let ml :=
    if rs.bounds.length < other.bounds.length then (other, rs) else (rs, other)
  (pairsOf ml.2.bounds).foldl (fun acc p => acc.toggle p.1 p.2) ml.1

end RangeSet

/-! ## Diffing.ts — `_V`

`_V` is an array indexed by diagonals `k`, pre-filled with zeros; only `at` and
`setAt` are used, so it is modelled as a total function `Int → Nat` (fresh
value: the zero function; `setAt`: pointwise update).  The algorithm only ever
reads indices it has written or that were zero-initialised, so the model agrees
with the source on every access the source performs. -/

def vZero : Int → Nat := fun _ => 0

def vSet (v : Int → Nat) (k : Int) (x : Nat) : Int → Nat :=
  fun j => if j = k then x else v j

@[simp] theorem vSet_same (v : Int → Nat) (k : Int) (x : Nat) : vSet v k x k = x := by
  simp [vSet]

theorem vSet_other (v : Int → Nat) (k j : Int) (x : Nat) (h : j ≠ k) :
    vSet v k x j = v j := by
  simp [vSet, h]

/-! ## Diffing.ts — `_descent` -/

/-- The comparison `cmp(a[x], b[y])` performed by the snake loop of `_descent`.
Whenever the algorithm evaluates it the loop guard gives `x < n` and `y < m`,
and `0 ≤ y` is an invariant of the algorithm, so both accesses are in range;
the out-of-range completion returns `false`. -/
def matchAt (a b : List α) (cmp : α → α → Bool) (x : Nat) (y : Int) : Bool :=
  match a[x]?, getI b y with
  | some u, some w => cmp u w
  | _, _ => false

/-- Guard of the snake loop: `x < n && y < m` and the elements match. -/
def snakeGuard (a b : List α) (cmp : α → α → Bool) (k : Int) (x : Nat) : Prop :=
  x < a.length ∧ (x : Int) - k < (b.length : Int) ∧ matchAt a b cmp x ((x : Int) - k) = true

instance (a b : List α) (cmp : α → α → Bool) (k : Int) (x : Nat) :
    Decidable (snakeGuard a b cmp k x) := by unfold snakeGuard; infer_instance

/-- The snake loop, fuelled; the loop body runs only while `x < a.length`, so
any fuel of at least `a.length - x` gives the loop's exact behaviour. -/
def snakeGo (a b : List α) (cmp : α → α → Bool) (k : Int) : Nat → Nat → Nat
  | 0, x => x
  | fuel + 1, x => if snakeGuard a b cmp k x then snakeGo a b cmp k fuel (x + 1) else x

/-- The inner `while (x < n && y < m)` snake loop of `_descent`: advance along
diagonal `k` (so `y = x - k` throughout) while elements match.  Returns the
final `x`. -/
def snake (a b : List α) (cmp : α → α → Bool) (k : Int) (x : Nat) : Nat :=
  snakeGo a b cmp k (a.length - x) x

theorem snakeGo_congr (a b : List α) (cmp : α → α → Bool) (k : Int) :
    ∀ f₁ f₂ x, a.length - x ≤ f₁ → a.length - x ≤ f₂ →
      snakeGo a b cmp k f₁ x = snakeGo a b cmp k f₂ x := by
  intro f₁
  induction f₁ with
  | zero =>
    intro f₂ x h₁ _
    cases f₂ with
    | zero => rfl
    | succ f₂ =>
      have hx : ¬ snakeGuard a b cmp k x := fun h => by
        have := h.1; omega
      simp [snakeGo, hx]
  | succ f₁ ih =>
    intro f₂ x h₁ h₂
    cases f₂ with
    | zero =>
      have hx : ¬ snakeGuard a b cmp k x := fun h => by
        have := h.1; omega
      simp [snakeGo, hx]
    | succ f₂ =>
      by_cases hx : snakeGuard a b cmp k x
      · have := hx.1
        simp only [snakeGo, if_pos hx]
        exact ih f₂ (x + 1) (by omega) (by omega)
      · simp [snakeGo, hx]

/-- The defining fixpoint equation of the snake loop. -/
theorem snake_eq (a b : List α) (cmp : α → α → Bool) (k : Int) (x : Nat) :
    snake a b cmp k x =
      if snakeGuard a b cmp k x then snake a b cmp k (x + 1) else x := by
  unfold snake
  by_cases hx : snakeGuard a b cmp k x
  · have hlt := hx.1
    have h1 : a.length - x = (a.length - (x + 1)) + 1 := by omega
    rw [h1]
    simp only [snakeGo, if_pos hx]
  · cases h : a.length - x with
    | zero => simp [snakeGo, hx]
    | succ f => simp [snakeGo, hx]

/-- The per-diagonal extension step of `_descent`: choose the neighbour of the
previous row to extend from, preferring the move that increases `x` on ties. -/
def stepK (prev : Int → Nat) (d : Nat) (k : Int) : Nat :=
  if k = -(d : Int) then prev (k + 1)
  else if k ≠ (d : Int) ∧ prev (k - 1) < prev (k + 1) then prev (k + 1)
  else prev (k - 1) + 1

/-- State of the inner `for k` loop of `_descent`. -/
@[ext] structure RowSt where
  v : Int → Nat
  x : Nat
  y : Int
  broke : Bool

/-- One iteration of the inner `for k` loop of `_descent`, at `k = -d + 2*j`;
after `break iterator` has fired the remaining iterations do nothing. -/
def rowStep (a b : List α) (cmp : α → α → Bool) (prev : Int → Nat) (d : Nat)
    (st : RowSt) (j : Nat) : RowSt :=
  if st.broke then st else
  let k : Int := -(d : Int) + 2 * (j : Int)
  let x := snake a b cmp k (stepK prev d k)
  let y : Int := (x : Int) - k
  { v := vSet st.v k x, x := x, y := y,
    broke := decide (a.length ≤ x) && decide ((b.length : Int) ≤ y) }

/-- State of the outer `for d` loop of `_descent`. -/
@[ext] structure DescSt where
  trace : List (Int → Nat)
  v : Int → Nat
  x : Nat
  y : Int
  broke : Bool

/-- One iteration of the outer `for d` loop of `_descent`: push the previous
row, then run the inner loop over diagonals `-d, -d+2, …, d`.  The source
re-tests `x >= n && y >= m` after the inner loop; that re-test checks exactly
the condition already checked by the inner loop's final iteration, so the
`broke` flag subsumes it. -/
def descRow (a b : List α) (cmp : α → α → Bool) (st : DescSt) (d : Nat) : DescSt :=
  if st.broke then st else
  let row := (List.range (d + 1)).foldl (rowStep a b cmp st.v d)
    { v := vZero, x := st.x, y := st.y, broke := false }
  { trace := st.trace ++ [st.v], v := row.v, x := row.x, y := row.y, broke := row.broke }

def descentSt (a b : List α) (cmp : α → α → Bool) : DescSt :=
  (List.range (a.length + b.length + 1)).foldl (descRow a b cmp)
    { trace := [], v := vZero, x := 0, y := 0, broke := false }

/-- `_descent` from Diffing.ts: the list of `_V` rows recorded for backtracking. -/
def descent (a b : List α) (cmp : α → α → Bool) : List (Int → Nat) :=
  (descentSt a b cmp).trace

/-! ### Elementary properties of the snake loop -/

theorem snakeGo_ge (a b : List α) (cmp : α → α → Bool) (k : Int) :
    ∀ fuel x, x ≤ snakeGo a b cmp k fuel x := by
  intro fuel
  induction fuel with
  | zero => exact fun x => Nat.le_refl x
  | succ fuel ih =>
    intro x
    unfold snakeGo
    split
    · exact Nat.le_trans (Nat.le_succ x) (ih (x + 1))
    · exact Nat.le_refl x

theorem snake_ge (a b : List α) (cmp : α → α → Bool) (k : Int) (x : Nat) :
    x ≤ snake a b cmp k x :=
  snakeGo_ge a b cmp k _ x

theorem snake_no_guard (a b : List α) (cmp : α → α → Bool) (k : Int) (x : Nat) :
    ¬ snakeGuard a b cmp k (snake a b cmp k x) := by
  have main : ∀ fuel x, a.length - x ≤ fuel →
      ¬ snakeGuard a b cmp k (snakeGo a b cmp k fuel x) := by
    intro fuel
    induction fuel with
    | zero =>
      intro x h hg
      have := hg.1
      exact absurd (snakeGo a b cmp k 0 x).lt_irrefl
        (by unfold snakeGo at hg ⊢; exact absurd hg.1 (by omega))
    | succ fuel ih =>
      intro x h
      unfold snakeGo
      split
      · next hx => exact ih (x + 1) (by have := hx.1; omega)
      · next hx => exact hx
  exact main _ x (Nat.le_refl _)

theorem snake_le_length (a b : List α) (cmp : α → α → Bool) (k : Int) (x : Nat)
    (h : x ≤ a.length) : snake a b cmp k x ≤ a.length := by
  have main : ∀ fuel x, x ≤ a.length → snakeGo a b cmp k fuel x ≤ a.length := by
    intro fuel
    induction fuel with
    | zero => exact fun x h => h
    | succ fuel ih =>
      intro x h
      unfold snakeGo
      split
      · next hx => exact ih (x + 1) hx.1
      · exact h
  exact main _ x h

theorem snake_stay_or_le (a b : List α) (cmp : α → α → Bool) (k : Int) (x : Nat) :
    snake a b cmp k x = x ∨ snake a b cmp k x ≤ a.length := by
  rw [snake_eq]
  split
  · next hx => exact .inr (snake_le_length a b cmp k (x + 1) hx.1)
  · exact .inl rfl

/-- Every position strictly inside the snake's run satisfies the guard. -/
theorem snake_guard_inside (a b : List α) (cmp : α → α → Bool) (k : Int) :
    ∀ x t, x ≤ t → t < snake a b cmp k x → snakeGuard a b cmp k t := by
  have main : ∀ fuel x t, a.length - x ≤ fuel → x ≤ t →
      t < snakeGo a b cmp k fuel x → snakeGuard a b cmp k t := by
    intro fuel
    induction fuel with
    | zero =>
      intro x t _ hxt ht
      unfold snakeGo at ht
      omega
    | succ fuel ih =>
      intro x t hf hxt ht
      unfold snakeGo at ht
      split at ht
      · next hx =>
        rcases Nat.eq_or_lt_of_le hxt with h | h
        · subst h; exact hx
        · exact ih (x + 1) t (by have := hx.1; omega) h ht
      · omega
  intro x t
  exact main _ x t (Nat.le_refl _)

/-- A guarded position at or beyond the snake's start stays strictly inside. -/
theorem snake_absorb (a b : List α) (cmp : α → α → Bool) (k : Int) (x t : Nat)
    (hxt : x ≤ t) (hts : t ≤ snake a b cmp k x)
    (hg : snakeGuard a b cmp k t) : t + 1 ≤ snake a b cmp k x := by
  rcases Nat.eq_or_lt_of_le hts with h | h
  · exact absurd (h ▸ hg) (snake_no_guard a b cmp k x)
  · exact h

/-! ### Reachability: the valid edit paths explored by `_descent`

A point `(x, y)` is reachable with `e` edit moves when some path from `(0, 0)`
reaches it using `e` horizontal (removal) or vertical (insertion) moves and
any number of cost-free diagonal moves over matching element pairs.  The
horizontal and vertical moves are not bounded by the grid, exactly as in the
implementation, where `x` may run past `n` by removal steps. -/

inductive Reach (a b : List α) (cmp : α → α → Bool) : Nat → Nat → Nat → Prop where
  | nil : Reach a b cmp 0 0 0
  | diag {e x y : Nat} : Reach a b cmp e x y → x < a.length → y < b.length →
      matchAt a b cmp x (y : Int) = true → Reach a b cmp e (x + 1) (y + 1)
  | right {e x y : Nat} : Reach a b cmp e x y → Reach a b cmp (e + 1) (x + 1) y
  | down {e x y : Nat} : Reach a b cmp e x y → Reach a b cmp (e + 1) x (y + 1)

theorem Reach.k_bounds {a b : List α} {cmp : α → α → Bool} {e x y : Nat}
    (h : Reach a b cmp e x y) :
    -(e : Int) ≤ (x : Int) - y ∧ (x : Int) - y ≤ e ∧
      ((x : Int) - y + e) % 2 = 0 := by
  induction h with
  | nil => omega
  | diag _ _ _ _ ih => push_cast; push_cast at ih; omega
  | right _ ih => push_cast; push_cast at ih; omega
  | down _ ih => push_cast; push_cast at ih; omega

/-- Two wasted edits move a reachable point one step down the same diagonal. -/
theorem Reach.pad {a b : List α} {cmp : α → α → Bool} {e x y : Nat}
    (h : Reach a b cmp e x y) : Reach a b cmp (e + 2) (x + 1) (y + 1) :=
  .down (.right h)

theorem Reach.pad_many {a b : List α} {cmp : α → α → Bool} {e x y : Nat}
    (h : Reach a b cmp e x y) (t : Nat) :
    Reach a b cmp (e + 2 * t) (x + t) (y + t) := by
  induction t with
  | zero => simpa using h
  | succ t ih =>
    have := ih.pad
    have h1 : e + 2 * t + 2 = e + 2 * (t + 1) := by ring
    have h2 : x + t + 1 = x + (t + 1) := by ring
    have h3 : y + t + 1 = y + (t + 1) := by ring
    rwa [h1, h2, h3] at this

/-- Diagonal validity at depth `d`: the diagonals the inner loop writes. -/
def validK (d : Nat) (k : Int) : Prop :=
  -(d : Int) ≤ k ∧ k ≤ (d : Int) ∧ (k + d) % 2 = 0

instance (d : Nat) (k : Int) : Decidable (validK d k) := by
  unfold validK; infer_instance

/-- The idealised rows of `_descent`: row `d` as it would be computed with no
early exit.  Unwritten diagonals keep the zero of the freshly allocated `_V`. -/
def idealV (a b : List α) (cmp : α → α → Bool) : Nat → Int → Nat
  | 0 => fun k =>
      if validK 0 k then snake a b cmp k (stepK vZero 0 k) else 0
  | d + 1 => fun k =>
      if validK (d + 1) k then
        snake a b cmp k (stepK (idealV a b cmp d) (d + 1) k)
      else 0

/-- The row each depth reads its predecessor values from: the zero-filled
dummy `_V(1)` at depth 0, and row `d - 1` afterwards. -/
def prevV (a b : List α) (cmp : α → α → Bool) : Nat → Int → Nat
  | 0 => vZero
  | d + 1 => idealV a b cmp d

theorem idealV_eq (a b : List α) (cmp : α → α → Bool) (d : Nat) (k : Int) :
    idealV a b cmp d k =
      if validK d k then snake a b cmp k (stepK (prevV a b cmp d) d k) else 0 := by
  cases d <;> rfl

theorem idealV_eq_of_valid (a b : List α) (cmp : α → α → Bool) {d : Nat} {k : Int}
    (h : validK d k) :
    idealV a b cmp d k = snake a b cmp k (stepK (prevV a b cmp d) d k) := by
  rw [idealV_eq, if_pos h]

/-- Furthest-reaching property: the idealised row value on a diagonal
dominates every point reachable with that many edits on that diagonal.  This
is where the greedy tie-break is shown to lose no reachable point. -/
theorem Reach.le_idealV {a b : List α} {cmp : α → α → Bool} :
    ∀ {e x y : Nat}, Reach a b cmp e x y →
      x ≤ idealV a b cmp e ((x : Int) - y) := by
  intro e x y h
  induction h with
  | nil => exact Nat.zero_le _
  | diag hr hx hy hm ih =>
    rename_i e x y
    have hb := hr.k_bounds
    have hk : ((x + 1 : Nat) : Int) - ((y + 1 : Nat) : Int) = (x : Int) - y := by
      push_cast; ring
    rw [hk]
    set k : Int := (x : Int) - y with hkdef
    have hv : validK e k := ⟨hb.1, hb.2.1, hb.2.2⟩
    rw [idealV_eq_of_valid a b cmp hv] at ih ⊢
    set x0 := stepK (prevV a b cmp e) e k with hx0
    rcases Nat.lt_or_ge x x0 with hlt | hge
    · exact Nat.le_trans hlt (snake_ge a b cmp k x0)
    · refine snake_absorb a b cmp k x0 x hge ih ?_
      refine ⟨hx, ?_, ?_⟩
      · rw [show (x : Int) - k = (y : Int) by omega]; exact_mod_cast hy
      · rw [show (x : Int) - k = (y : Int) by omega]; exact hm
  | right hr ih =>
    rename_i e x y
    have hb := hr.k_bounds
    have hk : ((x + 1 : Nat) : Int) - (y : Int) = ((x : Int) - y) + 1 := by
      push_cast; ring
    rw [hk]
    set k : Int := (x : Int) - y with hkdef
    have hv : validK (e + 1) (k + 1) := by
      refine ⟨by push_cast; omega, by push_cast; omega, ?_⟩
      push_cast
      omega
    rw [idealV_eq_of_valid a b cmp hv]
    refine Nat.le_trans ?_ (snake_ge a b cmp (k + 1) _)
    unfold stepK
    have h1 : ¬ (k + 1 = -((e + 1 : Nat) : Int)) := by push_cast; omega
    rw [if_neg h1]
    have h2 : k + 1 - 1 = k := by ring
    split
    · next hcond =>
      rw [show prevV a b cmp (e + 1) = idealV a b cmp e from rfl] at hcond ⊢
      rw [h2] at hcond
      omega
    · next hcond =>
      rw [show prevV a b cmp (e + 1) = idealV a b cmp e from rfl, h2]
      omega
  | down hr ih =>
    rename_i e x y
    have hb := hr.k_bounds
    have hk : (x : Int) - ((y + 1 : Nat) : Int) = ((x : Int) - y) - 1 := by
      push_cast; ring
    rw [hk]
    set k : Int := (x : Int) - y with hkdef
    have hv : validK (e + 1) (k - 1) := by
      refine ⟨by push_cast; omega, by push_cast; omega, ?_⟩
      push_cast
      omega
    rw [idealV_eq_of_valid a b cmp hv]
    refine Nat.le_trans ?_ (snake_ge a b cmp (k - 1) _)
    unfold stepK
    have h2 : k - 1 + 1 = k := by ring
    rw [show prevV a b cmp (e + 1) = idealV a b cmp e from rfl]
    split
    · next hcond => rw [h2]; exact ih
    · split
      · next hcond => rw [h2]; exact ih
      · next hcond hcond2 =>
        rw [h2] at hcond2
        have h3 : ¬ (k - 1 = ((e + 1 : Nat) : Int)) := by push_cast; omega
        have h4 : idealV a b cmp e (k - 1 - 1) ≥ idealV a b cmp e k := by
          rcases Decidable.em
            (idealV a b cmp e (k - 1 - 1) < idealV a b cmp e k) with hl | hl
          · exact absurd ⟨h3, hl⟩ hcond2
          · omega
        omega

/-- Extending reachability along a snake: consuming the whole matched run
from a reachable point stays reachable with the same edit count. -/
theorem Reach.snake_extend {a b : List α} {cmp : α → α → Bool} {k : Int} :
    ∀ {e x y : Nat}, Reach a b cmp e x y → (y : Int) = (x : Int) - k →
      Reach a b cmp e (snake a b cmp k x) (y + (snake a b cmp k x - x)) := by
  have main : ∀ fuel, ∀ {e x y : Nat}, a.length - x ≤ fuel →
      Reach a b cmp e x y → (y : Int) = (x : Int) - k →
      Reach a b cmp e (snake a b cmp k x) (y + (snake a b cmp k x - x)) := by
    intro fuel
    induction fuel with
    | zero =>
      intro e x y hf hr hy
      rw [snake_eq]
      split
      · next hg => exact absurd hg.1 (by omega)
      · simpa using hr
    | succ fuel ih =>
      intro e x y hf hr hy
      rw [snake_eq]
      split
      · next hg =>
        have hd : Reach a b cmp e (x + 1) (y + 1) := by
          refine hr.diag hg.1 ?_ ?_
          · have := hg.2.1; omega
          · have := hg.2.2; rwa [show (x : Int) - k = (y : Int) by omega] at this
        have := ih (x := x + 1) (y := y + 1) (by omega) hd (by push_cast; omega)
        have hge := snake_ge a b cmp k (x + 1)
        rw [show y + 1 + (snake a b cmp k (x + 1) - (x + 1)) =
          y + (snake a b cmp k (x + 1) - x) by omega] at this
        exact this
      · simpa using hr
  intro e x y hr hy
  exact main _ (Nat.le_refl _) hr hy

/-- Every idealised row entry on a valid diagonal is reachable (and in
particular lies on or above its diagonal: `y ≥ 0`). -/
theorem idealV_reach (a b : List α) (cmp : α → α → Bool) :
    ∀ (d : Nat) (k : Int), validK d k →
      ∃ y : Nat, (y : Int) = (idealV a b cmp d k : Int) - k ∧
        Reach a b cmp d (idealV a b cmp d k) y := by
  intro d
  induction d with
  | zero =>
    intro k hv
    have hk : k = 0 := by
      rcases hv with ⟨h1, h2, _⟩; omega
    subst hk
    rw [idealV_eq_of_valid a b cmp hv]
    have h0 : stepK (prevV a b cmp 0) 0 0 = 0 := by
      unfold stepK prevV vZero
      simp
    rw [h0]
    have := Reach.snake_extend (k := 0) (Reach.nil : Reach a b cmp 0 0 0)
      (by simp)
    refine ⟨0 + (snake a b cmp 0 0 - 0), ?_, this⟩
    have hge := snake_ge a b cmp 0 0
    push_cast
    omega
  | succ d ih =>
    intro k hv
    rw [idealV_eq_of_valid a b cmp hv]
    set x0 := stepK (prevV a b cmp (d + 1)) (d + 1) k with hx0def
    suffices h : ∃ y0 : Nat, (y0 : Int) = (x0 : Int) - k ∧
        Reach a b cmp (d + 1) x0 y0 by
      rcases h with ⟨y0, hy0, hr0⟩
      refine ⟨y0 + (snake a b cmp k x0 - x0), ?_, hr0.snake_extend hy0⟩
      have hge := snake_ge a b cmp k x0
      push_cast
      omega
    rw [hx0def]
    unfold stepK
    rw [show prevV a b cmp (d + 1) = idealV a b cmp d from rfl]
    rcases hv with ⟨hv1, hv2, hv3⟩
    split
    · next hk =>
      have hvp : validK d (k + 1) := by
        refine ⟨by omega, by push_cast at hk ⊢; omega, by push_cast at hv3 ⊢; omega⟩
      rcases ih (k + 1) hvp with ⟨yp, hyp, hrp⟩
      exact ⟨yp + 1, by push_cast; omega, hrp.down⟩
    · next hk =>
      split
      · next hcond =>
        have hvp : validK d (k + 1) := by
          refine ⟨by omega, ?_, by push_cast at hv3 ⊢; omega⟩
          have h5 := hcond.1
          push_cast at hv2 hv3 h5 ⊢
          omega
        rcases ih (k + 1) hvp with ⟨yp, hyp, hrp⟩
        exact ⟨yp + 1, by push_cast; omega, hrp.down⟩
      · next hcond =>
        have hvp : validK d (k - 1) := by
          refine ⟨?_, by omega, by push_cast at hv3 ⊢; omega⟩
          have : ¬ (k = -((d : Int) + 1)) := by push_cast at hk; omega
          have hpar : (k + (d + 1)) % 2 = 0 := by push_cast at hv3 ⊢; omega
          omega
        rcases ih (k - 1) hvp with ⟨yp, hyp, hrp⟩
        exact ⟨yp, by push_cast; push_cast at hyp; omega, hrp.right⟩

theorem Reach.parity {a b : List α} {cmp : α → α → Bool} {e x y : Nat}
    (h : Reach a b cmp e x y) : (x + y) % 2 = e % 2 := by
  induction h with
  | nil => rfl
  | diag _ _ _ _ ih => omega
  | right _ ih => omega
  | down _ ih => omega

/-- A reachable point past the right edge of the grid can be traded for a
point on the edge, saving at least the overshoot in edits. -/
theorem Reach.cross_x {a b : List α} {cmp : α → α → Bool} :
    ∀ {e x y : Nat}, Reach a b cmp e x y → a.length ≤ x →
      ∃ e₁ y₁, Reach a b cmp e₁ a.length y₁ ∧ y₁ ≤ y ∧
        e₁ + (x - a.length) + (y - y₁) ≤ e := by
  intro e x y h
  induction h with
  | nil =>
    intro hn
    have h0 : a.length = 0 := by omega
    exact ⟨0, 0, by rw [h0]; exact Reach.nil, Nat.le_refl 0, by omega⟩
  | diag hr hx hy hm ih =>
    rename_i e x y
    intro hn
    have hxn : x + 1 = a.length := by omega
    exact ⟨e, y + 1, hxn ▸ hr.diag hx hy hm, Nat.le_refl _, by omega⟩
  | right hr ih =>
    rename_i e x y
    intro hn
    rcases Nat.lt_or_ge x a.length with hlt | hge
    · have hxn : x + 1 = a.length := by omega
      exact ⟨e + 1, y, hxn ▸ hr.right, Nat.le_refl _, by omega⟩
    · rcases ih hge with ⟨e₁, y₁, hr₁, hy₁, hs⟩
      exact ⟨e₁, y₁, hr₁, hy₁, by omega⟩
  | down hr ih =>
    rename_i e x y
    intro hn
    rcases ih hn with ⟨e₁, y₁, hr₁, hy₁, hs⟩
    exact ⟨e₁, y₁, hr₁, by omega, by omega⟩

/-- Symmetrically for the bottom edge. -/
theorem Reach.cross_y {a b : List α} {cmp : α → α → Bool} :
    ∀ {e x y : Nat}, Reach a b cmp e x y → b.length ≤ y →
      ∃ e₁ x₁, Reach a b cmp e₁ x₁ b.length ∧ x₁ ≤ x ∧
        e₁ + (y - b.length) + (x - x₁) ≤ e := by
  intro e x y h
  induction h with
  | nil =>
    intro hm
    have h0 : b.length = 0 := by omega
    exact ⟨0, 0, by rw [h0]; exact Reach.nil, Nat.le_refl 0, by omega⟩
  | diag hr hx hy hm ih =>
    rename_i e x y
    intro hn
    have hyn : y + 1 = b.length := by omega
    exact ⟨e, x + 1, hyn ▸ hr.diag hx hy hm, Nat.le_refl _, by omega⟩
  | down hr ih =>
    rename_i e x y
    intro hn
    rcases Nat.lt_or_ge y b.length with hlt | hge
    · have hyn : y + 1 = b.length := by omega
      exact ⟨e + 1, x, hyn ▸ hr.down, Nat.le_refl _, by omega⟩
    · rcases ih hge with ⟨e₁, x₁, hr₁, hx₁, hs⟩
      exact ⟨e₁, x₁, hr₁, hx₁, by omega⟩
  | right hr ih =>
    rename_i e x y
    intro hn
    rcases ih hn with ⟨e₁, x₁, hr₁, hx₁, hs⟩
    exact ⟨e₁, x₁, hr₁, by omega, by omega⟩

theorem Reach.down_many {a b : List α} {cmp : α → α → Bool} {e x y : Nat}
    (h : Reach a b cmp e x y) (t : Nat) : Reach a b cmp (e + t) x (y + t) := by
  induction t with
  | zero => exact h
  | succ t ih => exact ih.down

theorem Reach.right_many {a b : List α} {cmp : α → α → Bool} {e x y : Nat}
    (h : Reach a b cmp e x y) (t : Nat) : Reach a b cmp (e + t) (x + t) y := by
  induction t with
  | zero => exact h
  | succ t ih => exact ih.right

/-- The condition `x >= n && y >= m` checked right after `setAt`, expressed on
the idealised rows. -/
def breakCond (a b : List α) (cmp : α → α → Bool) (d : Nat) (k : Int) : Prop :=
  validK d k ∧ a.length ≤ idealV a b cmp d k ∧
    (b.length : Int) ≤ (idealV a b cmp d k : Int) - k

instance (a b : List α) (cmp : α → α → Bool) (d : Nat) (k : Int) :
    Decidable (breakCond a b cmp d k) := by
  unfold breakCond; infer_instance

/-- The break always happens exactly at `(n, m)`: if an idealised entry
satisfies the break condition and no entry of any earlier row does, that entry
is the point `(n, m)`. -/
theorem breakCond_point (a b : List α) (cmp : α → α → Bool) (d : Nat) (k : Int)
    (hbc : breakCond a b cmp d k)
    (hmin : ∀ d' < d, ∀ k', ¬ breakCond a b cmp d' k') :
    idealV a b cmp d k = a.length ∧
      (idealV a b cmp d k : Int) - k = (b.length : Int) := by
  rcases hbc with ⟨hv, hxn, hym⟩
  set x := idealV a b cmp d k with hxdef
  -- Step 1: not both coordinates overshoot.
  have hnotboth : ¬ (a.length < x ∧ (b.length : Int) < (x : Int) - k) := by
    rintro ⟨hxo, hyo⟩
    have hsn := snake_stay_or_le a b cmp k (stepK (prevV a b cmp d) d k)
    rw [← idealV_eq_of_valid a b cmp hv, ← hxdef] at hsn
    have hx0 : x = stepK (prevV a b cmp d) d k := by
      rcases hsn with h | h
      · exact h
      · omega
    cases d with
    | zero =>
      have hk0 : k = 0 := by rcases hv with ⟨h1, h2, _⟩; omega
      rw [hk0] at hx0
      unfold stepK prevV vZero at hx0
      simp at hx0
      omega
    | succ d' =>
      rcases hv with ⟨hv1, hv2, hv3⟩
      unfold stepK at hx0
      rw [show prevV a b cmp (d' + 1) = idealV a b cmp d' from rfl] at hx0
      by_cases hk1 : k = -((d' + 1 : Nat) : Int)
      · rw [if_pos hk1] at hx0
        refine hmin d' (Nat.lt_succ_self d') (k + 1)
          ⟨⟨by push_cast at hk1 ⊢; omega, by push_cast at hk1 ⊢; omega,
              by push_cast at hv3 ⊢; omega⟩, ?_, ?_⟩
        · rw [← hx0]; omega
        · rw [← hx0]; omega
      · rw [if_neg hk1] at hx0
        by_cases hk2 : k ≠ ((d' + 1 : Nat) : Int) ∧
            idealV a b cmp d' (k - 1) < idealV a b cmp d' (k + 1)
        · rw [if_pos hk2] at hx0
          refine hmin d' (Nat.lt_succ_self d') (k + 1)
            ⟨⟨by push_cast at hk1 ⊢; omega,
                by have := hk2.1; push_cast at this hv3 ⊢; omega,
                by push_cast at hv3 ⊢; omega⟩, ?_, ?_⟩
          · rw [← hx0]; omega
          · rw [← hx0]; omega
        · rw [if_neg hk2] at hx0
          refine hmin d' (Nat.lt_succ_self d') (k - 1)
            ⟨⟨by push_cast at hk1 hv3 ⊢; omega, by push_cast at hv3 ⊢; omega,
                by push_cast at hv3 ⊢; omega⟩, ?_, ?_⟩
          · rw [show idealV a b cmp d' (k - 1) = x - 1 by omega]; omega
          · rw [show idealV a b cmp d' (k - 1) = x - 1 by omega]
            push_cast
            omega
  -- Step 2: an overshooting break entry contradicts row minimality.
  rcases idealV_reach a b cmp d k hv with ⟨y, hy, hr⟩
  rw [← hxdef] at hy hr
  by_cases hxo : a.length < x
  · exfalso
    have hym2 : y = b.length := by
      have := hnotboth
      omega
    subst hym2
    rcases hr.cross_x (by omega) with ⟨e₁, y₁, hr₁, hy₁, hs⟩
    have hr₂ : Reach a b cmp (e₁ + (b.length - y₁)) a.length b.length := by
      have h2 := hr₁.down_many (b.length - y₁)
      rwa [show y₁ + (b.length - y₁) = b.length by omega] at h2
    have hp1 := hr.parity
    have hp2 := hr₂.parity
    have ht : e₁ + (b.length - y₁) + 2 * ((d - (x - a.length) -
        (e₁ + (b.length - y₁))) / 2) = d - (x - a.length) := by omega
    have hr₃ := hr₂.pad_many ((d - (x - a.length) - (e₁ + (b.length - y₁))) / 2)
    rw [ht] at hr₃
    have hfr := hr₃.le_idealV
    have hkb := hr₃.k_bounds
    have hkk : ((a.length + (d - (x - a.length) - (e₁ + (b.length - y₁))) / 2 : Nat) : Int) -
        ((b.length + (d - (x - a.length) - (e₁ + (b.length - y₁))) / 2 : Nat) : Int) =
        (a.length : Int) - b.length := by push_cast; ring
    rw [hkk] at hfr hkb
    refine hmin (d - (x - a.length)) (by omega) ((a.length : Int) - b.length)
      ⟨⟨hkb.1, hkb.2.1, hkb.2.2⟩, by omega, ?_⟩
    have hfr2 : a.length + (d - (x - a.length) - (e₁ + (b.length - y₁))) / 2 ≤
        idealV a b cmp (d - (x - a.length)) ((a.length : Int) - b.length) := hfr
    push_cast
    push_cast at hfr2
    omega
  · by_cases hyo : (b.length : Int) < (x : Int) - k
    · exfalso
      have hxn2 : x = a.length := by omega
      rcases hr.cross_y (by omega) with ⟨e₁, x₁, hr₁, hx₁, hs⟩
      have hr₂ : Reach a b cmp (e₁ + (a.length - x₁)) a.length b.length := by
        have h2 := hr₁.right_many (a.length - x₁)
        rwa [show x₁ + (a.length - x₁) = a.length by omega] at h2
      have hp1 := hr.parity
      have hp2 := hr₂.parity
      have ht : e₁ + (a.length - x₁) + 2 * ((d - (y - b.length) -
          (e₁ + (a.length - x₁))) / 2) = d - (y - b.length) := by omega
      have hr₃ := hr₂.pad_many ((d - (y - b.length) - (e₁ + (a.length - x₁))) / 2)
      rw [ht] at hr₃
      have hfr := hr₃.le_idealV
      have hkb := hr₃.k_bounds
      have hkk : ((a.length + (d - (y - b.length) - (e₁ + (a.length - x₁))) / 2 : Nat) : Int) -
          ((b.length + (d - (y - b.length) - (e₁ + (a.length - x₁))) / 2 : Nat) : Int) =
          (a.length : Int) - b.length := by push_cast; ring
      rw [hkk] at hfr hkb
      refine hmin (d - (y - b.length)) (by omega) ((a.length : Int) - b.length)
        ⟨⟨hkb.1, hkb.2.1, hkb.2.2⟩, by omega, ?_⟩
      have hfr2 : a.length + (d - (y - b.length) - (e₁ + (a.length - x₁))) / 2 ≤
          idealV a b cmp (d - (y - b.length)) ((a.length : Int) - b.length) := hfr
      push_cast
      push_cast at hfr2
      omega
    · constructor <;> omega

/-! ### The descent fold, characterised by the idealised rows -/

theorem rowFold_broke (a b : List α) (cmp : α → α → Bool) (prev : Int → Nat)
    (d : Nat) :
    ∀ (l : List Nat) (st : RowSt), st.broke = true →
      l.foldl (rowStep a b cmp prev d) st = st := by
  intro l
  induction l with
  | nil => exact fun st _ => rfl
  | cons j rest ih =>
    intro st hb
    rw [List.foldl_cons, show rowStep a b cmp prev d st j = st by
      unfold rowStep; rw [if_pos hb]]
    exact ih st hb

theorem rowStep_noBroke (a b : List α) (cmp : α → α → Bool) (d : Nat)
    (st : RowSt) (j : Nat) (hb : st.broke = false) (hj : j ≤ d) :
    rowStep a b cmp (prevV a b cmp d) d st j =
      ⟨vSet st.v (-(d : Int) + 2 * j) (idealV a b cmp d (-(d : Int) + 2 * j)),
       idealV a b cmp d (-(d : Int) + 2 * j),
       (idealV a b cmp d (-(d : Int) + 2 * j) : Int) - (-(d : Int) + 2 * j),
       decide (breakCond a b cmp d (-(d : Int) + 2 * j))⟩ := by
  have hv : validK d (-(d : Int) + 2 * j) :=
    ⟨by push_cast; omega, by push_cast; omega, by push_cast; omega⟩
  unfold rowStep
  rw [if_neg (by rw [hb]; exact Bool.false_ne_true)]
  dsimp only
  rw [← idealV_eq_of_valid a b cmp hv]
  refine RowSt.ext rfl rfl rfl ?_
  show _ = decide (breakCond a b cmp d (-(d : Int) + 2 * j))
  simp only [breakCond, hv, true_and, Bool.decide_and]

/-- Characterisation of a stretch of the inner loop that hits no break:
every processed diagonal gets its idealised value, and the final `x`/`y` are
those of the last processed diagonal. -/
theorem rowFold_noBreak (a b : List α) (cmp : α → α → Bool) (d : Nat) :
    ∀ (c j₀ : Nat) (st : RowSt), j₀ + c ≤ d + 1 → st.broke = false →
      (∀ j, j₀ ≤ j → j < j₀ + c → ¬ breakCond a b cmp d (-(d : Int) + 2 * j)) →
      ((List.range' j₀ c).foldl (rowStep a b cmp (prevV a b cmp d) d) st).broke
          = false ∧
      (∀ k : Int,
        ((List.range' j₀ c).foldl (rowStep a b cmp (prevV a b cmp d) d) st).v k =
          if validK d k ∧ (j₀ : Int) ≤ (k + d) / 2 ∧ (k + d) / 2 < (j₀ : Int) + c
          then idealV a b cmp d k else st.v k) ∧
      (0 < c →
        ((List.range' j₀ c).foldl (rowStep a b cmp (prevV a b cmp d) d) st).x =
          idealV a b cmp d (-(d : Int) + 2 * ((j₀ + c - 1 : Nat) : Int)) ∧
        ((List.range' j₀ c).foldl (rowStep a b cmp (prevV a b cmp d) d) st).y =
          (idealV a b cmp d (-(d : Int) + 2 * ((j₀ + c - 1 : Nat) : Int)) : Int) -
            (-(d : Int) + 2 * ((j₀ + c - 1 : Nat) : Int))) ∧
      (c = 0 →
        (List.range' j₀ c).foldl (rowStep a b cmp (prevV a b cmp d) d) st = st) := by
  intro c
  induction c with
  | zero =>
    intro j₀ st hle hb hnb
    refine ⟨hb, fun k => ?_, fun h => absurd h (by omega), fun _ => rfl⟩
    split
    · next hcond =>
      exfalso
      rcases hcond with ⟨_, h1, h2⟩
      push_cast at h2
      omega
    · rfl
  | succ c ih =>
    intro j₀ st hle hb hnb
    rw [List.range'_succ, List.foldl_cons,
      rowStep_noBroke a b cmp d st j₀ hb (by omega)]
    set k₀ : Int := -(d : Int) + 2 * (j₀ : Int) with hk₀
    have hbk : decide (breakCond a b cmp d k₀) = false := by
      simp only [decide_eq_false_iff_not]
      exact hnb j₀ (Nat.le_refl _) (by omega)
    set st1 : RowSt :=
      ⟨vSet st.v k₀ (idealV a b cmp d k₀), idealV a b cmp d k₀,
       (idealV a b cmp d k₀ : Int) - k₀, decide (breakCond a b cmp d k₀)⟩ with hst1
    have h1 := ih (j₀ + 1) st1 (by omega) (by rw [hst1]; exact hbk)
      (fun j hj1 hj2 => hnb j (by omega) (by omega))
    refine ⟨h1.1, fun k => ?_, fun _ => ?_, fun hc => absurd hc (by omega)⟩
    · rw [h1.2.1 k]
      by_cases hcond : validK d k ∧ (j₀ : Int) ≤ (k + d) / 2 ∧
          (k + d) / 2 < (j₀ : Int) + (c + 1 : Nat)
      · rw [if_pos hcond]
        by_cases hcond2 : validK d k ∧ ((j₀ + 1 : Nat) : Int) ≤ (k + d) / 2 ∧
            (k + d) / 2 < ((j₀ + 1 : Nat) : Int) + c
        · rw [if_pos hcond2]
        · rw [if_neg hcond2]
          have hkk : k = k₀ := by
            rcases hcond with ⟨⟨hv1, hv2, hv3⟩, hc1, hc2⟩
            have h2 : ¬ (((j₀ + 1 : Nat) : Int) ≤ (k + d) / 2 ∧
                (k + d) / 2 < ((j₀ + 1 : Nat) : Int) + c) :=
              fun hh => hcond2 ⟨⟨hv1, hv2, hv3⟩, hh.1, hh.2⟩
            push_cast at h2 hc1 hc2 ⊢
            omega
          rw [hkk, hst1]
          simp [vSet]
      · rw [if_neg hcond]
        by_cases hcond2 : validK d k ∧ ((j₀ + 1 : Nat) : Int) ≤ (k + d) / 2 ∧
            (k + d) / 2 < ((j₀ + 1 : Nat) : Int) + c
        · exfalso
          rcases hcond2 with ⟨hv, hc1, hc2⟩
          push_cast at hc1 hc2
          exact hcond ⟨hv, by omega, by push_cast; omega⟩
        · rw [if_neg hcond2, hst1]
          show vSet st.v k₀ (idealV a b cmp d k₀) k = st.v k
          rw [vSet_other]
          intro hkk
          rcases Decidable.em (validK d k) with hv | hv
          · refine hcond ⟨hv, ?_, ?_⟩ <;>
            · rw [hkk, hk₀]
              push_cast
              omega
          · refine hv ?_
            rw [hkk, hk₀]
            exact ⟨by push_cast; omega, by push_cast; omega, by push_cast; omega⟩
    · rcases Nat.eq_zero_or_pos c with hc0 | hcpos
      · subst hc0
        rw [h1.2.2.2 rfl, hst1]
        constructor <;> simp
      · have h2 := h1.2.2.1 hcpos
        rw [show j₀ + 1 + c - 1 = j₀ + (c + 1) - 1 by omega] at h2
        exact h2

/-- A full row with no break: every diagonal is written with its idealised
value and the loop does not exit. -/
theorem rowFold_full (a b : List α) (cmp : α → α → Bool) (d : Nat)
    (x₀ : Nat) (y₀ : Int) (hnb : ∀ k, ¬ breakCond a b cmp d k) :
    (List.range (d + 1)).foldl (rowStep a b cmp (prevV a b cmp d) d)
        ⟨vZero, x₀, y₀, false⟩ =
      ⟨idealV a b cmp d,
       ((List.range (d + 1)).foldl (rowStep a b cmp (prevV a b cmp d) d)
         ⟨vZero, x₀, y₀, false⟩).x,
       ((List.range (d + 1)).foldl (rowStep a b cmp (prevV a b cmp d) d)
         ⟨vZero, x₀, y₀, false⟩).y,
       false⟩ := by
  rw [List.range_eq_range']
  have h := rowFold_noBreak a b cmp d (d + 1) 0 ⟨vZero, x₀, y₀, false⟩
    (by omega) rfl (fun j _ _ => hnb _)
  refine RowSt.ext ?_ rfl rfl h.1
  funext k
  rw [h.2.1 k]
  split
  · rfl
  · next hcond =>
    show (0 : Nat) = idealV a b cmp d k
    rw [idealV_eq]
    by_cases hv : validK d k
    · exfalso
      refine hcond ⟨hv, ?_, ?_⟩
      · rcases hv with ⟨h1, _, h3⟩; omega
      · rcases hv with ⟨h1, h2, h3⟩; push_cast; omega
    · rw [if_neg hv]

/-- A row whose first break is at diagonal index `js`: the loop exits there,
leaving that diagonal's entry in `x` and `y`. -/
theorem rowFold_breakAt (a b : List α) (cmp : α → α → Bool) (d : Nat)
    (x₀ : Nat) (y₀ : Int) (js : Nat) (hjs : js ≤ d)
    (hbc : breakCond a b cmp d (-(d : Int) + 2 * js))
    (hmin : ∀ j < js, ¬ breakCond a b cmp d (-(d : Int) + 2 * j)) :
    ((List.range (d + 1)).foldl (rowStep a b cmp (prevV a b cmp d) d)
        ⟨vZero, x₀, y₀, false⟩).broke = true ∧
    ((List.range (d + 1)).foldl (rowStep a b cmp (prevV a b cmp d) d)
        ⟨vZero, x₀, y₀, false⟩).x = idealV a b cmp d (-(d : Int) + 2 * js) ∧
    ((List.range (d + 1)).foldl (rowStep a b cmp (prevV a b cmp d) d)
        ⟨vZero, x₀, y₀, false⟩).y =
      (idealV a b cmp d (-(d : Int) + 2 * js) : Int) - (-(d : Int) + 2 * js) := by
  rw [List.range_eq_range',
    show d + 1 = (d + 1 - js) + js by omega, ← List.range'_append_1, List.foldl_append]
  have h := rowFold_noBreak a b cmp d js 0 ⟨vZero, x₀, y₀, false⟩
    (by omega) rfl (fun j _ hj => hmin j (by omega))
  set st1 := (List.range' 0 js).foldl (rowStep a b cmp (prevV a b cmp d) d)
    ⟨vZero, x₀, y₀, false⟩ with hst1
  have hc : d + 1 - js = (d - js) + 1 := by omega
  rw [show (0 + js) = js by omega, hc, List.range'_succ, List.foldl_cons,
    rowStep_noBroke a b cmp d st1 js h.1 hjs,
    rowFold_broke a b cmp (prevV a b cmp d) d _ _ (by simpa using hbc)]
  exact ⟨by simpa using hbc, rfl, rfl⟩

theorem descRow_broke (a b : List α) (cmp : α → α → Bool) :
    ∀ (l : List Nat) (st : DescSt), st.broke = true →
      l.foldl (descRow a b cmp) st = st := by
  intro l
  induction l with
  | nil => exact fun st _ => rfl
  | cons d rest ih =>
    intro st hb
    rw [List.foldl_cons, show descRow a b cmp st d = st by
      unfold descRow; rw [if_pos hb]]
    exact ih st hb

/-- Rows strictly before the first break row: the trace accumulates the
previous rows and the carried row is always the idealised one. -/
theorem rowsFold_noBreak (a b : List α) (cmp : α → α → Bool) :
    ∀ (c d₀ : Nat) (st : DescSt), st.broke = false →
      st.v = prevV a b cmp d₀ →
      st.trace = (List.range d₀).map (prevV a b cmp) →
      (∀ d', d₀ ≤ d' → d' < d₀ + c → ∀ k, ¬ breakCond a b cmp d' k) →
      ((List.range' d₀ c).foldl (descRow a b cmp) st).broke = false ∧
      ((List.range' d₀ c).foldl (descRow a b cmp) st).v = prevV a b cmp (d₀ + c) ∧
      ((List.range' d₀ c).foldl (descRow a b cmp) st).trace =
        (List.range (d₀ + c)).map (prevV a b cmp) := by
  intro c
  induction c with
  | zero =>
    intro d₀ st hb hv ht _
    exact ⟨hb, by simpa using hv, by simpa using ht⟩
  | succ c ih =>
    intro d₀ st hb hv ht hnb
    rw [List.range'_succ, List.foldl_cons]
    have hrow := rowFold_full a b cmp d₀ st.x st.y
      (hnb d₀ (Nat.le_refl _) (by omega))
    have hstep : descRow a b cmp st d₀ =
        ⟨st.trace ++ [st.v], idealV a b cmp d₀,
         ((List.range (d₀ + 1)).foldl (rowStep a b cmp (prevV a b cmp d₀) d₀)
           ⟨vZero, st.x, st.y, false⟩).x,
         ((List.range (d₀ + 1)).foldl (rowStep a b cmp (prevV a b cmp d₀) d₀)
           ⟨vZero, st.x, st.y, false⟩).y,
         false⟩ := by
      unfold descRow
      rw [if_neg (by rw [hb]; exact Bool.false_ne_true), hv]
      rw [hrow]
    rw [hstep]
    have h := ih (d₀ + 1)
      ⟨st.trace ++ [st.v], idealV a b cmp d₀,
       ((List.range (d₀ + 1)).foldl (rowStep a b cmp (prevV a b cmp d₀) d₀)
         ⟨vZero, st.x, st.y, false⟩).x,
       ((List.range (d₀ + 1)).foldl (rowStep a b cmp (prevV a b cmp d₀) d₀)
         ⟨vZero, st.x, st.y, false⟩).y,
       false⟩ rfl rfl
      (by
        show st.trace ++ [st.v] = _
        rw [ht, hv, List.range_succ, List.map_append]
        rfl)
      (fun d' h1 h2 => hnb d' (by omega) (by omega))
    rw [show d₀ + 1 + c = d₀ + (c + 1) by omega] at h
    exact h

/-- Some row of the descent satisfies the break condition. -/
def rowHasBreak (a b : List α) (cmp : α → α → Bool) (d : Nat) : Prop :=
  ∃ k, breakCond a b cmp d k

instance (a b : List α) (cmp : α → α → Bool) (d : Nat) :
    Decidable (rowHasBreak a b cmp d) := by
  refine decidable_of_iff
    (∃ j ∈ List.range (d + 1), breakCond a b cmp d (-(d : Int) + 2 * j)) ⟨?_, ?_⟩
  · rintro ⟨j, _, hj⟩
    exact ⟨_, hj⟩
  · rintro ⟨k, hk⟩
    have hv := hk.1
    refine ⟨((k + d) / 2).toNat, ?_, ?_⟩
    · rcases hv with ⟨h1, h2, h3⟩
      rw [List.mem_range]
      omega
    · have hkk : -(d : Int) + 2 * (((k + d) / 2).toNat : Int) = k := by
        rcases hv with ⟨h1, h2, h3⟩
        push_cast
        omega
      rwa [hkk]

theorem exists_rowBreak (a b : List α) (cmp : α → α → Bool) :
    ∃ d, rowHasBreak a b cmp d := by
  have hreach : Reach a b cmp (a.length + b.length) a.length b.length := by
    have h1 := (Reach.nil : Reach a b cmp 0 0 0).right_many a.length
    have h2 := h1.down_many b.length
    simpa using h2
  have hfr := hreach.le_idealV
  have hkb := hreach.k_bounds
  exact ⟨a.length + b.length, (a.length : Int) - b.length,
    ⟨hkb.1, hkb.2.1, hkb.2.2⟩, hfr, by
      have := hfr
      push_cast at this ⊢
      omega⟩

/-- The depth at which the descent loop exits. -/
def breakDepth (a b : List α) (cmp : α → α → Bool) : Nat :=
  Nat.find (exists_rowBreak a b cmp)

theorem breakDepth_le (a b : List α) (cmp : α → α → Bool) :
    breakDepth a b cmp ≤ a.length + b.length := by
  refine Nat.find_min' (exists_rowBreak a b cmp) ?_
  rcases exists_rowBreak a b cmp with _
  have hreach : Reach a b cmp (a.length + b.length) a.length b.length := by
    have h1 := (Reach.nil : Reach a b cmp 0 0 0).right_many a.length
    have h2 := h1.down_many b.length
    simpa using h2
  have hfr := hreach.le_idealV
  have hkb := hreach.k_bounds
  exact ⟨(a.length : Int) - b.length, ⟨hkb.1, hkb.2.1, hkb.2.2⟩, hfr, by
    push_cast at hfr ⊢
    omega⟩

theorem breakDepth_spec (a b : List α) (cmp : α → α → Bool) :
    rowHasBreak a b cmp (breakDepth a b cmp) :=
  Nat.find_spec (exists_rowBreak a b cmp)

theorem breakDepth_min (a b : List α) (cmp : α → α → Bool) :
    ∀ d < breakDepth a b cmp, ∀ k, ¬ breakCond a b cmp d k := by
  intro d hd k hk
  exact Nat.find_min (exists_rowBreak a b cmp) hd ⟨k, hk⟩

theorem exists_breakJ (a b : List α) (cmp : α → α → Bool) :
    ∃ j : Nat, breakCond a b cmp (breakDepth a b cmp)
      (-(breakDepth a b cmp : Int) + 2 * (j : Int)) := by
  rcases breakDepth_spec a b cmp with ⟨k, hk⟩
  have hv := hk.1
  refine ⟨((k + breakDepth a b cmp) / 2).toNat, ?_⟩
  have hkk : -(breakDepth a b cmp : Int) +
      2 * (((k + breakDepth a b cmp) / 2).toNat : Int) = k := by
    rcases hv with ⟨h1, h2, h3⟩
    push_cast
    omega
  rwa [hkk]

/-- The diagonal index within the break row at which the loop exits. -/
def breakJ (a b : List α) (cmp : α → α → Bool) : Nat :=
  Nat.find (exists_breakJ a b cmp)

/-- The diagonal at which the loop exits. -/
def breakK (a b : List α) (cmp : α → α → Bool) : Int :=
  -(breakDepth a b cmp : Int) + 2 * (breakJ a b cmp : Int)

theorem breakK_cond (a b : List α) (cmp : α → α → Bool) :
    breakCond a b cmp (breakDepth a b cmp) (breakK a b cmp) :=
  Nat.find_spec (exists_breakJ a b cmp)

theorem breakJ_le (a b : List α) (cmp : α → α → Bool) :
    breakJ a b cmp ≤ breakDepth a b cmp := by
  have h := (breakK_cond a b cmp).1
  rcases h with ⟨h1, h2, h3⟩
  unfold breakK at h2
  omega

/-- The exit point of the descent is exactly `(n, m)`. -/
theorem breakPoint (a b : List α) (cmp : α → α → Bool) :
    idealV a b cmp (breakDepth a b cmp) (breakK a b cmp) = a.length ∧
    (idealV a b cmp (breakDepth a b cmp) (breakK a b cmp) : Int) -
      breakK a b cmp = (b.length : Int) :=
  breakCond_point a b cmp (breakDepth a b cmp) (breakK a b cmp)
    (breakK_cond a b cmp) (breakDepth_min a b cmp)

theorem breakK_eq (a b : List α) (cmp : α → α → Bool) :
    breakK a b cmp = (a.length : Int) - (b.length : Int) := by
  have h := breakPoint a b cmp
  omega

/-- The final characterisation of `_descent`: the recorded trace is the dummy
row followed by the idealised rows `0, …, breakDepth - 1`. -/
theorem descent_spec (a b : List α) (cmp : α → α → Bool) :
    descent a b cmp =
      (List.range (breakDepth a b cmp + 1)).map (prevV a b cmp) ∧
    (descentSt a b cmp).broke = true ∧
    (descentSt a b cmp).x = idealV a b cmp (breakDepth a b cmp) (breakK a b cmp) ∧
    (descentSt a b cmp).y =
      (idealV a b cmp (breakDepth a b cmp) (breakK a b cmp) : Int) -
        breakK a b cmp := by
  have hD := breakDepth_le a b cmp
  have hmain : descentSt a b cmp =
      (List.range' (breakDepth a b cmp + 1)
        (a.length + b.length - breakDepth a b cmp)).foldl (descRow a b cmp)
        (descRow a b cmp
          ((List.range' 0 (breakDepth a b cmp)).foldl (descRow a b cmp)
            ⟨[], vZero, 0, 0, false⟩)
          (breakDepth a b cmp)) := by
    unfold descentSt
    rw [List.range_eq_range',
      show a.length + b.length + 1 =
        (1 + (a.length + b.length - breakDepth a b cmp)) + breakDepth a b cmp by
          omega,
      ← List.range'_append_1, List.foldl_append,
      show (0 + breakDepth a b cmp) = breakDepth a b cmp by omega,
      show (1 + (a.length + b.length - breakDepth a b cmp)) =
        (a.length + b.length - breakDepth a b cmp) + 1 by omega,
      List.range'_succ, List.foldl_cons]
  have h := rowsFold_noBreak a b cmp (breakDepth a b cmp) 0
    ⟨[], vZero, 0, 0, false⟩ rfl rfl (by simp)
    (fun d' h1 h2 => breakDepth_min a b cmp d' (by omega))
  simp only [Nat.zero_add] at h
  set st1 := (List.range' 0 (breakDepth a b cmp)).foldl (descRow a b cmp)
    ⟨[], vZero, 0, 0, false⟩ with hst1
  have hjrow := rowFold_breakAt a b cmp (breakDepth a b cmp) st1.x st1.y
    (breakJ a b cmp) (breakJ_le a b cmp) (breakK_cond a b cmp)
    (fun j hj => by
      intro hbc
      exact absurd hj (Nat.not_lt.mpr (Nat.find_min' (exists_breakJ a b cmp) hbc)))
  have hrow_eq : descRow a b cmp st1 (breakDepth a b cmp) =
      ⟨st1.trace ++ [st1.v],
       ((List.range (breakDepth a b cmp + 1)).foldl
         (rowStep a b cmp (prevV a b cmp (breakDepth a b cmp)) (breakDepth a b cmp))
         ⟨vZero, st1.x, st1.y, false⟩).v,
       ((List.range (breakDepth a b cmp + 1)).foldl
         (rowStep a b cmp (prevV a b cmp (breakDepth a b cmp)) (breakDepth a b cmp))
         ⟨vZero, st1.x, st1.y, false⟩).x,
       ((List.range (breakDepth a b cmp + 1)).foldl
         (rowStep a b cmp (prevV a b cmp (breakDepth a b cmp)) (breakDepth a b cmp))
         ⟨vZero, st1.x, st1.y, false⟩).y,
       ((List.range (breakDepth a b cmp + 1)).foldl
         (rowStep a b cmp (prevV a b cmp (breakDepth a b cmp)) (breakDepth a b cmp))
         ⟨vZero, st1.x, st1.y, false⟩).broke⟩ := by
    unfold descRow
    rw [if_neg (by rw [h.1]; exact Bool.false_ne_true), h.2.1]
  have hskip : descentSt a b cmp = descRow a b cmp st1 (breakDepth a b cmp) := by
    rw [hmain, descRow_broke a b cmp _ _ (by rw [hrow_eq]; exact hjrow.1)]
  refine ⟨?_, ?_, ?_, ?_⟩
  · show (descentSt a b cmp).trace = _
    rw [hskip, hrow_eq]
    show st1.trace ++ [st1.v] = _
    rw [h.2.2, h.2.1, List.range_succ, List.map_append]
    rfl
  · rw [hskip, hrow_eq]
    exact hjrow.1
  · rw [hskip, hrow_eq]
    exact hjrow.2.1
  · rw [hskip, hrow_eq]
    exact hjrow.2.2

/-- `ArrayChange<T> = ArrayInsertion<T> | ArrayRemoval<T>`. -/
inductive ArrayChange (α : Type u) where
  | removal (removedAt : Int) (element : α)
  | insertion (insertedAt : Int) (element : α)
deriving DecidableEq, Repr

/-- The backward snake loop, fuelled; it decrements `x` only while `px < x`,
so any fuel of at least `(x - px).toNat` gives the loop's exact behaviour. -/
def backSnakeGo (px py : Int) : Nat → Int → Int → Int × Int
  | 0, x, y => (x, y)
  | fuel + 1, x, y =>
    if px < x ∧ py < y then backSnakeGo px py fuel (x - 1) (y - 1) else (x, y)

/-- The backward snake `while (x > prev_x && y > prev_y) { x -= 1; y -= 1 }`
of `_formChanges`. -/
def backSnake (px py : Int) (x y : Int) : Int × Int :=
  backSnakeGo px py (x - px).toNat x y

theorem backSnakeGo_congr (px py : Int) :
    ∀ f₁ f₂ x y, (x - px).toNat ≤ f₁ → (x - px).toNat ≤ f₂ →
      backSnakeGo px py f₁ x y = backSnakeGo px py f₂ x y := by
  intro f₁
  induction f₁ with
  | zero =>
    intro f₂ x y h₁ _
    cases f₂ with
    | zero => rfl
    | succ f₂ =>
      have hx : ¬ (px < x ∧ py < y) := fun h => by omega
      simp [backSnakeGo, hx]
  | succ f₁ ih =>
    intro f₂ x y h₁ h₂
    cases f₂ with
    | zero =>
      have hx : ¬ (px < x ∧ py < y) := fun h => by omega
      simp [backSnakeGo, hx]
    | succ f₂ =>
      by_cases hx : px < x ∧ py < y
      · simp only [backSnakeGo, if_pos hx]
        exact ih f₂ (x - 1) (y - 1) (by omega) (by omega)
      · simp [backSnakeGo, hx]

/-- The defining fixpoint equation of the backward snake loop. -/
theorem backSnake_eq (px py x y : Int) :
    backSnake px py x y =
      if px < x ∧ py < y then backSnake px py (x - 1) (y - 1) else (x, y) := by
  unfold backSnake
  by_cases hx : px < x ∧ py < y
  · have h1 : (x - px).toNat = ((x - 1) - px).toNat + 1 := by omega
    rw [h1]
    simp only [backSnakeGo, if_pos hx]
  · cases h : (x - px).toNat with
    | zero => simp [backSnakeGo, hx]
    | succ f => simp [backSnakeGo, hx]

/-- State of the backtracking loop of `_formChanges`. -/
structure BackSt (α : Type u) where
  x : Int
  y : Int
  changes : List (ArrayChange α)

/-- One iteration (at depth `d`) of the backtracking loop of `_formChanges`. -/
def backStep [Inhabited α] (a b : List α) (trace : List (Int → Nat))
    (st : BackSt α) (d : Nat) : BackSt α :=
  let v := trace.getD d vZero
  let k : Int := st.x - st.y
  let pk : Int :=
    if k = -(d : Int) ∨ (k ≠ (d : Int) ∧ v (k - 1) < v (k + 1)) then k + 1 else k - 1
  let px : Int := (v pk : Int)
  let py : Int := px - pk
  let xy := backSnake px py st.x st.y
  let c : ArrayChange α :=
    if xy.2 ≠ py then .insertion py (jsGet b py) else .removal px (jsGet a px)
  { x := px, y := py, changes := st.changes ++ [c] }

/-- `_formChanges` from Diffing.ts: walk the trace back from `(n, m)` and record
one change per edit depth, `d = trace.length - 1, …, 1`. -/
def formChanges [Inhabited α] (a b : List α) (trace : List (Int → Nat)) :
    List (ArrayChange α) :=
  ((List.range' 1 (trace.length - 1)).reverse.foldl (backStep a b trace)
    { x := (a.length : Int), y := (b.length : Int), changes := [] }).changes

/-! ## Diffing.ts — `arrayDiff` and `ArrayDiff` -/

structure ArrayRemoval (α : Type u) where
  removedAt : Int
  element : α
deriving DecidableEq, Repr

structure ArrayInsertion (α : Type u) where
  insertedAt : Int
  element : α
deriving DecidableEq, Repr

/-- An `ArrayDiff` is an immutable collection of ascending removals and
ascending insertions.  (The lazily cached `RangeSet`s of the TS class are an
optimisation with no semantic content; here they are derived functions.) -/
structure ArrayDiff (α : Type u) where
  removals : List (ArrayRemoval α)
  insertions : List (ArrayInsertion α)
deriving DecidableEq, Repr

def changeAsRemoval : ArrayChange α → Option (ArrayRemoval α)
  | .removal i e => some ⟨i, e⟩
  | .insertion _ _ => none

def changeAsInsertion : ArrayChange α → Option (ArrayInsertion α)
  | .removal _ _ => none
  | .insertion i e => some ⟨i, e⟩

/-- `arrayDiff` from Diffing.ts: partition the change list (`filter` keeps
order), sort each part ascending by index, and afterwards add a nonzero
`droppedStart` uniformly to every index. -/
def arrayDiff [Inhabited α] (a b : List α) (equal : α → α → Bool)
    (droppedStart : Int) : ArrayDiff α :=
  let changes := formChanges a b (descent a b equal)
  let removals := jsSort
    (fun c₁ c₂ => c₁.removedAt ≤ c₂.removedAt) (changes.filterMap changeAsRemoval)
  let insertions := jsSort
    (fun c₁ c₂ => c₁.insertedAt ≤ c₂.insertedAt) (changes.filterMap changeAsInsertion)
  if droppedStart ≠ 0 then
    { removals := removals.map fun c => { c with removedAt := c.removedAt + droppedStart },
      insertions := insertions.map fun c => { c with insertedAt := c.insertedAt + droppedStart } }
  else
    { removals := removals, insertions := insertions }

namespace ArrayDiff

/-- `ArrayDiff.singleChange`. -/
def singleChange (index : Int) (oldValue newValue : α) : ArrayDiff α :=
  ⟨[⟨index, oldValue⟩], [⟨index, newValue⟩]⟩

/-- `removedIndices`: a `RangeSet` collecting every `removedAt` (one-argument
`insert`, so the range is `[i, i+1)`).  The TS getter caches the result; the
cache has no semantic content. -/
def removedIndices (d : ArrayDiff α) : RangeSet :=
  d.removals.foldl (fun rs c => rs.insert c.removedAt (c.removedAt + 1)) RangeSet.mk0

/-- `insertedIndices`: likewise for the insertions. -/
def insertedIndices (d : ArrayDiff α) : RangeSet :=
  d.insertions.foldl (fun rs c => rs.insert c.insertedAt (c.insertedAt + 1)) RangeSet.mk0

/-- `inverse`: removals and insertions swap roles, value for value. -/
def inverse (d : ArrayDiff α) : ArrayDiff α :=
  ⟨d.insertions.map fun c => ⟨c.insertedAt, c.element⟩,
   d.removals.map fun c => ⟨c.removedAt, c.element⟩⟩

/-- `applyInto`: splice out the removed ranges back to front, then splice in
the insertions range by range front to back, slicing the insertion list by the
accumulated range lengths. -/
def applyInto [Inhabited α] (d : ArrayDiff α) (array : List α) : List α :=
  let afterRemovals := d.removedIndices.reversedRanges.foldl
    (fun arr p => (jsSplice arr p.1 (p.2 - p.1) []).1) array
  (d.insertedIndices.ranges.foldl
    (fun (st : List α × Nat) p =>
      let len := (p.2 - p.1).toNat
      let newElements := ((d.insertions.drop st.2).take len).map ArrayInsertion.element
      ((jsSplice st.1 p.1 0 newElements).1, st.2 + len))
    (afterRemovals, 0)).1

/-- `apply` copies the array and calls `applyInto` on the copy; on immutable
lists the two coincide. -/
def apply [Inhabited α] (d : ArrayDiff α) (array : List α) : List α :=
  d.applyInto array

end ArrayDiff

/-! ### The edit path reconstructed by `_formChanges`

A Myers edit path walks the grid from `(0, 0)` to `(x, y)`: cost-free diagonal
moves over matching element pairs, one `removal` change per horizontal move and
one `insertion` change per vertical move, the changes listed in path order. -/

inductive EditPath [Inhabited α] (a b : List α) (cmp : α → α → Bool) :
    Nat → Nat → List (ArrayChange α) → Prop where
  | nil : EditPath a b cmp 0 0 []
  | diag {x y : Nat} {cs : List (ArrayChange α)} :
      EditPath a b cmp x y cs → x < a.length → y < b.length →
      matchAt a b cmp x (y : Int) = true → EditPath a b cmp (x + 1) (y + 1) cs
  | del {x y : Nat} {cs : List (ArrayChange α)} :
      EditPath a b cmp x y cs → x < a.length →
      EditPath a b cmp (x + 1) y (cs ++ [.removal (x : Int) (jsGet a (x : Int))])
  | ins {x y : Nat} {cs : List (ArrayChange α)} :
      EditPath a b cmp x y cs → y < b.length →
      EditPath a b cmp x (y + 1) (cs ++ [.insertion (y : Int) (jsGet b (y : Int))])

/-- A snake prolongs an edit path diagonally without recording changes. -/
theorem EditPath.diag_run [Inhabited α] {a b : List α} {cmp : α → α → Bool}
    {k : Int} {s y0 : Nat} {cs : List (ArrayChange α)}
    (h : EditPath a b cmp s y0 cs) (hy : (y0 : Int) = (s : Int) - k) :
    ∀ t : Nat, s ≤ t → t ≤ snake a b cmp k s →
      EditPath a b cmp t (y0 + (t - s)) cs := by
  intro t
  induction t with
  | zero =>
    intro hst _
    have hs : s = 0 := by omega
    subst hs
    simpa using h
  | succ t ih =>
    intro hst hts
    rcases Nat.eq_or_lt_of_le hst with he | hlt
    · rw [← he]
      simpa using h
    · have hst' : s ≤ t := by omega
      have hts' : t ≤ snake a b cmp k s := by omega
      have hg : snakeGuard a b cmp k t :=
        snake_guard_inside a b cmp k s t hst' (by omega)
      have hyt : ((y0 + (t - s) : Nat) : Int) = (t : Int) - k := by
        push_cast [Nat.cast_sub hst']
        omega
      have hp := ih hst' hts'
      have hym : y0 + (t - s) < b.length := by
        have := hg.2.1
        omega
      have hm : matchAt a b cmp t ((y0 + (t - s) : Nat) : Int) = true := by
        rw [hyt]
        exact hg.2.2
      have := hp.diag hg.1 hym hm
      rwa [show y0 + (t - s) + 1 = y0 + (t + 1 - s) by omega] at this

/-- Closed form of the backward snake for `px ≤ x`, `py ≤ y`. -/
theorem backSnake_spec (px py x y : Int) (hx : px ≤ x) (hy : py ≤ y) :
    backSnake px py x y =
      (x - min (x - px) (y - py), y - min (x - px) (y - py)) := by
  have main : ∀ t : Nat, ∀ x y : Int, px ≤ x → py ≤ y → (x - px).toNat ≤ t →
      backSnake px py x y =
        (x - min (x - px) (y - py), y - min (x - px) (y - py)) := by
    intro t
    induction t with
    | zero =>
      intro x y hx hy ht
      rw [backSnake_eq, if_neg (by omega)]
      have h0 : min (x - px) (y - py) = 0 := by omega
      rw [h0]
      simp
    | succ t ih =>
      intro x y hx hy ht
      rw [backSnake_eq]
      by_cases hg : px < x ∧ py < y
      · rw [if_pos hg, ih (x - 1) (y - 1) (by omega) (by omega) (by omega)]
        have h1 : min (x - 1 - px) (y - 1 - py) = min (x - px) (y - py) - 1 := by
          omega
        rw [h1]
        simp only [Prod.mk.injEq]
        omega
      · rw [if_neg hg]
        have h0 : min (x - px) (y - py) = 0 := by omega
        rw [h0]
        simp
  exact main _ x y hx hy (Nat.le_refl _)

/-- Invariant of the backtracking loop of `_formChanges` before processing
depth `d`: the position is the furthest-reaching point of row `d` on its
diagonal, inside the grid, and the recorded changes close any edit path
reaching the position into one reaching `(n, m)`. -/
def BackInv [Inhabited α] (a b : List α) (cmp : α → α → Bool) (d : Nat)
    (st : BackSt α) : Prop :=
  ∃ xn yn : Nat, st.x = (xn : Int) ∧ st.y = (yn : Int) ∧
    xn ≤ a.length ∧ yn ≤ b.length ∧
    validK d ((xn : Int) - (yn : Int)) ∧
    xn = idealV a b cmp d ((xn : Int) - (yn : Int)) ∧
    ∀ cs₀ : List (ArrayChange α), EditPath a b cmp xn yn cs₀ →
      EditPath a b cmp a.length b.length (cs₀ ++ st.changes.reverse)

theorem backStep_inv [Inhabited α] (a b : List α) (cmp : α → α → Bool)
    (d' : Nat) (hdD : d' + 1 ≤ breakDepth a b cmp) (st : BackSt α)
    (hinv : BackInv a b cmp (d' + 1) st) :
    BackInv a b cmp d' (backStep a b (descent a b cmp) st (d' + 1)) := by
  obtain ⟨xn, yn, hsx, hsy, hxn, hyn, hv, hxid, hpath⟩ := hinv
  have htr : (descent a b cmp).getD (d' + 1) vZero = idealV a b cmp d' := by
    rw [(descent_spec a b cmp).1, List.getD_eq_getElem?_getD, List.getElem?_map,
      List.getElem?_range (by omega : d' + 1 < breakDepth a b cmp + 1)]
    rfl
  unfold backStep
  rw [hsx, hsy, htr]
  dsimp only
  set k : Int := (xn : Int) - (yn : Int) with hkdef
  have hvk := hv
  rcases hvk with ⟨hv1, hv2, hv3⟩
  have hxid' : xn = snake a b cmp k
      (stepK (prevV a b cmp (d' + 1)) (d' + 1) k) :=
    hxid.trans (idealV_eq_of_valid a b cmp hv)
  by_cases hc : k = -((d' + 1 : Nat) : Int) ∨
      (k ≠ ((d' + 1 : Nat) : Int) ∧
        idealV a b cmp d' (k - 1) < idealV a b cmp d' (k + 1))
  · -- the predecessor lies on diagonal `k + 1`: a vertical (insertion) move
    rw [if_pos hc]
    have hstep : stepK (prevV a b cmp (d' + 1)) (d' + 1) k =
        idealV a b cmp d' (k + 1) := by
      unfold stepK
      rw [show prevV a b cmp (d' + 1) = idealV a b cmp d' from rfl]
      by_cases hk1 : k = -((d' + 1 : Nat) : Int)
      · rw [if_pos hk1]
      · rw [if_neg hk1, if_pos (hc.resolve_left hk1)]
    rw [hstep] at hxid'
    set px : Nat := idealV a b cmp d' (k + 1) with hpxdef
    have hvp : validK d' (k + 1) := by
      refine ⟨by push_cast at hc ⊢; omega, ?_, by push_cast at hv3 ⊢; omega⟩
      rcases hc with hc | hc
      · push_cast at hc ⊢
        omega
      · have := hc.1
        push_cast at this hv3 ⊢
        omega
    obtain ⟨y0, hy0, _⟩ := idealV_reach a b cmp d' (k + 1) hvp
    rw [← hpxdef] at hy0
    have hpxle : px ≤ xn := by
      rw [hxid']
      exact snake_ge a b cmp k px
    have hy0lt : y0 < yn := by omega
    have hsnake : backSnake (px : Int) ((px : Int) - (k + 1)) (xn : Int) (yn : Int) =
        ((px : Int), (px : Int) - (k + 1) + 1) := by
      rw [backSnake_spec (px : Int) ((px : Int) - (k + 1)) (xn : Int) (yn : Int)
        (by omega) (by omega)]
      have hmin : min ((xn : Int) - px) ((yn : Int) - ((px : Int) - (k + 1))) =
          (xn : Int) - px := by omega
      rw [hmin]
      simp only [Prod.mk.injEq]
      omega
    rw [hsnake]
    rw [if_pos (by dsimp only; omega :
      ((px : Int), (px : Int) - (k + 1) + 1).2 ≠ (px : Int) - (k + 1))]
    refine ⟨px, y0, rfl, by dsimp only; omega, by omega, by omega, ?_, ?_, ?_⟩
    · have : (px : Int) - (y0 : Int) = k + 1 := by omega
      rw [this]
      exact hvp
    · have : (px : Int) - (y0 : Int) = k + 1 := by omega
      rw [this]
    · intro cs₀ hp
      have hy0m : y0 < b.length := by omega
      have hstep1 := hp.ins hy0m
      have hdiag := hstep1.diag_run (k := k)
        (by push_cast; omega) xn hpxle (le_of_eq hxid')
      have hyfin : y0 + 1 + (xn - px) = yn := by omega
      rw [hyfin] at hdiag
      have hfin := hpath _ hdiag
      have hc_eq : ArrayChange.insertion ((px : Int) - (k + 1)) (jsGet b ((px : Int) - (k + 1))) =
          ArrayChange.insertion ((y0 : Nat) : Int) (jsGet b ((y0 : Nat) : Int)) := by
        rw [show ((px : Int) - (k + 1)) = ((y0 : Nat) : Int) by omega]
      rw [hc_eq]
      simpa [List.append_assoc] using hfin
  · -- the predecessor lies on diagonal `k - 1`: a horizontal (removal) move
    rw [if_neg hc]
    have hstep : stepK (prevV a b cmp (d' + 1)) (d' + 1) k =
        idealV a b cmp d' (k - 1) + 1 := by
      unfold stepK
      rw [show prevV a b cmp (d' + 1) = idealV a b cmp d' from rfl]
      rw [if_neg (fun h => hc (.inl h)), if_neg (fun h => hc (.inr h))]
    rw [hstep] at hxid'
    set px : Nat := idealV a b cmp d' (k - 1) with hpxdef
    have hknd : k ≠ -((d' + 1 : Nat) : Int) := fun h => hc (.inl h)
    have hvp : validK d' (k - 1) := by
      refine ⟨?_, by push_cast at hv2 ⊢; omega, by push_cast at hv3 ⊢; omega⟩
      push_cast at hknd hv1 hv3 ⊢
      omega
    obtain ⟨y0, hy0, _⟩ := idealV_reach a b cmp d' (k - 1) hvp
    rw [← hpxdef] at hy0
    have hpxlt : px + 1 ≤ xn := by
      rw [hxid']
      exact snake_ge a b cmp k (px + 1)
    have hsnake : backSnake (px : Int) ((px : Int) - (k - 1)) (xn : Int) (yn : Int) =
        ((px : Int) + 1, (px : Int) - (k - 1)) := by
      rw [backSnake_spec (px : Int) ((px : Int) - (k - 1)) (xn : Int) (yn : Int)
        (by omega) (by omega)]
      have hmin : min ((xn : Int) - px) ((yn : Int) - ((px : Int) - (k - 1))) =
          (yn : Int) - ((px : Int) - (k - 1)) := by omega
      rw [hmin]
      simp only [Prod.mk.injEq]
      omega
    rw [hsnake]
    rw [if_neg (by simp : ¬ ((px : Int) + 1, (px : Int) - (k - 1)).2 ≠ (px : Int) - (k - 1))]
    refine ⟨px, y0, rfl, by dsimp only; omega, by omega, by omega, ?_, ?_, ?_⟩
    · have : (px : Int) - (y0 : Int) = k - 1 := by omega
      rw [this]
      exact hvp
    · have : (px : Int) - (y0 : Int) = k - 1 := by omega
      rw [this]
    · intro cs₀ hp
      have hpxm : px < a.length := by omega
      have hstep1 := hp.del hpxm
      have hdiag := hstep1.diag_run (k := k)
        (by push_cast; omega) xn hpxlt (le_of_eq hxid')
      have hyfin : y0 + (xn - (px + 1)) = yn := by omega
      rw [hyfin] at hdiag
      have hfin := hpath _ hdiag
      simpa [List.append_assoc] using hfin

theorem backFold_inv [Inhabited α] (a b : List α) (cmp : α → α → Bool) :
    ∀ (c : Nat) (st : BackSt α), c ≤ breakDepth a b cmp →
      BackInv a b cmp c st →
      BackInv a b cmp 0
        ((List.range' 1 c).reverse.foldl (backStep a b (descent a b cmp)) st) := by
  intro c
  induction c with
  | zero =>
    intro st _ h
    simpa using h
  | succ c ih =>
    intro st hc hinv
    have hr : List.range' 1 (c + 1) = List.range' 1 c ++ [1 + c] := by
      rw [List.range'_1_concat]
    rw [hr, List.reverse_append, List.reverse_singleton, List.singleton_append,
      List.foldl_cons]
    have hstep := backStep_inv a b cmp c (by omega) st hinv
    rw [show 1 + c = c + 1 by omega]
    exact ih _ (by omega) hstep

/-- The changes produced by `_formChanges` on the recorded trace are, in
reverse, a valid Myers edit path from `(0, 0)` to `(n, m)`. -/
theorem formChanges_path [Inhabited α] (a b : List α) (cmp : α → α → Bool) :
    EditPath a b cmp a.length b.length
      (formChanges a b (descent a b cmp)).reverse := by
  have hspec := descent_spec a b cmp
  have hlen : (descent a b cmp).length = breakDepth a b cmp + 1 := by
    rw [hspec.1]
    simp
  unfold formChanges
  rw [hlen]
  simp only [Nat.add_sub_cancel]
  have hinit : BackInv a b cmp (breakDepth a b cmp)
      ⟨(a.length : Int), (b.length : Int), []⟩ := by
    have hK := breakK_eq a b cmp
    have hbc := breakK_cond a b cmp
    have hbp := breakPoint a b cmp
    refine ⟨a.length, b.length, rfl, rfl, Nat.le_refl _, Nat.le_refl _, ?_, ?_, ?_⟩
    · rw [← hK]
      exact hbc.1
    · rw [← hK]
      omega
    · intro cs₀ hp
      simpa using hp
  obtain ⟨x1, y1, hx1, hy1, _, _, hv1, hid1, htrans⟩ :=
    backFold_inv a b cmp (breakDepth a b cmp) _ (Nat.le_refl _) hinit
  have hk1 : (x1 : Int) - (y1 : Int) = 0 := by
    rcases hv1 with ⟨h1, h2, _⟩
    omega
  have hx1y1 : y1 = x1 := by omega
  have hid0 : x1 = snake a b cmp 0 0 := by
    rw [hid1, hk1, idealV_eq_of_valid a b cmp (by rw [← hk1]; exact hv1)]
    have h0 : stepK (prevV a b cmp 0) 0 0 = 0 := by
      unfold stepK prevV vZero
      simp
    rw [h0]
  have hdiag := (EditPath.nil : EditPath a b cmp 0 0 []).diag_run
    (k := 0) (by simp) x1 (Nat.zero_le _) (le_of_eq hid0)
  simp only [Nat.zero_add, Nat.sub_zero] at hdiag
  have hdiag' : EditPath a b cmp x1 y1 [] := by
    rw [hx1y1]
    exact hdiag
  have := htrans [] hdiag'
  simpa using this

/-! ### Deleting a set of positions from a list -/

/-- Delete the positions `idxs` (given strictly ascending) from a list, by
erasing from the largest position down. -/
def sieve (l : List α) (idxs : List Nat) : List α :=
  idxs.foldr (fun i t => t.eraseIdx i) l

theorem sieve_nil (l : List α) : sieve l [] = l := rfl

theorem sieve_snoc (l : List α) (idxs : List Nat) (j : Nat) :
    sieve l (idxs ++ [j]) = sieve (l.eraseIdx j) idxs := by
  unfold sieve
  rw [List.foldr_append]
  rfl

theorem sieve_append (l : List α) (idxs₁ idxs₂ : List Nat) :
    sieve l (idxs₁ ++ idxs₂) = sieve (sieve l idxs₂) idxs₁ := by
  unfold sieve
  rw [List.foldr_append]

theorem sieve_length : ∀ (idxs : List Nat), idxs.Pairwise (· < ·) →
    ∀ l : List α, (∀ i ∈ idxs, i < l.length) →
      (sieve l idxs).length = l.length - idxs.length := by
  intro idxs
  induction idxs using List.reverseRecOn with
  | nil =>
    intro _ l _
    rfl
  | append_singleton xs j ih =>
    intro hp l hb
    have hpa := List.pairwise_append.mp hp
    have hjlt : j < l.length := hb j (by simp)
    have hlt : ∀ i ∈ xs, i < j := fun i hi => hpa.2.2 i hi j (by simp)
    rw [sieve_snoc, ih hpa.1 (l.eraseIdx j) (by
      intro i hi
      rw [List.length_eraseIdx_of_lt hjlt]
      have := hlt i hi
      omega)]
    rw [List.length_eraseIdx_of_lt hjlt]
    simp only [List.length_append, List.length_singleton]
    omega

/-- Deleting positions strictly inside a list commutes with appending. -/
theorem sieve_append_keep : ∀ (idxs : List Nat), idxs.Pairwise (· < ·) →
    ∀ (l : List α) (v : α), (∀ i ∈ idxs, i < l.length) →
      sieve (l ++ [v]) idxs = sieve l idxs ++ [v] := by
  intro idxs
  induction idxs using List.reverseRecOn with
  | nil =>
    intro _ l v _
    rfl
  | append_singleton xs j ih =>
    intro hp l v hb
    have hpa := List.pairwise_append.mp hp
    have hjlt : j < l.length := hb j (by simp)
    have hlt : ∀ i ∈ xs, i < j := fun i hi => hpa.2.2 i hi j (by simp)
    rw [sieve_snoc, List.eraseIdx_append_of_lt_length hjlt,
      ih hpa.1 (l.eraseIdx j) v (by
        intro i hi
        rw [List.length_eraseIdx_of_lt hjlt]
        have := hlt i hi
        omega),
      sieve_snoc]

/-- Deleting the appended position drops it again. -/
theorem sieve_append_drop (l : List α) (v : α) (idxs : List Nat) :
    sieve (l ++ [v]) (idxs ++ [l.length]) = sieve l idxs := by
  rw [sieve_snoc, List.eraseIdx_append_of_length_le (Nat.le_refl _)]
  simp [List.eraseIdx]

/-- Deleting a block of consecutive positions is a take-and-drop. -/
theorem sieve_range' : ∀ (c s : Nat) (l : List α), s + c ≤ l.length →
    sieve l (List.range' s c) = l.take s ++ l.drop (s + c) := by
  intro c
  induction c with
  | zero =>
    intro s l h
    simp [sieve]
  | succ c ih =>
    intro s l h
    rw [List.range'_1_concat, sieve_snoc, ih s (l.eraseIdx (s + c)) (by
      rw [List.length_eraseIdx_of_lt (by omega)]
      omega)]
    rw [List.eraseIdx_eq_take_drop_succ]
    have h1 : (l.take (s + c) ++ l.drop (s + c + 1)).take s = l.take s := by
      rw [List.take_append_of_le_length
          (by rw [List.length_take_of_le (by omega)]; omega),
        List.take_take]
      congr 1
      omega
    have h2 : (l.take (s + c) ++ l.drop (s + c + 1)).drop (s + c) = l.drop (s + c + 1) := by
      rw [List.drop_left' (List.length_take_of_le (by omega))]
    rw [h1, h2]
    congr 1

/-- Deleting positions at or beyond `s` keeps the first `s` elements. -/
theorem sieve_take : ∀ (idxs : List Nat), idxs.Pairwise (· < ·) →
    ∀ (l : List α) (s : Nat), (∀ i ∈ idxs, s ≤ i ∧ i < l.length) →
      (sieve l idxs).take s = l.take s := by
  intro idxs
  induction idxs using List.reverseRecOn with
  | nil =>
    intro _ l s _
    rfl
  | append_singleton xs j ih =>
    intro hp l s hb
    have hpa := List.pairwise_append.mp hp
    have hj := hb j (by simp)
    have hlt : ∀ i ∈ xs, i < j := fun i hi => hpa.2.2 i hi j (by simp)
    rw [sieve_snoc, ih hpa.1 (l.eraseIdx j) s (by
      intro i hi
      rw [List.length_eraseIdx_of_lt hj.2]
      have h1 := hb i (by simp [hi])
      have h2 := hlt i hi
      omega)]
    rw [List.eraseIdx_eq_take_drop_succ,
      List.take_append_of_le_length
        (by rw [List.length_take_of_le (by omega)]; omega),
      List.take_take]
    congr 1
    omega

/-! ### Shape and alignment of the changes along an edit path -/

/-- Along an edit path the removal and insertion records list ascending
positions with the elements of `a` and `b` there, and—when the comparison
implies equality—deleting the removal positions from the consumed prefix of
`a` gives the same list as deleting the insertion positions from the consumed
prefix of `b`. -/
theorem EditPath.shape [Inhabited α] {a b : List α} {cmp : α → α → Bool}
    (hsound : ∀ u v : α, cmp u v = true → u = v) :
    ∀ {x y : Nat} {cs : List (ArrayChange α)}, EditPath a b cmp x y cs →
      ∃ ri ii : List Nat,
        cs.filterMap changeAsRemoval =
          ri.map (fun (i : Nat) => ⟨(i : Int), jsGet a (i : Int)⟩) ∧
        cs.filterMap changeAsInsertion =
          ii.map (fun (i : Nat) => ⟨(i : Int), jsGet b (i : Int)⟩) ∧
        ri.Pairwise (· < ·) ∧ (∀ i ∈ ri, i < x) ∧
        ii.Pairwise (· < ·) ∧ (∀ i ∈ ii, i < y) ∧
        sieve (a.take x) ri = sieve (b.take y) ii := by
  intro x y cs h
  induction h with
  | nil =>
    exact ⟨[], [], rfl, rfl, List.Pairwise.nil, by simp, List.Pairwise.nil, by simp, rfl⟩
  | diag hp hx hy hm ih =>
    rename_i x y cs
    obtain ⟨ri, ii, hr, hi, hrp, hrb, hip, hib, hal⟩ := ih
    refine ⟨ri, ii, hr, hi, hrp, fun i hi => by have := hrb i hi; omega,
      hip, fun i hi => by have := hib i hi; omega, ?_⟩
    have hax : a.take (x + 1) = a.take x ++ [a[x]] :=
      (List.take_concat_get' a x hx).symm
    have hby : b.take (y + 1) = b.take y ++ [b[y]] :=
      (List.take_concat_get' b y hy).symm
    have helem : a[x] = b[y] := by
      apply hsound
      unfold matchAt at hm
      rw [List.getElem?_eq_getElem hx] at hm
      unfold getI at hm
      rw [if_pos (by omega : (0 : Int) ≤ (y : Int))] at hm
      rw [show ((y : Int)).toNat = y by omega, List.getElem?_eq_getElem hy] at hm
      exact hm
    rw [hax, hby,
      sieve_append_keep ri hrp (a.take x) a[x] (by
        intro i hi
        rw [List.length_take_of_le (by omega)]
        exact hrb i hi),
      sieve_append_keep ii hip (b.take y) b[y] (by
        intro i hi
        rw [List.length_take_of_le (by omega)]
        exact hib i hi),
      hal, helem]
  | del hp hx ih =>
    rename_i x y cs
    obtain ⟨ri, ii, hr, hi, hrp, hrb, hip, hib, hal⟩ := ih
    refine ⟨ri ++ [x], ii, ?_, ?_, ?_, ?_, hip, hib, ?_⟩
    · rw [List.filterMap_append, hr, List.map_append]
      rfl
    · rw [List.filterMap_append, hi]
      simp [changeAsInsertion]
    · exact List.pairwise_append.mpr ⟨hrp, List.pairwise_singleton _ _,
        fun i hi j hj => by
          simp only [List.mem_singleton] at hj
          subst hj
          exact hrb i hi⟩
    · intro i hi
      rcases List.mem_append.mp hi with h | h
      · have := hrb i h
        omega
      · simp only [List.mem_singleton] at h
        omega
    · have hax : a.take (x + 1) = a.take x ++ [a[x]] :=
        (List.take_concat_get' a x hx).symm
      have hxl : x = (a.take x).length := by
        rw [List.length_take_of_le (by omega)]
      rw [hax]
      rw [show ri ++ [x] = ri ++ [(a.take x).length] by rw [← hxl]]
      rw [sieve_append_drop]
      exact hal
  | ins hp hy ih =>
    rename_i x y cs
    obtain ⟨ri, ii, hr, hi, hrp, hrb, hip, hib, hal⟩ := ih
    refine ⟨ri, ii ++ [y], ?_, ?_, hrp, hrb, ?_, ?_, ?_⟩
    · rw [List.filterMap_append, hr]
      simp [changeAsRemoval]
    · rw [List.filterMap_append, hi, List.map_append]
      rfl
    · exact List.pairwise_append.mpr ⟨hip, List.pairwise_singleton _ _,
        fun i hi j hj => by
          simp only [List.mem_singleton] at hj
          subst hj
          exact hib i hi⟩
    · intro i hi
      rcases List.mem_append.mp hi with h | h
      · have := hib i h
        omega
      · simp only [List.mem_singleton] at h
        omega
    · have hby : b.take (y + 1) = b.take y ++ [b[y]] :=
        (List.take_concat_get' b y hy).symm
      have hyl : y = (b.take y).length := by
        rw [List.length_take_of_le (by omega)]
      rw [hby]
      rw [show ii ++ [y] = ii ++ [(b.take y).length] by rw [← hyl]]
      rw [sieve_append_drop]
      exact hal

/-! ### The `RangeSet` built by inserting ascending single indices -/

/-- A strictly ascending list in `[lo, hi)` has at most `hi - lo` elements. -/
theorem pairwise_count (l : List Nat) : l.Pairwise (· < ·) →
    ∀ lo hi : Nat, (∀ i ∈ l, lo ≤ i ∧ i < hi) →
      lo + l.length ≤ hi ∨ l = [] := by
  induction l with
  | nil =>
    intro _ lo hi _
    right
    rfl
  | cons i rest ih =>
    intro hp lo hi hb
    left
    have hpc := List.pairwise_cons.mp hp
    have hi0 := hb i (by simp)
    rcases ih hpc.2 (i + 1) hi
        (fun j hj => ⟨hpc.1 j hj, (hb j (by simp [hj])).2⟩) with h | h
    · simp only [List.length_cons]
      omega
    · subst h
      simp only [List.length_cons, List.length_nil]
      omega

/-- Flat bounds list of the run decomposition of the ascending index list
`[s, …, e-1] ++ l`. -/
def flatRuns (s e : Nat) : List Nat → List Int
  | [] => [(s : Int), (e : Int)]
  | i :: rest =>
    if i = e then flatRuns s (e + 1) rest
    else (s : Int) :: (e : Int) :: flatRuns i (i + 1) rest

/-- The run decomposition as `(start, end)` pairs over `Nat`. -/
def runPairs (s e : Nat) : List Nat → List (Nat × Nat)
  | [] => [(s, e)]
  | i :: rest =>
    if i = e then runPairs s (e + 1) rest
    else (s, e) :: runPairs i (i + 1) rest

theorem pairsOf_flatRuns : ∀ (l : List Nat) (s e : Nat),
    pairsOf (flatRuns s e l) =
      (runPairs s e l).map (fun p => ((p.1 : Int), (p.2 : Int))) := by
  intro l
  induction l with
  | nil =>
    intro s e
    rfl
  | cons i rest ih =>
    intro s e
    unfold flatRuns runPairs
    by_cases h : i = e
    · rw [if_pos h, if_pos h]
      exact ih s (e + 1)
    · rw [if_neg h, if_neg h]
      show ((s : Int), (e : Int)) :: pairsOf (flatRuns i (i + 1) rest) = _
      rw [ih i (i + 1)]
      rfl

theorem insertFold_go : ∀ (rest : List Nat) (B : List Int) (s e : Nat) (c : Int),
    s < e → 0 < c → (∀ i ∈ rest, e ≤ i) → rest.Pairwise (· < ·) →
    rest.foldl (fun rs i => rs.insert (i : Int) ((i : Int) + 1))
      ⟨B ++ [(s : Int), (e : Int)], c⟩ =
      (⟨B ++ flatRuns s e rest, c + rest.length⟩ : RangeSet) := by
  intro rest
  induction rest with
  | nil =>
    intro B s e c _ _ _ _
    simp [flatRuns]
  | cons i rest ih =>
    intro B s e c hse hc hlo hp
    have hpc := List.pairwise_cons.mp hp
    have hie : e ≤ i := hlo i (by simp)
    rw [List.foldl_cons]
    have hlast : (B ++ [(s : Int), (e : Int)]).getD
        ((B ++ [(s : Int), (e : Int)]).length - 1) 0 = (e : Int) := by
      have hL : (B ++ [(s : Int), (e : Int)]).length - 1 = B.length + 1 := by
        simp
      rw [hL, List.getD_eq_getElem?_getD, List.getElem?_append_right (by omega)]
      simp
    by_cases hieq : i = e
    · -- the new index extends the last run
      have hstep : RangeSet.insert ⟨B ++ [(s : Int), (e : Int)], c⟩
          (i : Int) ((i : Int) + 1) =
          ⟨B ++ [(s : Int), ((e + 1 : Nat) : Int)], c + 1⟩ := by
        unfold RangeSet.insert
        dsimp only
        rw [if_neg (by omega), hlast,
          if_neg (by
            subst hieq
            push_cast
            omega),
          if_pos (by subst hieq; rfl)]
        have hdrop : (B ++ [(s : Int), (e : Int)]).dropLast = B ++ [(s : Int)] := by
          rw [show B ++ [(s : Int), (e : Int)] = (B ++ [(s : Int)]) ++ [(e : Int)] by
            simp, List.dropLast_concat]
        rw [hdrop]
        subst hieq
        rw [RangeSet.mk.injEq]
        refine ⟨by push_cast; simp, by omega⟩
      rw [hstep, ih B s (e + 1) (c + 1) (by omega) (by omega)
        (fun j hj => by have := hpc.1 j hj; omega) hpc.2]
      have hfr : flatRuns s e (i :: rest) = flatRuns s (e + 1) rest := by
        simp only [flatRuns]
        rw [if_pos hieq]
      rw [hfr, RangeSet.mk.injEq]
      refine ⟨rfl, ?_⟩
      simp only [List.length_cons]
      push_cast
      omega
    · -- the new index starts a new run
      have hilt : e < i := by omega
      have hstep : RangeSet.insert ⟨B ++ [(s : Int), (e : Int)], c⟩
          (i : Int) ((i : Int) + 1) =
          ⟨(B ++ [(s : Int), (e : Int)]) ++ [(i : Int), ((i + 1 : Nat) : Int)],
            c + 1⟩ := by
        unfold RangeSet.insert
        dsimp only
        rw [if_neg (by omega), hlast, if_pos (by right; push_cast; omega)]
        rw [RangeSet.mk.injEq]
        refine ⟨by push_cast; simp, by omega⟩
      rw [hstep, ih (B ++ [(s : Int), (e : Int)]) i (i + 1) (c + 1) (by omega)
        (by omega) (fun j hj => by have := hpc.1 j hj; omega) hpc.2]
      have hfr : flatRuns s e (i :: rest) =
          (s : Int) :: (e : Int) :: flatRuns i (i + 1) rest := by
        simp only [flatRuns]
        rw [if_neg hieq]
      rw [hfr, RangeSet.mk.injEq]
      refine ⟨by simp, ?_⟩
      simp only [List.length_cons]
      push_cast
      omega

theorem insertFold_cons (j : Nat) (rest : List Nat)
    (hp : (j :: rest).Pairwise (· < ·)) :
    (j :: rest).foldl (fun rs i => rs.insert (i : Int) ((i : Int) + 1))
      RangeSet.mk0 =
      ⟨flatRuns j (j + 1) rest, (rest.length : Int) + 1⟩ := by
  have hpc := List.pairwise_cons.mp hp
  rw [List.foldl_cons]
  have h1 : RangeSet.mk0.insert (j : Int) ((j : Int) + 1) =
      ⟨[] ++ [(j : Int), ((j + 1 : Nat) : Int)], 1⟩ := by
    unfold RangeSet.mk0 RangeSet.insert
    dsimp only
    rw [if_neg (by omega), if_pos (by left; rfl)]
    rw [RangeSet.mk.injEq]
    refine ⟨by push_cast; simp, by omega⟩
  rw [h1, insertFold_go rest [] j (j + 1) 1 (by omega) (by omega)
    (fun i hi => hpc.1 i hi) hpc.2]
  rw [RangeSet.mk.injEq]
  refine ⟨by simp, by omega⟩

/-! ### Splice identities used by `applyInto` -/

theorem jsGet_nat [Inhabited α] (l : List α) (i : Nat) (h : i < l.length) :
    jsGet l (i : Int) = l[i] := by
  unfold jsGet getI
  rw [if_pos (by omega), show ((i : Nat) : Int).toNat = i by omega,
    List.getElem?_eq_getElem h]
  rfl

/-- Removing the block `[s, e)` by `splice(s, e - s)`. -/
theorem jsSplice_block (arr : List α) (s e : Nat) (hse : s ≤ e)
    (he : e ≤ arr.length) :
    (jsSplice arr (s : Int) ((e : Int) - (s : Int)) []).1 =
      arr.take s ++ arr.drop e := by
  unfold jsSplice resolveIndex
  dsimp only
  rw [if_neg (by simp), if_neg (by omega)]
  have h1 : (min (s : Int) (arr.length : Int)).toNat = s := by omega
  rw [h1]
  have h2 : (min (max ((e : Int) - (s : Int)) 0)
      ((arr.length : Int) - (s : Int))).toNat = e - s := by omega
  rw [h2]
  simp only [List.nil_append, List.append_nil]
  rw [show s + (e - s) = e by omega]

/-- Inserting `items` at position `s` by `splice(s, 0, …items)`. -/
theorem jsSplice_insert (arr : List α) (s : Nat) (items : List α)
    (hs : s ≤ arr.length) :
    (jsSplice arr (s : Int) 0 items).1 = arr.take s ++ items ++ arr.drop s := by
  unfold jsSplice resolveIndex
  dsimp only
  rw [if_neg (by simp), if_neg (by omega)]
  have h1 : (min (s : Int) (arr.length : Int)).toNat = s := by omega
  rw [h1]
  have h2 : (min (max (0 : Int) 0) ((arr.length : Int) - (s : Int))).toNat = 0 := by
    omega
  rw [h2, Nat.add_zero]

/-- Reading a block of consecutive positions. -/
theorem map_jsGet_range' [Inhabited α] :
    ∀ (c s : Nat) (tgt : List α), s + c ≤ tgt.length →
      (List.range' s c).map (fun i => jsGet tgt ((i : Nat) : Int)) =
        (tgt.drop s).take c := by
  intro c
  induction c with
  | zero =>
    intro s tgt h
    simp
  | succ c ih =>
    intro s tgt h
    rw [List.range'_succ, List.map_cons, ih (s + 1) tgt (by omega),
      jsGet_nat tgt s (by omega)]
    rw [List.drop_eq_getElem_cons (by omega : s < tgt.length)]
    rw [List.take_succ_cons]

/-- The removal phase of `applyInto`: splicing the run blocks out back to
front (a `foldr` over the runs) deletes exactly the covered positions. -/
theorem removePhase : ∀ (l : List Nat) (s e : Nat) (arr : List α),
    s < e → (∀ i ∈ l, e ≤ i) → l.Pairwise (· < ·) →
    (∀ i ∈ l, i < arr.length) → e ≤ arr.length →
    (runPairs s e l).foldr
      (fun (q : Nat × Nat) ar =>
        (jsSplice ar (q.1 : Int) ((q.2 : Int) - (q.1 : Int)) []).1) arr =
      sieve arr (List.range' s (e - s) ++ l) := by
  intro l
  induction l with
  | nil =>
    intro s e arr hse _ _ _ he
    show (jsSplice arr (s : Int) ((e : Int) - (s : Int)) []).1 = _
    rw [jsSplice_block arr s e (by omega) he, List.append_nil,
      sieve_range' (e - s) s arr (by omega), show s + (e - s) = e by omega]
  | cons i rest ih =>
    intro s e arr hse hlo hp hb he
    have hpc := List.pairwise_cons.mp hp
    have hie : e ≤ i := hlo i (by simp)
    by_cases hieq : i = e
    · have hrp : runPairs s e (i :: rest) = runPairs s (e + 1) rest := by
        simp only [runPairs]
        rw [if_pos hieq]
      rw [hrp, ih s (e + 1) arr (by omega)
        (fun j hj => by have := hpc.1 j hj; omega) hpc.2
        (fun j hj => hb j (by simp [hj])) (by have := hb i (by simp); omega)]
      have hr : List.range' s (e + 1 - s) = List.range' s (e - s) ++ [e] := by
        rw [show e + 1 - s = (e - s) + 1 by omega, List.range'_1_concat,
          show s + (e - s) = e by omega]
      rw [hr, hieq, List.append_assoc, List.singleton_append]
    · have hilt : e < i := by omega
      have hrp : runPairs s e (i :: rest) =
          (s, e) :: runPairs i (i + 1) rest := by
        simp only [runPairs]
        rw [if_neg hieq]
      rw [hrp, List.foldr_cons,
        ih i (i + 1) arr (by omega) (fun j hj => by have := hpc.1 j hj; omega)
          hpc.2 (fun j hj => hb j (by simp [hj])) (by have := hb i (by simp); omega)]
      have hone : List.range' i (i + 1 - i) ++ rest = i :: rest := by
        rw [show i + 1 - i = 1 by omega]
        rfl
      rw [hone]
      set u := sieve arr (i :: rest) with hu
      have hul : u.length = arr.length - (1 + rest.length) := by
        rw [hu, sieve_length (i :: rest) hp arr hb]
        simp only [List.length_cons]
        omega
      have hcnt : e + (1 + rest.length) ≤ arr.length := by
        rcases pairwise_count (i :: rest) hp e arr.length
            (fun j hj => ⟨hlo j hj, hb j hj⟩) with h | h
        · simp only [List.length_cons] at h
          omega
        · exact absurd h (by simp)
      have heu : e ≤ u.length := by omega
      show (jsSplice u (s : Int) ((e : Int) - (s : Int)) []).1 = _
      rw [jsSplice_block u s e (by omega) heu, sieve_append,
        sieve_range' (e - s) s (sieve arr (i :: rest)) (by rw [← hu]; omega),
        show s + (e - s) = e by omega]

/-- The insertion phase of `applyInto`: walking the runs front to back,
slicing the insertion records by the accumulated lengths and splicing the
slices in, rebuilds the target from its sieve. -/
theorem insertPhase [Inhabited α] (tgt : List α) (ii : List Nat) :
    ∀ (l : List Nat) (s e : Nat) (p : Nat),
    s < e → (∀ i ∈ l, e ≤ i) → l.Pairwise (· < ·) →
    (∀ i ∈ l, i < tgt.length) → e ≤ tgt.length →
    ii.drop p = List.range' s (e - s) ++ l →
    ((runPairs s e l).foldl
      (fun (st : List α × Nat) (q : Nat × Nat) =>
        ((jsSplice st.1 (q.1 : Int) 0
          ((((ii.map (fun (i : Nat) => (⟨(i : Int), jsGet tgt (i : Int)⟩ : ArrayInsertion α))).drop
            st.2).take (((q.2 : Int) - (q.1 : Int)).toNat)).map
              ArrayInsertion.element)).1,
          st.2 + ((q.2 : Int) - (q.1 : Int)).toNat))
      (sieve tgt (List.range' s (e - s) ++ l), p)).1 = tgt := by
  intro l
  induction l with
  | nil =>
    intro s e p hse _ _ _ he hdrop
    rw [List.append_nil] at hdrop ⊢
    show (jsSplice (sieve tgt (List.range' s (e - s))) (s : Int) 0 _).1 = tgt
    have hc : ((e : Int) - (s : Int)).toNat = e - s := by omega
    rw [hc]
    have helems : (((ii.map (fun (i : Nat) =>
        (⟨(i : Int), jsGet tgt (i : Int)⟩ : ArrayInsertion α))).drop p).take (e - s)).map
          ArrayInsertion.element = (tgt.drop s).take (e - s) := by
      rw [← List.map_drop, hdrop, ← List.map_take,
        List.take_of_length_le (by simp), List.map_map]
      exact map_jsGet_range' (e - s) s tgt (by omega)
    rw [helems, sieve_range' (e - s) s tgt (by omega), show s + (e - s) = e by omega]
    have hsl : s ≤ (tgt.take s ++ tgt.drop e).length := by
      simp only [List.length_append, List.length_take]
      omega
    rw [jsSplice_insert _ s _ hsl,
      List.take_append_of_le_length (by rw [List.length_take_of_le (by omega)]),
      List.take_take, min_self, List.drop_left' (List.length_take_of_le (by omega))]
    rw [List.append_assoc]
    rw [show (tgt.drop s).take (e - s) ++ tgt.drop e =
        (tgt.drop s).take (e - s) ++ (tgt.drop s).drop (e - s) by
      rw [List.drop_drop]
      congr 2
      omega]
    rw [List.take_append_drop, List.take_append_drop]
  | cons i rest ih =>
    intro s e p hse hlo hp hb he hdrop
    have hpc := List.pairwise_cons.mp hp
    have hie : e ≤ i := hlo i (by simp)
    by_cases hieq : i = e
    · have hrp : runPairs s e (i :: rest) = runPairs s (e + 1) rest := by
        simp only [runPairs]
        rw [if_pos hieq]
      have hr : List.range' s (e + 1 - s) = List.range' s (e - s) ++ [e] := by
        rw [show e + 1 - s = (e - s) + 1 by omega, List.range'_1_concat,
          show s + (e - s) = e by omega]
      have hr2 : List.range' s (e - s) ++ i :: rest =
          List.range' s (e + 1 - s) ++ rest := by
        rw [hr, hieq, List.append_assoc, List.singleton_append]
      rw [hr2] at hdrop
      rw [hrp, hr2]
      exact ih s (e + 1) p (by omega)
        (fun j hj => by have := hpc.1 j hj; omega) hpc.2
        (fun j hj => hb j (by simp [hj])) (by have := hb i (by simp); omega) hdrop
    · have hilt : e < i := by omega
      have hrp : runPairs s e (i :: rest) =
          (s, e) :: runPairs i (i + 1) rest := by
        simp only [runPairs]
        rw [if_neg hieq]
      rw [hrp, List.foldl_cons]
      have hone : List.range' i (i + 1 - i) ++ rest = i :: rest := by
        rw [show i + 1 - i = 1 by omega]
        rfl
      set u := sieve tgt (i :: rest) with hu
      have hul : u.length = tgt.length - (1 + rest.length) := by
        rw [hu, sieve_length (i :: rest) hp tgt hb]
        simp only [List.length_cons]
        omega
      have hcnt : e + (1 + rest.length) ≤ tgt.length := by
        rcases pairwise_count (i :: rest) hp e tgt.length
            (fun j hj => ⟨hlo j hj, hb j hj⟩) with h | h
        · simp only [List.length_cons] at h
          omega
        · exact absurd h (by simp)
      have heu : e ≤ u.length := by omega
      have hutake : u.take e = tgt.take e := by
        rw [hu]
        exact sieve_take (i :: rest) hp tgt e (fun j hj => ⟨hlo j hj, hb j hj⟩)
      have hts : u.take s = tgt.take s := by
        have h1 : u.take s = (u.take e).take s := by
          rw [List.take_take, show min s e = s by omega]
        rw [h1, hutake, List.take_take, show min s e = s by omega]
      have htadd : tgt.take e = tgt.take s ++ (tgt.drop s).take (e - s) := by
        conv_lhs => rw [show e = s + (e - s) by omega]
        exact List.take_add tgt s (e - s)
      have hdrop' : ii.drop (p + (e - s)) = List.range' i (i + 1 - i) ++ rest := by
        rw [hone]
        have hdd : ii.drop (p + (e - s)) = (ii.drop p).drop (e - s) := by
          rw [List.drop_drop]
        rw [hdd, hdrop, List.drop_left' (by simp)]
      have hstep : ((jsSplice (sieve tgt (List.range' s (e - s) ++ i :: rest))
          (s : Int) 0
          ((((ii.map (fun (i : Nat) => (⟨(i : Int), jsGet tgt (i : Int)⟩ : ArrayInsertion α))).drop
            p).take (((e : Int) - (s : Int)).toNat)).map ArrayInsertion.element)).1,
          p + ((e : Int) - (s : Int)).toNat) =
          ((sieve tgt (List.range' i (i + 1 - i) ++ rest) : List α), p + (e - s)) := by
        have hc : ((e : Int) - (s : Int)).toNat = e - s := by omega
        rw [hc, hone, ← hu]
        congr 1
        have helems : (((ii.map (fun (i : Nat) =>
            (⟨(i : Int), jsGet tgt (i : Int)⟩ : ArrayInsertion α))).drop p).take (e - s)).map
              ArrayInsertion.element = (tgt.drop s).take (e - s) := by
          rw [← List.map_drop, hdrop, ← List.map_take,
            List.take_append_of_le_length (by simp),
            List.take_of_length_le (by simp), List.map_map]
          exact map_jsGet_range' (e - s) s tgt (by omega)
        rw [helems, sieve_append, ← hu, sieve_range' (e - s) s u (by omega),
          show s + (e - s) = e by omega]
        have hsl : s ≤ (u.take s ++ u.drop e).length := by
          simp only [List.length_append, List.length_take]
          omega
        rw [jsSplice_insert _ s _ hsl,
          List.take_append_of_le_length (by rw [List.length_take_of_le (by omega)]),
          List.take_take, min_self, List.drop_left' (List.length_take_of_le (by omega))]
        rw [List.append_assoc, hts]
        conv_rhs => rw [← List.take_append_drop e u]
        rw [hutake, htadd, List.append_assoc]
      rw [hstep]
      exact ih i (i + 1) (p + (e - s)) (by omega)
        (fun j hj => by have := hpc.1 j hj; omega) hpc.2
        (fun j hj => hb j (by simp [hj])) (by have := hb i (by simp); omega) hdrop'

/-! ### Sorting the recorded changes -/

theorem sortInsert_of_all (le : α → α → Bool) (x : α) :
    ∀ l : List α, (∀ y ∈ l, le y x = true) → sortInsert le x l = l ++ [x] := by
  intro l
  induction l with
  | nil =>
    intro _
    rfl
  | cons y ys ih =>
    intro h
    unfold sortInsert
    rw [if_pos (h y (by simp)), ih (fun z hz => h z (by simp [hz]))]
    rfl

/-- On a strictly descending input the stable sort reverses the list. -/
theorem jsSort_of_desc (le : α → α → Bool) :
    ∀ l : List α, l.Pairwise (fun u v => le v u = true) →
      jsSort le l = l.reverse := by
  intro l
  induction l with
  | nil =>
    intro _
    rfl
  | cons x xs ih =>
    intro hp
    have hpc := List.pairwise_cons.mp hp
    unfold jsSort
    rw [ih hpc.2, sortInsert_of_all le x xs.reverse
      (fun y hy => hpc.1 y (List.mem_reverse.mp hy)), List.reverse_cons]

/-! ### `applyInto` rebuilds the target -/

/-- `applyInto` on a diff whose removals list ascending positions of `arr`
(the stored removal elements are never read) and whose insertions list
ascending positions of `tgt` carrying the elements of `tgt` there, produces
exactly `tgt` whenever deleting the removal positions from `arr` yields the
same list as deleting the insertion positions from `tgt`. -/
theorem applyInto_sieve [Inhabited α] (arr tgt : List α) (ri ii : List Nat)
    (rElem : Nat → α)
    (hrp : ri.Pairwise (· < ·)) (hrb : ∀ i ∈ ri, i < arr.length)
    (hip : ii.Pairwise (· < ·)) (hib : ∀ i ∈ ii, i < tgt.length)
    (hal : sieve arr ri = sieve tgt ii) :
    ArrayDiff.applyInto
      ⟨ri.map (fun (i : Nat) => ⟨(i : Int), rElem i⟩),
       ii.map (fun (i : Nat) => ⟨(i : Int), jsGet tgt (i : Int)⟩)⟩ arr = tgt := by
  unfold ArrayDiff.applyInto
  dsimp only
  have hafter : (ArrayDiff.removedIndices
      ⟨ri.map (fun (i : Nat) => ⟨(i : Int), rElem i⟩),
       ii.map (fun (i : Nat) => ⟨(i : Int), jsGet tgt (i : Int)⟩)⟩).reversedRanges.foldl
      (fun arr p => (jsSplice arr p.1 (p.2 - p.1) []).1) arr = sieve arr ri := by
    unfold ArrayDiff.removedIndices
    dsimp only
    cases ri with
    | nil =>
      rfl
    | cons r rest =>
      have hfold : (List.map (fun (i : Nat) =>
          (⟨(i : Int), rElem i⟩ : ArrayRemoval α)) (r :: rest)).foldl
          (fun rs c => rs.insert c.removedAt (c.removedAt + 1)) RangeSet.mk0 =
          ⟨flatRuns r (r + 1) rest, (rest.length : Int) + 1⟩ := by
        rw [List.foldl_map]
        exact insertFold_cons r rest hrp
      rw [hfold]
      unfold RangeSet.reversedRanges
      show ((pairsOf (flatRuns r (r + 1) rest)).reverse).foldl _ arr = _
      rw [pairsOf_flatRuns, ← List.map_reverse, List.foldl_map, List.foldl_reverse]
      have hpc := List.pairwise_cons.mp hrp
      have hmain := removePhase rest r (r + 1) arr (by omega)
        (fun j hj => by have := hpc.1 j hj; omega) hpc.2
        (fun j hj => hrb j (by simp [hj])) (by have := hrb r (by simp); omega)
      rw [show List.range' r (r + 1 - r) ++ rest = r :: rest by
        rw [show r + 1 - r = 1 by omega]; rfl] at hmain
      exact hmain
  rw [hafter]
  cases ii with
  | nil =>
    show (sieve arr ri, 0).1 = tgt
    rw [hal]
    rfl
  | cons i0 irest =>
    have hfold : (List.map (fun (i : Nat) =>
        (⟨(i : Int), jsGet tgt (i : Int)⟩ : ArrayInsertion α)) (i0 :: irest)).foldl
        (fun rs c => rs.insert c.insertedAt (c.insertedAt + 1)) RangeSet.mk0 =
        ⟨flatRuns i0 (i0 + 1) irest, (irest.length : Int) + 1⟩ := by
      rw [List.foldl_map]
      exact insertFold_cons i0 irest hip
    unfold ArrayDiff.insertedIndices
    dsimp only
    rw [hfold]
    unfold RangeSet.ranges
    show ((pairsOf (flatRuns i0 (i0 + 1) irest)).foldl _ (sieve arr ri, 0)).1 = tgt
    rw [pairsOf_flatRuns, List.foldl_map]
    have hpc := List.pairwise_cons.mp hip
    have hone : List.range' i0 (i0 + 1 - i0) ++ irest = i0 :: irest := by
      rw [show i0 + 1 - i0 = 1 by omega]
      rfl
    have hmain := insertPhase tgt (i0 :: irest) irest i0 (i0 + 1) 0 (by omega)
      (fun j hj => by have := hpc.1 j hj; omega) hpc.2
      (fun j hj => hib j (by simp [hj])) (by have := hib i0 (by simp); omega)
      (by rw [List.drop_zero, hone])
    rw [hone] at hmain
    rw [show sieve arr ri = sieve tgt (i0 :: irest) from hal]
    exact hmain

/-- Structure of `arrayDiff` with no offset: ascending removal positions of
`a`, ascending insertion positions of `b` with the elements of `b` there, and
the two sieves agree (under a sound comparison). -/
theorem arrayDiff_shape [Inhabited α] (a b : List α) (equal : α → α → Bool)
    (hsound : ∀ u v : α, equal u v = true → u = v) :
    ∃ ri ii : List Nat,
      arrayDiff a b equal 0 =
        ⟨ri.map (fun (i : Nat) => ⟨(i : Int), jsGet a (i : Int)⟩),
         ii.map (fun (i : Nat) => ⟨(i : Int), jsGet b (i : Int)⟩)⟩ ∧
      ri.Pairwise (· < ·) ∧ (∀ i ∈ ri, i < a.length) ∧
      ii.Pairwise (· < ·) ∧ (∀ i ∈ ii, i < b.length) ∧
      sieve a ri = sieve b ii := by
  obtain ⟨ri, ii, hr, hi, hrp, hrb, hip, hib, hal⟩ :=
    EditPath.shape hsound (formChanges_path a b equal)
  rw [List.take_length] at hal
  rw [List.take_length] at hal
  refine ⟨ri, ii, ?_, hrp, hrb, hip, hib, hal⟩
  unfold arrayDiff
  dsimp only
  rw [if_neg (by simp)]
  have hrev : ∀ (γ : Type u) (cs : List (ArrayChange α)) (f : ArrayChange α → Option γ),
      cs.filterMap f = (cs.reverse.filterMap f).reverse := by
    intro γ cs f
    rw [List.filterMap_reverse, List.reverse_reverse]
  have hr2 : (formChanges a b (descent a b equal)).filterMap changeAsRemoval =
      (ri.map (fun (i : Nat) =>
        (⟨(i : Int), jsGet a (i : Int)⟩ : ArrayRemoval α))).reverse := by
    rw [hrev _ _ changeAsRemoval, hr]
  have hi2 : (formChanges a b (descent a b equal)).filterMap changeAsInsertion =
      (ii.map (fun (i : Nat) =>
        (⟨(i : Int), jsGet b (i : Int)⟩ : ArrayInsertion α))).reverse := by
    rw [hrev _ _ changeAsInsertion, hi]
  rw [hr2, hi2]
  rw [jsSort_of_desc _ _ (by
    rw [List.pairwise_reverse]
    rw [List.pairwise_map]
    refine hrp.imp ?_
    intro x y hxy
    simp only [decide_eq_true_eq]
    omega)]
  rw [jsSort_of_desc _ _ (by
    rw [List.pairwise_reverse]
    rw [List.pairwise_map]
    refine hip.imp ?_
    intro x y hxy
    simp only [decide_eq_true_eq]
    omega)]
  rw [List.reverse_reverse, List.reverse_reverse]

/-! ### Edge cases of `arrayDiff`: equal inputs and one-sided inputs -/

/-- When every pair on diagonal `0` matches, the first snake runs to the end. -/
theorem snake_full (a b : List α) (cmp : α → α → Bool)
    (hlen : a.length = b.length)
    (hpt : ∀ x : Nat, x < a.length → matchAt a b cmp x (x : Int) = true) :
    snake a b cmp 0 0 = a.length := by
  have main : ∀ t x, a.length - x = t → x ≤ a.length →
      snake a b cmp 0 x = a.length := by
    intro t
    induction t with
    | zero =>
      intro x h1 h2
      rw [snake_eq, if_neg (fun hg => by have := hg.1; omega)]
      omega
    | succ t ih =>
      intro x h1 h2
      have hx : x < a.length := by omega
      rw [snake_eq, if_pos ?_]
      · exact ih (x + 1) (by omega) (by omega)
      · refine ⟨hx, by omega, ?_⟩
        rw [show (x : Int) - 0 = (x : Int) by omega]
        exact hpt x hx
  exact main (a.length) 0 (by omega) (by omega)

/-- Element-wise equal inputs produce the empty diff. -/
theorem arrayDiff_of_equal [Inhabited α] (a b : List α) (equal : α → α → Bool)
    (hlen : a.length = b.length)
    (hpt : ∀ x : Nat, x < a.length → matchAt a b equal x (x : Int) = true) :
    arrayDiff a b equal 0 = ⟨[], []⟩ := by
  have hbc : breakCond a b equal 0 0 := by
    refine ⟨⟨by omega, by omega, by omega⟩, ?_, ?_⟩
    · rw [idealV_eq_of_valid a b equal ⟨by omega, by omega, by omega⟩]
      have h0 : stepK (prevV a b equal 0) 0 0 = 0 := by
        unfold stepK prevV vZero
        simp
      rw [h0, snake_full a b equal hlen hpt]
    · rw [idealV_eq_of_valid a b equal ⟨by omega, by omega, by omega⟩]
      have h0 : stepK (prevV a b equal 0) 0 0 = 0 := by
        unfold stepK prevV vZero
        simp
      rw [h0, snake_full a b equal hlen hpt]
      omega
  have hD : breakDepth a b equal = 0 :=
    Nat.le_zero.mp (Nat.find_min' (exists_rowBreak a b equal) ⟨0, hbc⟩)
  have hlen1 : (descent a b equal).length = 1 := by
    rw [(descent_spec a b equal).1, hD]
    simp
  unfold arrayDiff
  dsimp only
  rw [if_neg (by simp)]
  unfold formChanges
  rw [hlen1]
  rfl

/-- A path to the right edge with `b` empty is a pure removal run. -/
theorem editPath_b_nil [Inhabited α] {a : List α} {cmp : α → α → Bool} :
    ∀ {x y : Nat} {cs : List (ArrayChange α)},
      EditPath a ([] : List α) cmp x y cs →
      y = 0 ∧ cs = (List.range' 0 x).map
        (fun (i : Nat) => ArrayChange.removal (i : Int) (jsGet a (i : Int))) := by
  intro x y cs h
  induction h with
  | nil => exact ⟨rfl, rfl⟩
  | diag _ _ hy _ _ => exact absurd hy (by simp)
  | ins _ hy => exact absurd hy (by simp)
  | del hp hx ih =>
    rename_i x y cs
    obtain ⟨hy, hcs⟩ := ih
    refine ⟨hy, ?_⟩
    rw [hcs, List.range'_1_concat, List.map_append, Nat.zero_add]
    rfl

/-- A path to the bottom edge with `a` empty is a pure insertion run. -/
theorem editPath_a_nil [Inhabited α] {b : List α} {cmp : α → α → Bool} :
    ∀ {x y : Nat} {cs : List (ArrayChange α)},
      EditPath ([] : List α) b cmp x y cs →
      x = 0 ∧ cs = (List.range' 0 y).map
        (fun (i : Nat) => ArrayChange.insertion (i : Int) (jsGet b (i : Int))) := by
  intro x y cs h
  induction h with
  | nil => exact ⟨rfl, rfl⟩
  | diag _ hx _ _ _ => exact absurd hx (by simp)
  | del _ hx => exact absurd hx (by simp)
  | ins hp hy ih =>
    rename_i x y cs
    obtain ⟨hx, hcs⟩ := ih
    refine ⟨hx, ?_⟩
    rw [hcs, List.range'_1_concat, List.map_append, Nat.zero_add]
    rfl

theorem filterMap_removal_run [Inhabited α] (a : List α) (X : List Nat) :
    (X.map (fun (i : Nat) =>
      ArrayChange.removal (α := α) (i : Int) (jsGet a (i : Int)))).filterMap
        changeAsRemoval =
      X.map (fun (i : Nat) => (⟨(i : Int), jsGet a (i : Int)⟩ : ArrayRemoval α)) := by
  induction X with
  | nil => rfl
  | cons x xs ih =>
    simp only [List.map_cons, List.filterMap_cons, changeAsRemoval]
    rw [ih]

theorem filterMap_removal_run_ins [Inhabited α] (a : List α) (X : List Nat) :
    (X.map (fun (i : Nat) =>
      ArrayChange.removal (α := α) (i : Int) (jsGet a (i : Int)))).filterMap
        changeAsInsertion = [] := by
  induction X with
  | nil => rfl
  | cons x xs ih =>
    simp only [List.map_cons, List.filterMap_cons, changeAsInsertion]
    rw [ih]

theorem filterMap_insertion_run [Inhabited α] (b : List α) (X : List Nat) :
    (X.map (fun (i : Nat) =>
      ArrayChange.insertion (α := α) (i : Int) (jsGet b (i : Int)))).filterMap
        changeAsInsertion =
      X.map (fun (i : Nat) => (⟨(i : Int), jsGet b (i : Int)⟩ : ArrayInsertion α)) := by
  induction X with
  | nil => rfl
  | cons x xs ih =>
    simp only [List.map_cons, List.filterMap_cons, changeAsInsertion]
    rw [ih]

theorem filterMap_insertion_run_rem [Inhabited α] (b : List α) (X : List Nat) :
    (X.map (fun (i : Nat) =>
      ArrayChange.insertion (α := α) (i : Int) (jsGet b (i : Int)))).filterMap
        changeAsRemoval = [] := by
  induction X with
  | nil => rfl
  | cons x xs ih =>
    simp only [List.map_cons, List.filterMap_cons, changeAsRemoval]
    rw [ih]

/-- Diffing against an empty target removes every source index. -/
theorem arrayDiff_b_nil [Inhabited α] (a : List α) (equal : α → α → Bool) :
    arrayDiff a ([] : List α) equal 0 =
      ⟨(List.range' 0 a.length).map
        (fun (i : Nat) => ⟨(i : Int), jsGet a (i : Int)⟩), []⟩ := by
  have hpath := formChanges_path a ([] : List α) equal
  obtain ⟨-, hcs⟩ := editPath_b_nil hpath
  have hcs' : formChanges a ([] : List α) (descent a ([] : List α) equal) =
      ((List.range' 0 a.length).map
        (fun (i : Nat) => ArrayChange.removal (i : Int) (jsGet a (i : Int)))).reverse := by
    rw [← hcs, List.reverse_reverse]
  unfold arrayDiff
  dsimp only
  rw [if_neg (by simp), hcs']
  rw [show (((List.range' 0 a.length).map
      (fun (i : Nat) => ArrayChange.removal (α := α) (i : Int)
        (jsGet a (i : Int)))).reverse) =
      ((List.range' 0 a.length).reverse.map
      (fun (i : Nat) => ArrayChange.removal (α := α) (i : Int)
        (jsGet a (i : Int)))) from (List.map_reverse _ _).symm]
  rw [filterMap_removal_run, filterMap_removal_run_ins]
  rw [show ((List.range' 0 a.length).reverse.map
      (fun (i : Nat) => (⟨(i : Int), jsGet a (i : Int)⟩ : ArrayRemoval α))) =
      ((List.range' 0 a.length).map
      (fun (i : Nat) => (⟨(i : Int), jsGet a (i : Int)⟩ : ArrayRemoval α))).reverse
      from List.map_reverse _ _]
  rw [jsSort_of_desc _ _ (by
    rw [List.pairwise_reverse, List.pairwise_map]
    refine (List.pairwise_lt_range' 0 a.length).imp ?_
    intro x y hxy
    simp only [decide_eq_true_eq]
    omega)]
  rw [List.reverse_reverse]
  rfl

/-- Diffing from an empty source inserts every target index. -/
theorem arrayDiff_a_nil [Inhabited α] (b : List α) (equal : α → α → Bool) :
    arrayDiff ([] : List α) b equal 0 =
      ⟨[], (List.range' 0 b.length).map
        (fun (i : Nat) => ⟨(i : Int), jsGet b (i : Int)⟩)⟩ := by
  have hpath := formChanges_path ([] : List α) b equal
  obtain ⟨-, hcs⟩ := editPath_a_nil hpath
  have hcs' : formChanges ([] : List α) b (descent ([] : List α) b equal) =
      ((List.range' 0 b.length).map
        (fun (i : Nat) => ArrayChange.insertion (i : Int) (jsGet b (i : Int)))).reverse := by
    rw [← hcs, List.reverse_reverse]
  unfold arrayDiff
  dsimp only
  rw [if_neg (by simp), hcs']
  rw [show (((List.range' 0 b.length).map
      (fun (i : Nat) => ArrayChange.insertion (α := α) (i : Int)
        (jsGet b (i : Int)))).reverse) =
      ((List.range' 0 b.length).reverse.map
      (fun (i : Nat) => ArrayChange.insertion (α := α) (i : Int)
        (jsGet b (i : Int)))) from (List.map_reverse _ _).symm]
  rw [filterMap_insertion_run, filterMap_insertion_run_rem]
  rw [show ((List.range' 0 b.length).reverse.map
      (fun (i : Nat) => (⟨(i : Int), jsGet b (i : Int)⟩ : ArrayInsertion α))) =
      ((List.range' 0 b.length).map
      (fun (i : Nat) => (⟨(i : Int), jsGet b (i : Int)⟩ : ArrayInsertion α))).reverse
      from List.map_reverse _ _]
  rw [jsSort_of_desc _ ([] : List (ArrayRemoval α)) List.Pairwise.nil,
    List.reverse_nil]
  rw [jsSort_of_desc _ _ (by
    rw [List.pairwise_reverse, List.pairwise_map]
    refine (List.pairwise_lt_range' 0 b.length).imp ?_
    intro x y hxy
    simp only [decide_eq_true_eq]
    omega)]
  rw [List.reverse_reverse]

/-! ## Reactive.ts — `_ReactiveArrayCore`

The core's instance variables, together with the host array it instruments and
the log of diffs posted to the default `NotificationCenter` (the external
collaborator), form the state.  A JS exception is modelled by the `threw` flag
of `RunOut`; the host is left as the partially applied operation left it. -/

structure CoreState (α : Type u) where
  host : List α
  balance : Int                      -- `_mutationBalance`
  onlyChange : Option (ArrayDiff α)  -- `_onlyChange`
  original : Option (List α)         -- `_original`
  posted : List (ArrayDiff α)        -- diffs posted so far
deriving Repr

structure RunOut (α : Type u) where
  state : CoreState α
  threw : Bool
deriving Repr

/-- `beginMutation`. -/
def beginMutation (s : CoreState α) : CoreState α :=
  { s with balance := s.balance + 1 }

/-- `endMutation`: when the balance returns to zero, post the pending single
diff, or diff the saved snapshot against the current host, or post nothing. -/
def endMutation [Inhabited α] (equal : α → α → Bool) (s : CoreState α) : CoreState α :=
  let s1 := { s with balance := s.balance - 1 }
  if s1.balance ≠ 0 then s1
  else
    match s1.onlyChange with
    | some diff => { s1 with onlyChange := none, posted := s1.posted ++ [diff] }
    | none =>
      match s1.original with
      | some orig =>
        { s1 with
          original := none
          posted := s1.posted ++ [arrayDiff orig s1.host equal 0] }
      | none => s1

/-- `cancelMutation`: when the balance returns to zero, discard the pending
diff and snapshot without posting. -/
def cancelMutation (s : CoreState α) : CoreState α :=
  let s1 := { s with balance := s.balance - 1 }
  if s1.balance ≠ 0 then s1
  else { s1 with onlyChange := none, original := none }

/-- `_recordChange`: throws outside a mutation session; does nothing once a
snapshot exists; records a first diff; on a second diff reconstructs the
pre-session array and switches to snapshot tracking. -/
def recordChange [Inhabited α] (s : CoreState α) (diff : ArrayDiff α) : RunOut α :=
  if s.balance = 0 then ⟨s, true⟩
  else
    match s.original with
    | some _ => ⟨s, false⟩
    | none =>
      match s.onlyChange with
      | none => ⟨{ s with onlyChange := some diff }, false⟩
      | some oc =>
        ⟨{ s with
            original := some (oc.inverse.applyInto (diff.inverse.apply s.host)),
            onlyChange := none }, false⟩

/-- JS assignment `host[i] = v` for an integer index: in-range assignment
replaces, assignment past the end extends the array (holes modelled by
`default`), a negative index is a plain property and leaves the elements
untouched. -/
def hostSetI [Inhabited α] (l : List α) (i : Int) (v : α) : List α :=
  if i < 0 then l
  else if i.toNat < l.length then l.set i.toNat v
  else l ++ List.replicate (i.toNat - l.length) default ++ [v]

/-- JS assignment `host.length = n`: truncate, or extend with holes. -/
def hostSetLength [Inhabited α] (l : List α) (n : Nat) : List α :=
  if n ≤ l.length then l.take n else l ++ List.replicate (n - l.length) default

/-- `setAt` for an integer key (string keys that are not array indices take
the `Reflect.set` path and leave the elements untouched; indices at or past
2³¹ would fail the `index === ~~index` test and take the snapshot path, like
any other length-changing index — the claims only exercise genuine indices).
A safe in-bounds index records a single-change diff when the value differs;
an index at or past the length loads the snapshot and lets `endMutation`
re-diff. -/
def setAt [Inhabited α] (equal : α → α → Bool) (s : CoreState α) (key : Int)
    (value : α) : RunOut α :=
  match s.original with
  | some _ => ⟨{ s with host := hostSetI s.host key value }, false⟩
  | none =>
    if ¬ 0 ≤ key then ⟨s, false⟩
    else if key.toNat < s.host.length then
      let old := s.host.getD key.toNat default
      let rec1 :=
        if ¬ equal old value
        then recordChange s (ArrayDiff.singleChange key old value)
        else ⟨s, false⟩
      if rec1.threw then rec1
      else ⟨{ rec1.state with host := hostSetI rec1.state.host key value }, false⟩
    else
      let s1 :=
        match s.onlyChange with
        | none => { s with original := some s.host }
        | some oc =>
          { s with original := some (oc.inverse.apply s.host), onlyChange := none }
      ⟨{ s1 with host := hostSetI s1.host key value }, false⟩

/-- `setLength` (for a valid length; an invalid one would throw after the same
bookkeeping).  Equal length: no-op.  Otherwise ensure a snapshot exists (from
the pending diff, or from the host if inside a session), then assign; with no
session open, throw. -/
def setLength [Inhabited α] (s : CoreState α) (length : Nat) : RunOut α :=
  if length = s.host.length then ⟨s, false⟩
  else
    let s1 :=
      match s.original with
      | some _ => s
      | none =>
        match s.onlyChange with
        | some oc =>
          { s with original := some (oc.inverse.apply s.host), onlyChange := none }
        | none =>
          if s.balance ≠ 0 then { s with original := some s.host } else s
    match s1.original with
    | some _ => ⟨{ s1 with host := hostSetLength s1.host length }, false⟩
    | none => ⟨s1, true⟩

/-- The argument forms of `replaceIn` / `Array.prototype.splice`
(`arguments.length` 0, 1, 2, or more). -/
inductive SpliceArgs (α : Type u) where
  | none0
  | one (start : Int)
  | two (start count : Int)
  | more (start count : Int) (elements : List α)
deriving Repr

def SpliceArgs.startOf : SpliceArgs α → Int
  | .none0 => 0
  | .one s => s
  | .two s _ => s
  | .more s _ _ => s

def SpliceArgs.elementsOf : SpliceArgs α → List α
  | .more _ _ es => es
  | _ => []

def SpliceArgs.present : SpliceArgs α → Bool
  | .none0 => false
  | _ => true

/-- `Array.prototype.splice` with the exact arity the caller used. -/
def spliceCall (l : List α) : SpliceArgs α → List α × List α
  | .none0 => (l, [])
  | .one s => jsSplice l s ((l.length : Int) - resolveIndex s l.length true) []
  | .two s c => jsSplice l s c []
  | .more s c es => jsSplice l s c es

/-- `replaceIn`: splice the host, then — unless a snapshot already exists —
record the diff of the removed segment against the inserted elements, offset
by the resolved start index, provided something changed. -/
def replaceIn [Inhabited α] (equal : α → α → Bool) (s : CoreState α)
    (args : SpliceArgs α) : RunOut α × List α :=
  let oldLength := s.host.length
  let sp := spliceCall s.host args
  let removed := sp.2
  let s1 := { s with host := sp.1 }
  match s.original with
  | some _ => (⟨s1, false⟩, removed)
  | none =>
    if removed.length ≠ 0 ∨ oldLength ≠ sp.1.length then
      let realIndex := resolveIndex args.startOf oldLength args.present
      let diff := arrayDiff removed args.elementsOf equal realIndex
      (recordChange s1 diff, removed)
    else (⟨s1, false⟩, removed)

/-- The elementary mutations a session body can perform; `fail` models a step
of the caller's operation that throws. -/
inductive ElemOp (α : Type u) where
  | set (key : Int) (value : α)
  | setLen (length : Nat)
  | splice (args : SpliceArgs α)
  | fail

def execElem [Inhabited α] (equal : α → α → Bool) (e : ElemOp α)
    (s : CoreState α) : RunOut α :=
  match e with
  | .set k v => setAt equal s k v
  | .setLen n => setLength s n
  | .splice args => (replaceIn equal s args).1
  | .fail => ⟨s, true⟩

/-- The wrapper the proxy handler installs around every mutating operation:
`beginMutation`, run the body, then `endMutation` on success or
`cancelMutation` and rethrow on error. -/
def instrumented [Inhabited α] (equal : α → α → Bool)
    (body : CoreState α → RunOut α) (s : CoreState α) : RunOut α :=
  let r := body (beginMutation s)
  if r.threw then ⟨cancelMutation r.state, true⟩
  else ⟨endMutation equal r.state, false⟩

/-- A mutation program: a single proxied elementary mutation, or a proxied
`withMutations` block whose body performs a sequence of nested programs. -/
inductive Prog (α : Type u) where
  | op (e : ElemOp α)
  | block (ps : List (Prog α))

mutual

def execProg [Inhabited α] (equal : α → α → Bool) (p : Prog α)
    (s : CoreState α) : RunOut α :=
  match p with
  | .op e => instrumented equal (execElem equal e) s
  | .block ps =>
    let r := execBody equal ps (beginMutation s)
    if r.threw then ⟨cancelMutation r.state, true⟩
    else ⟨endMutation equal r.state, false⟩

def execBody [Inhabited α] (equal : α → α → Bool) (ps : List (Prog α))
    (s : CoreState α) : RunOut α :=
  match ps with
  | [] => ⟨s, false⟩
  | p :: rest =>
    let r := execProg equal p s
    if r.threw then r else execBody equal rest r.state

end

/-! ### Offset forms and precision of one-shape diffs -/

/-- A nonzero `droppedStart` shifts both sorted index lists of the zero-offset
diff uniformly. -/
theorem arrayDiff_off [Inhabited α] (a b : List α) (equal : α → α → Bool)
    (r : Int) (hr : r ≠ 0) :
    arrayDiff a b equal r =
      ⟨(arrayDiff a b equal 0).removals.map
        (fun c => { c with removedAt := c.removedAt + r }),
       (arrayDiff a b equal 0).insertions.map
        (fun c => { c with insertedAt := c.insertedAt + r })⟩ := by
  unfold arrayDiff
  dsimp only
  rw [if_pos hr, if_neg (by simp)]

/-- `arrayDiff` from an empty source, with an offset: one insertion per target
index, ascending from the offset. -/
theorem arrayDiff_a_nil_off [Inhabited α] (es : List α) (equal : α → α → Bool)
    (r : Int) :
    arrayDiff ([] : List α) es equal r =
      ⟨[], (List.range' 0 es.length).map
        (fun (i : Nat) => ⟨(i : Int) + r, jsGet es (i : Int)⟩)⟩ := by
  by_cases hr : r = 0
  · subst hr
    rw [arrayDiff_a_nil]
    have : ∀ x ∈ List.range' 0 es.length,
        (⟨(x : Int), jsGet es (x : Int)⟩ : ArrayInsertion α) =
        ⟨(x : Int) + 0, jsGet es (x : Int)⟩ := by
      intro x _
      simp
    rw [List.map_eq_map_iff.mpr this]
  · rw [arrayDiff_off ([] : List α) es equal r hr, arrayDiff_a_nil]
    dsimp only
    rw [List.map_map]
    rfl

/-- `arrayDiff` to an empty target, with an offset: one removal per source
index, ascending from the offset. -/
theorem arrayDiff_b_nil_off [Inhabited α] (a : List α) (equal : α → α → Bool)
    (r : Int) :
    arrayDiff a ([] : List α) equal r =
      ⟨(List.range' 0 a.length).map
        (fun (i : Nat) => ⟨(i : Int) + r, jsGet a (i : Int)⟩), []⟩ := by
  by_cases hr : r = 0
  · subst hr
    rw [arrayDiff_b_nil]
    have : ∀ x ∈ List.range' 0 a.length,
        (⟨(x : Int), jsGet a (x : Int)⟩ : ArrayRemoval α) =
        ⟨(x : Int) + 0, jsGet a (x : Int)⟩ := by
      intro x _
      simp
    rw [List.map_eq_map_iff.mpr this]
  · rw [arrayDiff_off a ([] : List α) equal r hr, arrayDiff_b_nil]
    dsimp only
    rw [List.map_map]
    rfl

/-- Applying an insertions-only diff covering `[s, s + c)` of the target. -/
theorem insertOnly_apply [Inhabited α] (arr tgt : List α) (s c : Nat)
    (h1 : tgt.take s ++ tgt.drop (s + c) = arr) (h2 : s + c ≤ tgt.length) :
    (⟨[], (List.range' s c).map
      (fun (i : Nat) => ⟨(i : Int), jsGet tgt (i : Int)⟩)⟩ : ArrayDiff α).apply arr
      = tgt := by
  have h := applyInto_sieve arr tgt [] (List.range' s c) (fun _ => default)
    List.Pairwise.nil (by simp) (List.pairwise_lt_range' s c)
    (by
      intro i hi
      rw [List.mem_range'_1] at hi
      omega)
    (by rw [sieve_nil, sieve_range' c s tgt h2, h1])
  simpa using h

/-- Applying a removals-only diff covering `[s, s + c)` of the source (the
stored elements are irrelevant). -/
theorem removeOnly_apply [Inhabited α] (arr : List α) (s c : Nat)
    (rEl : Nat → α) (h2 : s + c ≤ arr.length) :
    (⟨(List.range' s c).map (fun (i : Nat) => ⟨(i : Int), rEl i⟩),
      []⟩ : ArrayDiff α).apply arr = arr.take s ++ arr.drop (s + c) := by
  have h := applyInto_sieve arr (arr.take s ++ arr.drop (s + c))
    (List.range' s c) [] rEl (List.pairwise_lt_range' s c)
    (by
      intro i hi
      rw [List.mem_range'_1] at hi
      omega)
    List.Pairwise.nil (by simp)
    (by rw [sieve_nil, sieve_range' c s arr h2])
  simpa using h

/-- Applying a single-change diff replaces the element in place. -/
theorem singleChange_apply [Inhabited α] (host : List α) (k : Nat) (v old : α)
    (hk : k < host.length) :
    (ArrayDiff.singleChange (k : Int) old v).apply host = host.set k v := by
  have hv : jsGet (host.set k v) ((k : Nat) : Int) = v := by
    rw [jsGet_nat _ k (by rw [List.length_set]; omega)]
    exact List.getElem_set_eq (by rw [List.length_set]; omega)
  have halign : sieve host [k] = sieve (host.set k v) [k] := by
    show host.eraseIdx k = (host.set k v).eraseIdx k
    rw [List.set_eq_take_cons_drop v hk, List.eraseIdx_eq_take_drop_succ,
      List.eraseIdx_append_of_length_le
        (le_of_eq (List.length_take_of_le (by omega))),
      List.length_take_of_le (by omega), Nat.sub_self]
    simp [List.eraseIdx]
  have h := applyInto_sieve host (host.set k v) [k] [k] (fun _ => old)
    (List.pairwise_singleton _ _)
    (by
      intro i hi
      simp only [List.mem_singleton] at hi
      omega)
    (List.pairwise_singleton _ _)
    (by
      intro i hi
      simp only [List.mem_singleton] at hi
      rw [List.length_set]
      omega)
    halign
  have hshape : (⟨[k].map (fun (i : Nat) => ⟨(i : Int), old⟩),
      [k].map (fun (i : Nat) => ⟨(i : Int), jsGet (host.set k v) (i : Int)⟩)⟩ :
        ArrayDiff α) = ArrayDiff.singleChange (k : Int) old v := by
    unfold ArrayDiff.singleChange
    rw [ArrayDiff.mk.injEq]
    refine ⟨rfl, ?_⟩
    show [(⟨(k : Int), jsGet (host.set k v) ((k : Nat) : Int)⟩ : ArrayInsertion α)] = _
    rw [hv]
  rw [← hshape]
  exact h

/-- Full-pair form of the insertion splice. -/
theorem jsSplice_insert_pair (arr : List α) (s : Nat) (items : List α)
    (hs : s ≤ arr.length) :
    jsSplice arr (s : Int) 0 items =
      (arr.take s ++ items ++ arr.drop s, []) := by
  unfold jsSplice resolveIndex
  dsimp only
  rw [if_neg (by simp), if_neg (by omega)]
  have h1 : (min (s : Int) (arr.length : Int)).toNat = s := by omega
  rw [h1]
  have h2 : (min (max (0 : Int) 0) ((arr.length : Int) - (s : Int))).toNat = 0 := by
    omega
  rw [h2, Nat.add_zero]
  rfl

/-- Full-pair form of the block-removal splice. -/
theorem jsSplice_block_pair (arr : List α) (s e : Nat) (hse : s ≤ e)
    (he : e ≤ arr.length) :
    jsSplice arr (s : Int) ((e : Int) - (s : Int)) [] =
      (arr.take s ++ arr.drop e, (arr.drop s).take (e - s)) := by
  unfold jsSplice resolveIndex
  dsimp only
  rw [if_neg (by simp), if_neg (by omega)]
  have h1 : (min (s : Int) (arr.length : Int)).toNat = s := by omega
  rw [h1]
  have h2 : (min (max ((e : Int) - (s : Int)) 0)
      ((arr.length : Int) - (s : Int))).toNat = e - s := by omega
  rw [h2]
  simp only [List.nil_append, List.append_nil]
  rw [show s + (e - s) = e by omega]

/-- The state transition of `setAt` for a safe in-bounds index whose new value
differs, in a clean session: one precise single-change pending diff, no
snapshot. -/
theorem setAt_inbounds [Inhabited α] (equal : α → α → Bool) (host : List α)
    (bal : Int) (posted : List (ArrayDiff α)) (k : Nat) (v : α)
    (hbal : bal ≠ 0) (hk : k < host.length)
    (hne : equal (host.getD k default) v = false) :
    setAt equal ⟨host, bal, none, none, posted⟩ ((k : Nat) : Int) v =
      ⟨⟨host.set k v, bal,
        some (ArrayDiff.singleChange ((k : Nat) : Int) (host.getD k default) v),
        none, posted⟩, false⟩ := by
  unfold setAt
  rw [if_neg (by omega), if_pos (by rw [Int.toNat_natCast]; exact hk)]
  dsimp only
  rw [Int.toNat_natCast]
  have hrec : (if ¬ equal (host.getD k default) v = true
      then recordChange (⟨host, bal, none, none, posted⟩ : CoreState α)
        (ArrayDiff.singleChange ((k : Nat) : Int) (host.getD k default) v)
      else ⟨⟨host, bal, none, none, posted⟩, false⟩) =
      ⟨⟨host, bal, some (ArrayDiff.singleChange ((k : Nat) : Int)
        (host.getD k default) v), none, posted⟩, false⟩ := by
    rw [if_pos (by rw [hne]; exact Bool.false_ne_true)]
    unfold recordChange
    rw [if_neg (show ¬ (⟨host, bal, none, none, posted⟩ : CoreState α).balance = 0
      from hbal)]
  rw [hrec]
  rw [if_neg (show ¬ (⟨⟨host, bal, some (ArrayDiff.singleChange ((k : Nat) : Int)
      (host.getD k default) v), none, posted⟩, false⟩ : RunOut α).threw = true
    from Bool.false_ne_true)]
  unfold hostSetI
  rw [if_neg (by omega), if_pos (by rw [Int.toNat_natCast]; exact hk),
    Int.toNat_natCast]

/-- The state transition of a pure append (`push`, routed through
`replaceIn(length, 0, items)`) in a clean session: one precise insertions-only
pending diff, no snapshot. -/
theorem replaceIn_append [Inhabited α] (equal : α → α → Bool) (host : List α)
    (bal : Int) (posted : List (ArrayDiff α)) (es : List α)
    (hbal : bal ≠ 0) (hes : es ≠ []) :
    replaceIn equal ⟨host, bal, none, none, posted⟩
        (.more ((host.length : Nat) : Int) 0 es) =
      (⟨⟨host ++ es, bal,
         some (arrayDiff ([] : List α) es equal ((host.length : Nat) : Int)),
         none, posted⟩, false⟩, []) := by
  have hsp : spliceCall host (SpliceArgs.more ((host.length : Nat) : Int) 0 es) =
      (host ++ es, []) := by
    show jsSplice host ((host.length : Nat) : Int) 0 es = _
    rw [jsSplice_insert_pair host host.length es (Nat.le_refl _),
      List.take_length, List.drop_length, List.append_nil]
  have hres : resolveIndex ((host.length : Nat) : Int) host.length true =
      ((host.length : Nat) : Int) := by
    unfold resolveIndex
    rw [if_neg (by simp), if_neg (by omega)]
    omega
  unfold replaceIn
  dsimp only
  simp only [hsp]
  rw [if_pos (by
    right
    simp only [List.length_append]
    intro hcon
    exact hes (List.eq_nil_of_length_eq_zero (by omega)))]
  unfold recordChange
  dsimp only
  rw [if_neg (by exact hbal)]
  rw [show (SpliceArgs.more (α := α) ((host.length : Nat) : Int) 0 es).elementsOf
      = es from rfl,
    show (SpliceArgs.more (α := α) ((host.length : Nat) : Int) 0 es).startOf
      = ((host.length : Nat) : Int) from rfl,
    show (SpliceArgs.more (α := α) ((host.length : Nat) : Int) 0 es).present
      = true from rfl,
    hres]

/-- The state transition of a pure prefix insert (`unshift`, routed through
`replaceIn(0, 0, items)`) in a clean session. -/
theorem replaceIn_prefix [Inhabited α] (equal : α → α → Bool) (host : List α)
    (bal : Int) (posted : List (ArrayDiff α)) (es : List α)
    (hbal : bal ≠ 0) (hes : es ≠ []) :
    replaceIn equal ⟨host, bal, none, none, posted⟩ (.more 0 0 es) =
      (⟨⟨es ++ host, bal, some (arrayDiff ([] : List α) es equal 0),
         none, posted⟩, false⟩, []) := by
  have hsp : spliceCall host (SpliceArgs.more (α := α) 0 0 es) =
      (es ++ host, []) := by
    show jsSplice host (((0 : Nat) : Int)) 0 es = _
    rw [jsSplice_insert_pair host 0 es (Nat.zero_le _),
      List.take_zero, List.drop_zero, List.nil_append]
  have hres : resolveIndex 0 host.length true = 0 := by
    unfold resolveIndex
    rw [if_neg (by simp), if_neg (by omega)]
    omega
  unfold replaceIn
  dsimp only
  simp only [hsp]
  rw [if_pos (by
    right
    simp only [List.length_append]
    intro hcon
    exact hes (List.eq_nil_of_length_eq_zero (by omega)))]
  unfold recordChange
  dsimp only
  rw [if_neg (by exact hbal)]
  rw [show (SpliceArgs.more (α := α) 0 0 es).elementsOf = es from rfl,
    show (SpliceArgs.more (α := α) 0 0 es).startOf = 0 from rfl,
    show (SpliceArgs.more (α := α) 0 0 es).present = true from rfl,
    hres]

/-- The state transition of a pure tail truncation performed by
`splice(k)` (`replaceIn` with a single argument) in a clean session: one
precise removals-only pending diff, no snapshot. -/
theorem replaceIn_truncate [Inhabited α] (equal : α → α → Bool) (host : List α)
    (bal : Int) (posted : List (ArrayDiff α)) (k : Nat)
    (hbal : bal ≠ 0) (hk : k < host.length) :
    replaceIn equal ⟨host, bal, none, none, posted⟩ (.one ((k : Nat) : Int)) =
      (⟨⟨host.take k, bal,
         some (arrayDiff (host.drop k) ([] : List α) equal ((k : Nat) : Int)),
         none, posted⟩, false⟩, host.drop k) := by
  have hres : resolveIndex ((k : Nat) : Int) host.length true = ((k : Nat) : Int) := by
    unfold resolveIndex
    rw [if_neg (by simp), if_neg (by omega)]
    omega
  have hsp : spliceCall host (SpliceArgs.one (α := α) ((k : Nat) : Int)) =
      (host.take k, host.drop k) := by
    show jsSplice host ((k : Nat) : Int)
      ((host.length : Int) - resolveIndex ((k : Nat) : Int) host.length true) [] = _
    rw [hres]
    rw [jsSplice_block_pair host k host.length (by omega) (Nat.le_refl _)]
    rw [List.drop_length, List.append_nil,
      List.take_of_length_le (show (host.drop k).length ≤ host.length - k by
        rw [List.length_drop])]
  unfold replaceIn
  dsimp only
  simp only [hsp]
  rw [if_pos (by
    left
    rw [List.length_drop]
    omega)]
  unfold recordChange
  dsimp only
  rw [if_neg (by exact hbal)]
  rw [show (SpliceArgs.one (α := α) ((k : Nat) : Int)).elementsOf = [] from rfl,
    show (SpliceArgs.one (α := α) ((k : Nat) : Int)).startOf = ((k : Nat) : Int)
      from rfl,
    show (SpliceArgs.one (α := α) ((k : Nat) : Int)).present = true from rfl,
    hres]

/-- The state transition of a tail truncation performed through the `length`
setter in a clean session: the core takes a snapshot of the pre-mutation
sequence and leaves no pending diff. -/
theorem setLength_truncate [Inhabited α] (host : List α)
    (bal : Int) (posted : List (ArrayDiff α)) (k : Nat)
    (hbal : bal ≠ 0) (hk : k < host.length) :
    setLength (⟨host, bal, none, none, posted⟩ : CoreState α) k =
      ⟨⟨host.take k, bal, none, some host, posted⟩, false⟩ := by
  unfold setLength
  dsimp only
  rw [if_neg (by omega), if_pos (by exact hbal)]
  dsimp only
  unfold hostSetLength
  rw [if_pos (by omega)]

theorem map_range'_shift {β : Type u} (c n : Nat) (f g : Nat → β)
    (h : ∀ i, i < c → f i = g (n + i)) :
    (List.range' 0 c).map f = (List.range' n c).map g := by
  rw [List.range'_eq_map_range 0 c, List.range'_eq_map_range n c,
    List.map_map, List.map_map]
  refine List.map_eq_map_iff.mpr ?_
  intro x hx
  rw [List.mem_range] at hx
  show f (0 + x) = g (n + x)
  rw [Nat.zero_add]
  exact h x hx

/-- The diff recorded for a pure append precisely reproduces the append. -/
theorem appendDiff_apply [Inhabited α] (host es : List α)
    (equal : α → α → Bool) :
    (arrayDiff ([] : List α) es equal ((host.length : Nat) : Int)).apply host =
      host ++ es := by
  rw [arrayDiff_a_nil_off]
  have hconv : (List.range' 0 es.length).map
      (fun (i : Nat) =>
        (⟨(i : Int) + ((host.length : Nat) : Int), jsGet es (i : Int)⟩ :
          ArrayInsertion α)) =
      (List.range' host.length es.length).map
      (fun (i : Nat) => ⟨(i : Int), jsGet (host ++ es) (i : Int)⟩) := by
    apply map_range'_shift
    intro i hi
    have h2 : jsGet (host ++ es) ((host.length + i : Nat) : Int) =
        jsGet es ((i : Nat) : Int) := by
      unfold jsGet getI
      rw [if_pos (by omega), if_pos (by omega), Int.toNat_natCast,
        Int.toNat_natCast, List.getElem?_append_right (by omega),
        Nat.add_sub_cancel_left]
    rw [ArrayInsertion.mk.injEq]
    exact ⟨by push_cast; ring, h2.symm⟩
  rw [hconv]
  exact insertOnly_apply host (host ++ es) host.length es.length
    (by
      rw [List.take_append_of_le_length (Nat.le_refl _), List.take_length,
        show host.length + es.length = (host ++ es).length by simp,
        List.drop_length, List.append_nil])
    (by simp)

/-- The diff recorded for a pure prefix insert precisely reproduces it. -/
theorem prefixDiff_apply [Inhabited α] (host es : List α)
    (equal : α → α → Bool) :
    (arrayDiff ([] : List α) es equal 0).apply host = es ++ host := by
  rw [arrayDiff_a_nil]
  have hconv : (List.range' 0 es.length).map
      (fun (i : Nat) => (⟨(i : Int), jsGet es (i : Int)⟩ : ArrayInsertion α)) =
      (List.range' 0 es.length).map
      (fun (i : Nat) => ⟨(i : Int), jsGet (es ++ host) (i : Int)⟩) := by
    refine List.map_eq_map_iff.mpr ?_
    intro x hx
    rw [List.mem_range'_1] at hx
    have h2 : jsGet (es ++ host) ((x : Nat) : Int) = jsGet es ((x : Nat) : Int) := by
      unfold jsGet getI
      rw [if_pos (by omega), if_pos (by omega)]
      rw [show ((x : Nat) : Int).toNat = x from Int.toNat_natCast x]
      rw [List.getElem?_append_left (by omega)]
    rw [ArrayInsertion.mk.injEq]
    exact ⟨rfl, h2.symm⟩
  rw [hconv]
  exact insertOnly_apply host (es ++ host) 0 es.length
    (by
      rw [List.take_zero, Nat.zero_add, List.nil_append,
        List.drop_left' rfl])
    (by simp)

/-- The diff recorded for a pure tail truncation precisely reproduces it. -/
theorem truncateDiff_apply [Inhabited α] (host : List α) (k : Nat)
    (equal : α → α → Bool) (hk : k ≤ host.length) :
    (arrayDiff (host.drop k) ([] : List α) equal ((k : Nat) : Int)).apply host =
      host.take k := by
  rw [arrayDiff_b_nil_off]
  have hconv : (List.range' 0 (host.drop k).length).map
      (fun (i : Nat) =>
        (⟨(i : Int) + ((k : Nat) : Int), jsGet (host.drop k) (i : Int)⟩ :
          ArrayRemoval α)) =
      (List.range' k (host.length - k)).map
      (fun (i : Nat) =>
        ⟨(i : Int), jsGet (host.drop k) ((i : Int) - ((k : Nat) : Int))⟩) := by
    rw [List.length_drop]
    apply map_range'_shift
    intro i hi
    rw [ArrayRemoval.mk.injEq]
    refine ⟨by push_cast; ring, ?_⟩
    rw [show ((k + i : Nat) : Int) - ((k : Nat) : Int) = ((i : Nat) : Int) by
      push_cast; ring]
  rw [hconv]
  have h := removeOnly_apply host k (host.length - k)
    (fun i => jsGet (host.drop k) ((i : Int) - ((k : Nat) : Int)))
    (by omega)
  rw [h, show k + (host.length - k) = host.length by omega, List.drop_length,
    List.append_nil]

/-! ## Bookkeeping invariants of the reactive core -/

theorem recordChange_keeps [Inhabited α] (s : CoreState α) (diff : ArrayDiff α) :
    (recordChange s diff).state.balance = s.balance ∧
    (recordChange s diff).state.posted = s.posted ∧
    (recordChange s diff).state.host = s.host := by
  unfold recordChange
  split
  · exact ⟨rfl, rfl, rfl⟩
  · split
    · exact ⟨rfl, rfl, rfl⟩
    · split <;> exact ⟨rfl, rfl, rfl⟩

theorem setAt_keeps [Inhabited α] (equal : α → α → Bool) (s : CoreState α)
    (key : Int) (value : α) :
    (setAt equal s key value).state.balance = s.balance ∧
    (setAt equal s key value).state.posted = s.posted := by
  have hrec := recordChange_keeps s
    (ArrayDiff.singleChange key (s.host.getD key.toNat default) value)
  unfold setAt
  split
  · exact ⟨rfl, rfl⟩
  · split
    · exact ⟨rfl, rfl⟩
    · split
      · dsimp only
        split <;> split <;>
          first
          | exact ⟨rfl, rfl⟩
          | exact ⟨hrec.1, hrec.2.1⟩
      · split <;> exact ⟨rfl, rfl⟩

theorem setLength_keeps [Inhabited α] (s : CoreState α) (length : Nat) :
    (setLength s length).state.balance = s.balance ∧
    (setLength s length).state.posted = s.posted := by
  unfold setLength
  split
  · exact ⟨rfl, rfl⟩
  · dsimp only
    repeat' split
    all_goals exact ⟨rfl, rfl⟩

theorem replaceIn_keeps [Inhabited α] (equal : α → α → Bool) (s : CoreState α)
    (args : SpliceArgs α) :
    (replaceIn equal s args).1.state.balance = s.balance ∧
    (replaceIn equal s args).1.state.posted = s.posted := by
  unfold replaceIn
  have hrec := fun s1 d => recordChange_keeps (α := α) s1 d
  split
  · exact ⟨rfl, rfl⟩
  · dsimp only
    split
    · exact ⟨(recordChange_keeps _ _).1, (recordChange_keeps _ _).2.1⟩
    · exact ⟨rfl, rfl⟩

theorem execElem_keeps [Inhabited α] (equal : α → α → Bool) (e : ElemOp α)
    (s : CoreState α) :
    (execElem equal e s).state.balance = s.balance ∧
    (execElem equal e s).state.posted = s.posted := by
  cases e with
  | set k v => exact setAt_keeps equal s k v
  | setLen n => exact setLength_keeps s n
  | splice args => exact replaceIn_keeps equal s args
  | fail => exact ⟨rfl, rfl⟩

@[simp] theorem beginMutation_balance (s : CoreState α) :
    (beginMutation s).balance = s.balance + 1 := rfl

@[simp] theorem beginMutation_posted (s : CoreState α) :
    (beginMutation s).posted = s.posted := rfl

theorem endMutation_balance [Inhabited α] (equal : α → α → Bool) (s : CoreState α) :
    (endMutation equal s).balance = s.balance - 1 := by
  unfold endMutation
  dsimp only
  split
  · rfl
  · split
    · rfl
    · split <;> rfl

theorem endMutation_posted_nested [Inhabited α] (equal : α → α → Bool)
    (s : CoreState α) (h : s.balance - 1 ≠ 0) :
    (endMutation equal s).posted = s.posted := by
  unfold endMutation
  dsimp only
  rw [if_pos]
  simpa using h

theorem endMutation_posted_le [Inhabited α] (equal : α → α → Bool) (s : CoreState α) :
    (endMutation equal s).posted = s.posted ∨
    ∃ d, (endMutation equal s).posted = s.posted ++ [d] := by
  unfold endMutation
  dsimp only
  split
  · exact .inl rfl
  · split
    · exact .inr ⟨_, rfl⟩
    · split
      · exact .inr ⟨_, rfl⟩
      · exact .inl rfl

theorem endMutation_posted_none [Inhabited α] (equal : α → α → Bool)
    (s : CoreState α) (h1 : s.onlyChange = none) (h2 : s.original = none) :
    (endMutation equal s).posted = s.posted := by
  unfold endMutation
  dsimp only
  split
  · rfl
  · split
    · simp_all
    · split
      · simp_all
      · rfl

theorem cancelMutation_balance (s : CoreState α) :
    (cancelMutation s).balance = s.balance - 1 := by
  unfold cancelMutation
  dsimp only
  split <;> rfl

theorem cancelMutation_posted (s : CoreState α) :
    (cancelMutation s).posted = s.posted := by
  unfold cancelMutation
  dsimp only
  split <;> rfl

theorem cancelMutation_clears (s : CoreState α) (h : s.balance - 1 = 0) :
    (cancelMutation s).onlyChange = none ∧ (cancelMutation s).original = none := by
  unfold cancelMutation
  dsimp only
  rw [if_neg]
  · exact ⟨rfl, rfl⟩
  · simpa using h

/-- Any program execution restores the mutation balance, and from a nested
position (balance ≥ 1) posts nothing — whether or not the body throws. -/
theorem execProg_keeps [Inhabited α] (equal : α → α → Bool) :
    ∀ (p : Prog α) (s : CoreState α),
      (execProg equal p s).state.balance = s.balance ∧
      (1 ≤ s.balance → (execProg equal p s).state.posted = s.posted) := by
  have main : ∀ (ps : List (Prog α)) (s : CoreState α),
      (∀ p ∈ ps, ∀ s1, (execProg equal p s1).state.balance = s1.balance ∧
        (1 ≤ s1.balance → (execProg equal p s1).state.posted = s1.posted)) →
      (execBody equal ps s).state.balance = s.balance ∧
      (1 ≤ s.balance → (execBody equal ps s).state.posted = s.posted) := by
    intro ps
    induction ps with
    | nil => exact fun s _ => ⟨rfl, fun _ => rfl⟩
    | cons p rest ih =>
      intro s hmem
      have hp := hmem p (List.mem_cons_self p rest) s
      unfold execBody
      dsimp only
      split
      · exact hp
      · have hr := ih (execProg equal p s).state
          (fun q hq s1 => hmem q (List.mem_cons_of_mem p hq) s1)
        refine ⟨hr.1.trans hp.1, fun hb => ?_⟩
        rw [hr.2 (by rw [hp.1]; exact hb), hp.2 hb]
  intro p
  refine @Prog.rec α
    (fun p => ∀ s : CoreState α,
      (execProg equal p s).state.balance = s.balance ∧
      (1 ≤ s.balance → (execProg equal p s).state.posted = s.posted))
    (fun ps => ∀ p ∈ ps, ∀ s1 : CoreState α,
      (execProg equal p s1).state.balance = s1.balance ∧
      (1 ≤ s1.balance → (execProg equal p s1).state.posted = s1.posted))
    ?_ ?_ ?_ ?_ p
  · intro e s
    have he := execElem_keeps equal e (beginMutation s)
    unfold execProg instrumented
    dsimp only
    split
    · refine ⟨?_, fun _ => ?_⟩
      · rw [cancelMutation_balance, he.1, beginMutation_balance]; omega
      · rw [cancelMutation_posted, he.2, beginMutation_posted]
    · refine ⟨?_, fun hb => ?_⟩
      · rw [endMutation_balance, he.1, beginMutation_balance]; omega
      · have h1 : (execElem equal e (beginMutation s)).state.balance - 1 ≠ 0 := by
          rw [he.1, beginMutation_balance]; omega
        rw [endMutation_posted_nested _ _ h1, he.2, beginMutation_posted]
  · intro ps ihps s
    have hb := main ps (beginMutation s) ihps
    have hbp : 1 ≤ (beginMutation s).balance → True := fun _ => trivial
    unfold execProg
    dsimp only
    split
    · refine ⟨?_, fun hbal => ?_⟩
      · rw [cancelMutation_balance, hb.1, beginMutation_balance]; omega
      · rw [cancelMutation_posted,
          hb.2 (by rw [beginMutation_balance]; omega), beginMutation_posted]
    · refine ⟨?_, fun hbal => ?_⟩
      · rw [endMutation_balance, hb.1, beginMutation_balance]; omega
      · have h1 : (execBody equal ps (beginMutation s)).state.balance - 1 ≠ 0 := by
          rw [hb.1, beginMutation_balance]; omega
        rw [endMutation_posted_nested _ _ h1,
          hb.2 (by rw [beginMutation_balance]; omega), beginMutation_posted]
  · intro p hp s1
    exact absurd hp (List.not_mem_nil p)
  · intro q qs ihq ihqs p hp s1
    rcases List.mem_cons.mp hp with h | h
    · subst h
      exact ihq s1
    · exact ihqs p h s1

theorem execBody_keeps [Inhabited α] (equal : α → α → Bool) (ps : List (Prog α))
    (s : CoreState α) :
    (execBody equal ps s).state.balance = s.balance ∧
    (1 ≤ s.balance → (execBody equal ps s).state.posted = s.posted) := by
  induction ps generalizing s with
  | nil => exact ⟨rfl, fun _ => rfl⟩
  | cons p rest ih =>
    have hp := execProg_keeps equal p s
    unfold execBody
    dsimp only
    split
    · exact hp
    · have hr := ih (execProg equal p s).state
      refine ⟨hr.1.trans hp.1, fun hb => ?_⟩
      rw [hr.2 (by rw [hp.1]; exact hb), hp.2 hb]

/-! ## RangeSet: well-formedness -/

/-- Sum of `end - start` over a pair list. -/
def sumPairs (l : List (Int × Int)) : Int :=
  l.foldl (fun acc p => acc + (p.2 - p.1)) 0

theorem countVal_eq (b : List Int) : countVal b = sumPairs (pairsOf b) := rfl

theorem sumPairs_foldl (l : List (Int × Int)) :
    ∀ c : Int, l.foldl (fun acc p => acc + (p.2 - p.1)) c = c + sumPairs l := by
  induction l with
  | nil =>
    intro c
    simp [sumPairs]
  | cons p rest ih =>
    intro c
    show List.foldl _ (c + (p.2 - p.1)) rest = c + sumPairs (p :: rest)
    rw [ih (c + (p.2 - p.1))]
    have h2 : sumPairs (p :: rest) = 0 + (p.2 - p.1) + sumPairs rest := by
      show List.foldl _ (0 + (p.2 - p.1)) rest = _
      rw [ih (0 + (p.2 - p.1))]
    rw [h2]
    ring

theorem sumPairs_cons (p : Int × Int) (l : List (Int × Int)) :
    sumPairs (p :: l) = (p.2 - p.1) + sumPairs l := by
  unfold sumPairs
  rw [List.foldl_cons, sumPairs_foldl]
  rw [show (0 : Int) + (p.2 - p.1) = p.2 - p.1 by ring]
  rfl

theorem sumPairs_append (l₁ l₂ : List (Int × Int)) :
    sumPairs (l₁ ++ l₂) = sumPairs l₁ + sumPairs l₂ := by
  unfold sumPairs
  rw [List.foldl_append, sumPairs_foldl]
  rfl

theorem pairsOf_append : ∀ (B : List Int), B.length % 2 = 0 → ∀ C,
    pairsOf (B ++ C) = pairsOf B ++ pairsOf C := by
  intro B
  induction B using pairsOf.induct with
  | case1 s e rest ih =>
    intro h C
    simp only [List.length_cons] at h
    show (s, e) :: pairsOf (rest ++ C) = ((s, e) :: pairsOf rest) ++ pairsOf C
    rw [ih (by omega) C]
    rfl
  | case2 B h2 =>
    intro h C
    match B, h2 with
    | [], _ => rfl
    | [x], _ => simp at h
    | s :: e :: rest, h2 => exact absurd rfl (h2 s e rest)

theorem countVal_append (B C : List Int) (h : B.length % 2 = 0) :
    countVal (B ++ C) = countVal B + countVal C := by
  rw [countVal_eq, countVal_eq, countVal_eq, pairsOf_append B h C, sumPairs_append]

/-- Well-formed flat bounds: strictly ascending and of even length.  Strict
ascent of the flat list says exactly that every range has `start < end` and
that consecutive ranges neither overlap nor touch; soundness in `Pairwise`
form because `<` on `ℤ` is transitive. -/
def WFb (b : List Int) : Prop :=
  b.Pairwise (· < ·) ∧ b.length % 2 = 0

/-- A well-formed `RangeSet`: well-formed bounds and an exact cached count. -/
def WF (rs : RangeSet) : Prop :=
  WFb rs.bounds ∧ rs.count = countVal rs.bounds

theorem pw_getD (b : List Int) (hpw : b.Pairwise (· < ·)) :
    ∀ i j, i < j → j < b.length → b.getD i 0 < b.getD j 0 := by
  intro i j hij hj
  rw [List.getD_eq_getElem?_getD, List.getD_eq_getElem?_getD,
    List.getElem?_eq_getElem (by omega), List.getElem?_eq_getElem hj]
  exact List.pairwise_iff_getElem.mp hpw i j (by omega) hj hij

theorem countVal_nonneg : ∀ (b : List Int), b.Pairwise (· < ·) → 0 ≤ countVal b := by
  intro b
  induction b using pairsOf.induct with
  | case1 s e rest ih =>
    intro hpw
    have hpc := List.pairwise_cons.mp hpw
    have hpc2 := List.pairwise_cons.mp hpc.2
    rw [countVal_eq]
    show 0 ≤ sumPairs ((s, e) :: pairsOf rest)
    rw [sumPairs_cons, ← countVal_eq]
    have h1 : s < e := hpc.1 e (by simp)
    have h2 := ih hpc2.2
    dsimp only
    omega
  | case2 B h2 =>
    intro _
    match B, h2 with
    | [], _ => exact le_refl 0
    | [x], _ => exact le_refl 0
    | s :: e :: rest, h2 => exact absurd rfl (h2 s e rest)

theorem countVal_pos (b : List Int) (hwf : WFb b) (hne : b ≠ []) :
    0 < countVal b := by
  match b, hne with
  | s :: e :: rest, _ =>
    have hpc := List.pairwise_cons.mp hwf.1
    have hpc2 := List.pairwise_cons.mp hpc.2
    rw [countVal_eq]
    show 0 < sumPairs ((s, e) :: pairsOf rest)
    rw [sumPairs_cons, ← countVal_eq]
    have h1 : s < e := hpc.1 e (by simp)
    have h2 := countVal_nonneg rest hpc2.2
    dsimp only
    omega
  | [x], _ =>
    exfalso
    have := hwf.2
    simp at this

theorem WF_count_zero (rs : RangeSet) (h : WF rs) (hz : rs.count = 0) :
    rs.bounds = [] := by
  by_contra hne
  have := countVal_pos rs.bounds h.1 hne
  rw [← h.2] at this
  omega

namespace RangeSet

theorem mk0_WF : WF mk0 := ⟨⟨List.Pairwise.nil, rfl⟩, rfl⟩

theorem mk2_WF (s e : Int) : WF (mk2 s e) := by
  unfold mk2
  by_cases h : s < e
  · rw [if_neg (by omega)]
    refine ⟨⟨?_, by simp⟩, ?_⟩
    · exact List.pairwise_append.mpr ⟨List.pairwise_singleton _ _,
        List.pairwise_singleton _ _, by
          intro a ha b hb
          simp only [List.mem_singleton] at ha hb
          omega⟩
    · rw [countVal_eq]
      show e - s = sumPairs [(s, e)]
      rw [sumPairs_cons]
      show e - s = e - s + sumPairs []
      rw [show sumPairs [] = 0 from rfl]
      ring
  · rw [if_pos (by omega)]
    exact mk0_WF

theorem mk1_WF (s : Int) : WF (mk1 s) := mk2_WF s (s + 1)

end RangeSet

theorem countVal_cons2 (s e : Int) (rest : List Int) :
    countVal (s :: e :: rest) = (e - s) + countVal rest := by
  rw [countVal_eq]
  show sumPairs ((s, e) :: pairsOf rest) = _
  rw [sumPairs_cons, ← countVal_eq]

theorem countVal_two (a b : Int) : countVal [a, b] = b - a := by
  rw [countVal_cons2]
  show b - a + 0 = b - a
  ring

theorem mem_take_getD (b : List Int) (l : Nat) (x : Int) (hx : x ∈ b.take l) :
    ∃ j, j < l ∧ j < b.length ∧ x = b.getD j 0 := by
  obtain ⟨i, hi, hix⟩ := List.mem_iff_getElem.mp hx
  have hlen : i < b.length := by
    have := hi
    rw [List.length_take] at this
    omega
  refine ⟨i, by have := hi; rw [List.length_take] at this; omega, hlen, ?_⟩
  rw [List.getD_eq_getElem b 0 hlen, ← hix]
  exact List.getElem_take b

theorem mem_drop_getD (b : List Int) (t : Nat) (x : Int) (hx : x ∈ b.drop t) :
    ∃ j, t ≤ j ∧ j < b.length ∧ x = b.getD j 0 := by
  obtain ⟨i, hi, hix⟩ := List.mem_iff_getElem.mp hx
  have hlen : t + i < b.length := by
    have := hi
    rw [List.length_drop] at this
    omega
  refine ⟨t + i, by omega, hlen, ?_⟩
  rw [List.getD_eq_getElem b 0 hlen, ← hix]
  exact List.getElem_drop b

theorem pairwise_lt_assemble (P M S : List Int)
    (hP : P.Pairwise (· < ·)) (hM : M.Pairwise (· < ·)) (hS : S.Pairwise (· < ·))
    (hPM : ∀ x ∈ P, ∀ y ∈ M, x < y) (hPS : ∀ x ∈ P, ∀ y ∈ S, x < y)
    (hMS : ∀ x ∈ M, ∀ y ∈ S, x < y) :
    ((P ++ M) ++ S).Pairwise (· < ·) := by
  refine List.pairwise_append.mpr
    ⟨List.pairwise_append.mpr ⟨hP, hM, hPM⟩, hS, ?_⟩
  intro x hx y hy
  rcases List.mem_append.mp hx with h | h
  · exact hPS x h y hy
  · exact hMS x h y hy

/-- Membership of an integer in a list of `(start, end)` ranges — the set an
even, sorted bounds list denotes. -/
def MemS (ps : List (Int × Int)) (i : Int) : Prop :=
  ∃ p ∈ ps, p.1 ≤ i ∧ i < p.2

theorem MemS_cons (p : Int × Int) (ps : List (Int × Int)) (i : Int) :
    MemS (p :: ps) i ↔ (p.1 ≤ i ∧ i < p.2) ∨ MemS ps i := by
  constructor
  · rintro ⟨q, hq, h⟩
    rcases List.mem_cons.mp hq with h' | h'
    · exact Or.inl (h' ▸ h)
    · exact Or.inr ⟨q, h', h⟩
  · rintro (h | ⟨q, hq, h⟩)
    · exact ⟨p, List.mem_cons_self p ps, h⟩
    · exact ⟨q, List.mem_cons_of_mem p hq, h⟩

theorem MemS_append (ps qs : List (Int × Int)) (i : Int) :
    MemS (ps ++ qs) i ↔ MemS ps i ∨ MemS qs i := by
  constructor
  · rintro ⟨q, hq, h⟩
    rcases List.mem_append.mp hq with h' | h'
    · exact Or.inl ⟨q, h', h⟩
    · exact Or.inr ⟨q, h', h⟩
  · rintro (⟨q, hq, h⟩ | ⟨q, hq, h⟩)
    · exact ⟨q, List.mem_append_left qs hq, h⟩
    · exact ⟨q, List.mem_append_right ps hq, h⟩

theorem MemS_nil (i : Int) : ¬ MemS ([] : List (Int × Int)) i := by
  rintro ⟨p, hp, _⟩
  exact absurd hp (List.not_mem_nil p)

theorem pairsOf_mem_mem : ∀ (b : List Int), ∀ p ∈ pairsOf b,
    p.1 ∈ b ∧ p.2 ∈ b := by
  intro b
  induction b using pairsOf.induct with
  | case1 s e rest ih =>
    intro p hp
    rcases List.mem_cons.mp hp with h | h
    · rw [h]
      exact ⟨by simp, by simp⟩
    · obtain ⟨h1, h2⟩ := ih p h
      exact ⟨by simp [h1], by simp [h2]⟩
  | case2 B h2 =>
    intro p hp
    match B, h2 with
    | [], _ => exact absurd hp (List.not_mem_nil p)
    | [x], _ => exact absurd hp (List.not_mem_nil p)
    | s :: e :: rest, h2 => exact absurd rfl (h2 s e rest)

/-- Splitting the denoted set of a flat bounds list at an even cut. -/
theorem MemS_split (b : List Int) (k : Nat) (hk : k ≤ b.length)
    (hke : k % 2 = 0) (i : Int) :
    MemS (pairsOf b) i ↔
      MemS (pairsOf (b.take k)) i ∨ MemS (pairsOf (b.drop k)) i := by
  conv_lhs => rw [← List.take_append_drop k b]
  rw [pairsOf_append (b.take k) (by rw [List.length_take_of_le hk]; exact hke)
    (b.drop k), MemS_append]

/-- Strict ascent of the flat bounds list is exactly the claimed range shape:
every stored range is nonempty, and consecutive ranges neither overlap nor
touch. -/
theorem pairsOf_of_pairwise : ∀ (b : List Int), b.Pairwise (· < ·) →
    (∀ p ∈ pairsOf b, p.1 < p.2) ∧
    (pairsOf b).Pairwise (fun p q => p.2 < q.1) := by
  intro b
  induction b using pairsOf.induct with
  | case1 s e rest ih =>
    intro hpw
    have hpc := List.pairwise_cons.mp hpw
    have hpc2 := List.pairwise_cons.mp hpc.2
    obtain ⟨ih1, ih2⟩ := ih hpc2.2
    constructor
    · intro p hp
      rcases List.mem_cons.mp hp with h | h
      · rw [h]
        exact hpc.1 e (by simp)
      · exact ih1 p h
    · refine List.pairwise_cons.mpr ⟨?_, ih2⟩
      intro q hq
      exact hpc2.1 q.1 (pairsOf_mem_mem rest q hq).1
  | case2 B h2 =>
    intro _
    match B, h2 with
    | [], _ =>
      exact ⟨fun p hp => absurd hp (List.not_mem_nil p), List.Pairwise.nil⟩
    | [x], _ =>
      exact ⟨fun p hp => absurd hp (List.not_mem_nil p), List.Pairwise.nil⟩
    | s :: e :: rest, h2 => exact absurd rfl (h2 s e rest)

theorem pairs_snd_le (b : List Int) (k : Nat) (s : Int)
    (h : ∀ j, j < k → b.getD j 0 ≤ s) :
    ∀ p ∈ pairsOf (b.take k), p.2 ≤ s := by
  intro p hp
  obtain ⟨j, hjk, hjb, he⟩ := mem_take_getD b k p.2
    (pairsOf_mem_mem (b.take k) p hp).2
  rw [he]
  exact h j hjk

theorem pairs_fst_ge (b : List Int) (k : Nat) (s : Int)
    (h : ∀ j, k ≤ j → j < b.length → s ≤ b.getD j 0) :
    ∀ p ∈ pairsOf (b.drop k), s ≤ p.1 := by
  intro p hp
  obtain ⟨j, hjk, hjb, he⟩ := mem_drop_getD b k p.1
    (pairsOf_mem_mem (b.drop k) p hp).1
  rw [he]
  exact h j hjk hjb

theorem pairs_fst_gt (b : List Int) (k : Nat) (s : Int)
    (h : ∀ j, k ≤ j → j < b.length → s < b.getD j 0) :
    ∀ p ∈ pairsOf (b.drop k), s < p.1 := by
  intro p hp
  obtain ⟨j, hjk, hjb, he⟩ := mem_drop_getD b k p.1
    (pairsOf_mem_mem (b.drop k) p hp).1
  rw [he]
  exact h j hjk hjb

/-! ### `insert` preserves well-formedness -/

namespace RangeSet

theorem insertFind_spec (bounds : List Int) (start : Int)
    (hpw : bounds.Pairwise (· < ·)) (hev : bounds.length % 2 = 0) :
    ∀ (fuel l r : Nat), l % 2 = 0 → r % 2 = 0 → l ≤ r → r ≤ bounds.length →
      r - l < 2 * fuel →
      (∀ j, j < l → bounds.getD j 0 < start) →
      (∀ j, r ≤ j → j < bounds.length → start < bounds.getD j 0) →
      (insertFind bounds start fuel l r).1 % 2 = 0 ∧
      (insertFind bounds start fuel l r).1 ≤ bounds.length ∧
      (∀ j, j < (insertFind bounds start fuel l r).1 →
        bounds.getD j 0 < (insertFind bounds start fuel l r).2) ∧
      (insertFind bounds start fuel l r).2 ≤ start := by
  intro fuel
  induction fuel with
  | zero =>
    intro l r _ _ hlr _ hf _ _
    omega
  | succ fuel ih =>
    intro l r hle hre hlr hrlen hf hleft hright
    have hval : insertFind bounds start (fuel + 1) l r =
        if l < r then
          (if start < bounds.getD ((l + r) / 4 * 2) 0 then
            insertFind bounds start fuel l ((l + r) / 4 * 2)
          else if start > bounds.getD ((l + r) / 4 * 2 + 1) 0 then
            insertFind bounds start fuel ((l + r) / 4 * 2 + 2) r
          else ((l + r) / 4 * 2, bounds.getD ((l + r) / 4 * 2) 0))
        else (l, start) := rfl
    rw [hval]
    by_cases hltr : l < r
    · rw [if_pos hltr]
      have hm1 : l ≤ (l + r) / 4 * 2 := by omega
      have hm2 : (l + r) / 4 * 2 + 2 ≤ r := by omega
      have hme : ((l + r) / 4 * 2) % 2 = 0 := by omega
      by_cases hc1 : start < bounds.getD ((l + r) / 4 * 2) 0
      · rw [if_pos hc1]
        exact ih l ((l + r) / 4 * 2) hle (by omega) (by omega) (by omega)
          (by omega) hleft
          (fun j hj hjl => by
            rcases Nat.eq_or_lt_of_le hj with h | h
            · rw [← h]
              exact hc1
            · exact hc1.trans (pw_getD bounds hpw _ j h hjl))
      · rw [if_neg hc1]
        by_cases hc2 : start > bounds.getD ((l + r) / 4 * 2 + 1) 0
        · rw [if_pos hc2]
          exact ih ((l + r) / 4 * 2 + 2) r (by omega) hre (by omega) (by omega)
            (by omega)
            (fun j hj => by
              rcases Nat.lt_or_ge j ((l + r) / 4 * 2 + 1) with h | h
              · exact (pw_getD bounds hpw j _ h (by omega)).trans hc2
              · rw [show j = (l + r) / 4 * 2 + 1 by omega]
                exact hc2)
            hright
        · rw [if_neg hc2]
          dsimp only
          refine ⟨hme, by omega, ?_, by omega⟩
          intro j hj
          exact pw_getD bounds hpw j _ hj (by omega)
    · rw [if_neg hltr]
      dsimp only
      have hlr2 : l = r := by omega
      exact ⟨hle, by omega, fun j hj => hleft j hj, le_refl start⟩

theorem insertScan_spec (e0 : Int) : ∀ (suffix : List Int),
    suffix.Pairwise (· < ·) → suffix.length % 2 = 0 →
    (insertScan e0 suffix).1 % 2 = 0 ∧
    (insertScan e0 suffix).1 ≤ suffix.length ∧
    e0 ≤ (insertScan e0 suffix).2.1 ∧
    (insertScan e0 suffix).2.2 = countVal (suffix.take (insertScan e0 suffix).1) ∧
    (∀ y ∈ suffix.drop (insertScan e0 suffix).1, (insertScan e0 suffix).2.1 < y) := by
  intro suffix
  induction suffix using pairsOf.induct with
  | case1 lo hi rest ih =>
    intro hpw heven
    have hpc := List.pairwise_cons.mp hpw
    have hpc2 := List.pairwise_cons.mp hpc.2
    by_cases h1 : e0 < lo
    · have hval : insertScan e0 (lo :: hi :: rest) = (0, e0, 0) := by
        show (if e0 < lo then _ else _) = _
        rw [if_pos h1]
      rw [hval]
      dsimp only
      refine ⟨rfl, by simp, le_refl _, rfl, ?_⟩
      intro y hy
      rw [List.drop_zero] at hy
      rcases List.mem_cons.mp hy with h | h
      · omega
      · rcases List.mem_cons.mp h with h | h
        · have := hpc.1 hi (by simp)
          omega
        · have h3 := hpc.1 y (by simp [h])
          omega
    · by_cases h2 : e0 ≤ hi
      · have hval : insertScan e0 (lo :: hi :: rest) = (2, hi, hi - lo) := by
          show (if e0 < lo then _ else _) = _
          rw [if_neg h1, if_pos h2]
        rw [hval]
        dsimp only
        refine ⟨rfl, by simp, h2, ?_, ?_⟩
        · show hi - lo = countVal [lo, hi]
          rw [countVal_two]
        · intro y hy
          show hi < y
          exact hpc2.1 y hy
      · have hval : insertScan e0 (lo :: hi :: rest) =
            ((insertScan e0 rest).1 + 2, (insertScan e0 rest).2.1,
              (insertScan e0 rest).2.2 + (hi - lo)) := by
          show (if e0 < lo then _ else _) = _
          rw [if_neg h1, if_neg h2]
        rw [hval]
        dsimp only
        obtain ⟨ih1, ih2, ih3, ih4, ih5⟩ := ih hpc2.2
          (by simp only [List.length_cons] at heven; omega)
        refine ⟨by omega, by simp only [List.length_cons]; omega, ih3, ?_, ?_⟩
        · show (insertScan e0 rest).2.2 + (hi - lo) =
            countVal (lo :: hi :: rest.take (insertScan e0 rest).1)
          rw [countVal_cons2, ih4]
          ring
        · intro y hy
          exact ih5 y hy
  | case2 B h2 =>
    intro hpw heven
    match B, h2 with
    | [], _ =>
      have hval : insertScan e0 ([] : List Int) = (0, e0, 0) := rfl
      rw [hval]
      dsimp only
      exact ⟨rfl, by simp, le_refl _, rfl, by simp⟩
    | [x], _ => simp at heven
    | s :: e :: rest, h2 => exact absurd rfl (h2 s e rest)

/-- The else-branch of `insert` (search, merge scan, splice) preserves
well-formedness, for any search output `(l, start1)` satisfying the
binary-search postcondition. -/
theorem insertSplice_WF (b : List Int) (cnt start end_ : Int)
    (hpw : b.Pairwise (· < ·)) (hev : b.length % 2 = 0)
    (hcnt : cnt = countVal b) (h1 : start < end_)
    (l t : Nat) (start1 e2 c2 : Int)
    (hle : l % 2 = 0) (hll : l ≤ b.length)
    (hpref : ∀ j, j < l → b.getD j 0 < start1) (hs1 : start1 ≤ start)
    (hscan : insertScan end_ (b.drop l) = (t, e2, c2)) :
    WF ⟨b.take l ++ [start1, e2] ++ b.drop (l + t),
        cnt + (e2 - start1) - c2⟩ := by
  have hdpw : (b.drop l).Pairwise (· < ·) := hpw.sublist (List.drop_sublist l b)
  have hdev : (b.drop l).length % 2 = 0 := by rw [List.length_drop]; omega
  have hspec := insertScan_spec end_ (b.drop l) hdpw hdev
  simp only [hscan] at hspec
  obtain ⟨hte, htl, hend, hc, hgt⟩ := hspec
  rw [List.length_drop] at htl
  have htake : (b.take l).length = l := List.length_take_of_le hll
  have hdd : b.drop (l + t) = (b.drop l).drop t := by rw [List.drop_drop]
  refine ⟨⟨?_, ?_⟩, ?_⟩
  · show ((b.take l ++ [start1, e2]) ++ b.drop (l + t)).Pairwise (· < ·)
    rw [hdd]
    refine pairwise_lt_assemble _ _ _
      (hpw.sublist (List.take_sublist l b)) ?_
      (hdpw.sublist (List.drop_sublist t (b.drop l))) ?_ ?_ ?_
    · refine List.pairwise_cons.mpr ⟨?_, List.pairwise_singleton _ _⟩
      intro y hy
      have hye : y = e2 := by simpa using hy
      omega
    · intro x hx y hy
      obtain ⟨j, hjl, hjb, hxe⟩ := mem_take_getD b l x hx
      have hxs : x < start1 := by rw [hxe]; exact hpref j hjl
      have hy2 : y = start1 ∨ y = e2 := by simpa using hy
      rcases hy2 with h | h <;> omega
    · intro x hx y hy
      obtain ⟨j, hjl, hjb, hxe⟩ := mem_take_getD b l x hx
      have hxs : x < start1 := by rw [hxe]; exact hpref j hjl
      have hye : e2 < y := hgt y hy
      omega
    · intro x hx y hy
      have hx2 : x = start1 ∨ x = e2 := by simpa using hx
      have hye : e2 < y := hgt y hy
      rcases hx2 with h | h <;> omega
  · show ((b.take l ++ [start1, e2]) ++ b.drop (l + t)).length % 2 = 0
    simp only [List.length_append, htake, List.length_cons, List.length_nil,
      List.length_drop]
    omega
  · show cnt + (e2 - start1) - c2 =
      countVal ((b.take l ++ [start1, e2]) ++ b.drop (l + t))
    rw [hdd]
    rw [countVal_append _ _ (by
      simp only [List.length_append, htake, List.length_cons, List.length_nil]
      omega)]
    rw [countVal_append _ _ (by rw [htake]; exact hle), countVal_two]
    have hsplit : countVal b = countVal (b.take l) + countVal (b.drop l) := by
      conv_lhs => rw [← List.take_append_drop l b]
      rw [countVal_append _ _ (by rw [htake]; exact hle)]
    have hsplit2 : countVal (b.drop l) =
        countVal ((b.drop l).take t) + countVal ((b.drop l).drop t) := by
      conv_lhs => rw [← List.take_append_drop t (b.drop l)]
      rw [countVal_append _ _ (by
        rw [List.length_take_of_le (by rw [List.length_drop]; exact htl)]
        exact hte)]
    rw [hcnt, hsplit, hsplit2, hc]
    ring

/-- `RangeSet.insert` preserves well-formedness. -/
theorem insert_WF (rs : RangeSet) (start end_ : Int) (h : WF rs) :
    WF (rs.insert start end_) := by
  obtain ⟨⟨hpw, hev⟩, hcnt⟩ := h
  by_cases h1 : ¬ start < end_
  · have heq : rs.insert start end_ = rs := by rw [RangeSet.insert, if_pos h1]
    rw [heq]
    exact ⟨⟨hpw, hev⟩, hcnt⟩
  · push_neg at h1
    by_cases h2 : rs.count = 0 ∨ start > rs.bounds.getD (rs.bounds.length - 1) 0
    · have heq : rs.insert start end_ =
          ⟨rs.bounds ++ [start, end_], rs.count + (end_ - start)⟩ := by
        rw [RangeSet.insert, if_neg (not_not_intro h1)]
        show (if rs.count = 0 ∨
            start > rs.bounds.getD (rs.bounds.length - 1) 0 then _ else _) = _
        rw [if_pos h2]
      rw [heq]
      have hxlt : ∀ x ∈ rs.bounds, x < start := by
        rcases h2 with hc0 | hgt
        · intro x hx
          rw [WF_count_zero rs ⟨⟨hpw, hev⟩, hcnt⟩ hc0] at hx
          exact absurd hx (List.not_mem_nil x)
        · intro x hx
          obtain ⟨j, _, hjb, hxe⟩ := mem_drop_getD rs.bounds 0 x
            (by rwa [List.drop_zero])
          rcases Nat.lt_or_ge j (rs.bounds.length - 1) with hj | hj
          · have := pw_getD rs.bounds hpw j (rs.bounds.length - 1) hj (by omega)
            omega
          · have hje : j = rs.bounds.length - 1 := by omega
            rw [hxe, hje]
            exact hgt
      refine ⟨⟨?_, ?_⟩, ?_⟩
      · show (rs.bounds ++ [start, end_]).Pairwise (· < ·)
        refine List.pairwise_append.mpr ⟨hpw, ?_, ?_⟩
        · refine List.pairwise_cons.mpr ⟨?_, List.pairwise_singleton _ _⟩
          intro y hy
          have hye : y = end_ := by simpa using hy
          omega
        · intro x hx y hy
          have hy2 : y = start ∨ y = end_ := by simpa using hy
          have := hxlt x hx
          rcases hy2 with h | h <;> omega
      · show (rs.bounds ++ [start, end_]).length % 2 = 0
        simp only [List.length_append, List.length_cons, List.length_nil]
        omega
      · show rs.count + (end_ - start) = countVal (rs.bounds ++ [start, end_])
        rw [countVal_append _ _ hev, countVal_two, hcnt]
    · by_cases h3 : start = rs.bounds.getD (rs.bounds.length - 1) 0
      · have heq : rs.insert start end_ =
            ⟨rs.bounds.dropLast ++ [end_], rs.count + (end_ - start)⟩ := by
          rw [RangeSet.insert, if_neg (not_not_intro h1)]
          show (if rs.count = 0 ∨
              start > rs.bounds.getD (rs.bounds.length - 1) 0 then _ else _) = _
          rw [if_neg h2]
          show (if start = rs.bounds.getD (rs.bounds.length - 1) 0
            then _ else _) = _
          rw [if_pos h3]
        rw [heq]
        push_neg at h2
        have hbne : rs.bounds ≠ [] := by
          intro hb
          exact h2.1 (by rw [hcnt, hb]; rfl)
        rcases List.eq_nil_or_concat rs.bounds with hb | ⟨l1, y, hb1⟩
        · exact absurd hb hbne
        rw [List.concat_eq_append] at hb1
        rcases List.eq_nil_or_concat l1 with hl1 | ⟨l2, x, hl2⟩
        · rw [hl1] at hb1
          rw [hb1] at hev
          simp at hev
        rw [List.concat_eq_append] at hl2
        rw [hl2] at hb1
        have hlast : rs.bounds.getD (rs.bounds.length - 1) 0 = y := by
          rw [hb1]
          have hL1 : ((l2 ++ [x]) ++ [y]).length - 1 = (l2 ++ [x]).length := by
            simp
          rw [hL1, List.getD_eq_getElem _ 0 (by simp),
            List.getElem_append_right (le_refl _)]
          simp
        have hsy : start = y := by rw [h3, hlast]
        have hpw1 : ((l2 ++ [x]) ++ [y]).Pairwise (· < ·) := by rwa [hb1] at hpw
        obtain ⟨hpwL, _, hcross⟩ := List.pairwise_append.mp hpw1
        have hdl : rs.bounds.dropLast = l2 ++ [x] := by
          rw [hb1, List.dropLast_concat]
        have hl2e : l2.length % 2 = 0 := by
          rw [hb1] at hev
          simp only [List.length_append, List.length_cons, List.length_nil]
            at hev
          omega
        refine ⟨⟨?_, ?_⟩, ?_⟩
        · show (rs.bounds.dropLast ++ [end_]).Pairwise (· < ·)
          rw [hdl]
          refine List.pairwise_append.mpr ⟨hpwL, List.pairwise_singleton _ _, ?_⟩
          intro a ha c hc
          have hce : c = end_ := by simpa using hc
          have hay : a < y := hcross a ha y (by simp)
          omega
        · show (rs.bounds.dropLast ++ [end_]).length % 2 = 0
          rw [hdl]
          simp only [List.length_append, List.length_cons, List.length_nil]
          omega
        · show rs.count + (end_ - start) =
            countVal (rs.bounds.dropLast ++ [end_])
          have hassoc1 : (l2 ++ [x]) ++ [y] = l2 ++ [x, y] := by simp
          have hassoc2 : (l2 ++ [x]) ++ [end_] = l2 ++ [x, end_] := by simp
          have hcv : countVal rs.bounds = countVal l2 + (y - x) := by
            rw [hb1, hassoc1, countVal_append _ _ hl2e, countVal_two]
          rw [hdl, hassoc2, countVal_append _ _ hl2e, countVal_two, hcnt, hcv,
            hsy]
          ring
      · have heq : rs.insert start end_ =
            ⟨rs.bounds.take (insertFind rs.bounds start (rs.bounds.length + 1)
                0 rs.bounds.length).1 ++
              [(insertFind rs.bounds start (rs.bounds.length + 1)
                0 rs.bounds.length).2,
               (insertScan end_ (rs.bounds.drop (insertFind rs.bounds start
                (rs.bounds.length + 1) 0 rs.bounds.length).1)).2.1] ++
              rs.bounds.drop ((insertFind rs.bounds start
                (rs.bounds.length + 1) 0 rs.bounds.length).1 +
               (insertScan end_ (rs.bounds.drop (insertFind rs.bounds start
                (rs.bounds.length + 1) 0 rs.bounds.length).1)).1),
             rs.count + ((insertScan end_ (rs.bounds.drop (insertFind rs.bounds
                start (rs.bounds.length + 1) 0 rs.bounds.length).1)).2.1 -
               (insertFind rs.bounds start (rs.bounds.length + 1)
                0 rs.bounds.length).2) -
              (insertScan end_ (rs.bounds.drop (insertFind rs.bounds start
                (rs.bounds.length + 1) 0 rs.bounds.length).1)).2.2⟩ := by
          rw [RangeSet.insert, if_neg (not_not_intro h1)]
          show (if rs.count = 0 ∨
              start > rs.bounds.getD (rs.bounds.length - 1) 0 then _ else _) = _
          rw [if_neg h2]
          show (if start = rs.bounds.getD (rs.bounds.length - 1) 0
            then _ else _) = _
          rw [if_neg h3]
        rw [heq]
        obtain ⟨hfe, hfl, hfpre, hfs⟩ := insertFind_spec rs.bounds start hpw hev
          (rs.bounds.length + 1) 0 rs.bounds.length rfl hev (Nat.zero_le _)
          (le_refl _) (by omega)
          (fun j hj => absurd hj (Nat.not_lt_zero j))
          (fun j hj hjl => absurd hjl (by omega))
        exact insertSplice_WF rs.bounds rs.count start end_ hpw hev hcnt h1
          _ _ _ _ _ hfe hfl hfpre hfs rfl

/-! ### `remove` preserves well-formedness -/

theorem removeScan_spec (end_ : Int) : ∀ (suffix : List Int),
    suffix.Pairwise (· < ·) → suffix.length % 2 = 0 →
    (removeScan end_ suffix).1.Pairwise (· < ·) ∧
    (removeScan end_ suffix).1.length % 2 = 0 ∧
    countVal suffix = countVal (removeScan end_ suffix).1 +
      (removeScan end_ suffix).2.1 + (removeScan end_ suffix).2.2 ∧
    (∀ y ∈ (removeScan end_ suffix).1, y ∈ suffix ∨ y = end_) ∧
    (∀ i, MemS (pairsOf (removeScan end_ suffix).1) i ↔
      (MemS (pairsOf suffix) i ∧ end_ ≤ i)) := by
  intro suffix
  induction suffix using pairsOf.induct with
  | case1 lo hi rest ih =>
    intro hpw heven
    have hpc := List.pairwise_cons.mp hpw
    have hpc2 := List.pairwise_cons.mp hpc.2
    have hlohi : lo < hi := hpc.1 hi (by simp)
    have hrestfst : ∀ p ∈ pairsOf rest, hi < p.1 :=
      fun p hp => hpc2.1 p.1 (pairsOf_mem_mem rest p hp).1
    by_cases h1 : end_ ≤ lo
    · have hval : removeScan end_ (lo :: hi :: rest) = (lo :: hi :: rest, 0, 0) := by
        show (if end_ ≤ lo then _ else _) = _
        rw [if_pos h1]
      rw [hval]
      refine ⟨hpw, heven, by ring, fun y hy => Or.inl hy, ?_⟩
      intro i
      constructor
      · intro hm
        refine ⟨hm, ?_⟩
        rw [show pairsOf (lo :: hi :: rest) = (lo, hi) :: pairsOf rest
          from rfl, MemS_cons] at hm
        rcases hm with h | ⟨p, hp, h3, h4⟩
        · omega
        · have := hrestfst p hp
          omega
      · exact fun h => h.1
    · by_cases h2 : end_ < hi
      · have hval : removeScan end_ (lo :: hi :: rest) =
            (end_ :: hi :: rest, 0, end_ - lo) := by
          show (if end_ ≤ lo then _ else _) = _
          rw [if_neg h1, if_pos h2]
        rw [hval]
        refine ⟨?_, by simpa using heven, ?_, ?_, ?_⟩
        · refine List.pairwise_cons.mpr ⟨?_, hpc.2⟩
          intro y hy
          rcases List.mem_cons.mp hy with h | h
          · omega
          · have := hpc2.1 y h
            omega
        · dsimp only
          rw [countVal_cons2, countVal_cons2]
          ring
        · intro y hy
          rcases List.mem_cons.mp hy with h | h
          · exact Or.inr h
          · exact Or.inl (List.mem_cons_of_mem lo h)
        · intro i
          rw [show pairsOf (end_ :: hi :: rest) = (end_, hi) :: pairsOf rest
            from rfl, MemS_cons,
            show pairsOf (lo :: hi :: rest) = (lo, hi) :: pairsOf rest
            from rfl, MemS_cons]
          constructor
          · rintro (h | ⟨p, hp, h3, h4⟩)
            · exact ⟨Or.inl ⟨by omega, h.2⟩, by omega⟩
            · have := hrestfst p hp
              exact ⟨Or.inr ⟨p, hp, h3, h4⟩, by omega⟩
          · rintro ⟨h | hm, hei⟩
            · exact Or.inl ⟨hei, h.2⟩
            · exact Or.inr hm
      · have hval : removeScan end_ (lo :: hi :: rest) =
            ((removeScan end_ rest).1, (removeScan end_ rest).2.1 + (hi - lo),
             (removeScan end_ rest).2.2) := by
          show (if end_ ≤ lo then _ else _) = _
          rw [if_neg h1, if_neg h2]
        rw [hval]
        obtain ⟨ih1, ih2, ih3, ih4, ih5⟩ := ih hpc2.2
          (by simp only [List.length_cons] at heven; omega)
        refine ⟨ih1, ih2, ?_, ?_, ?_⟩
        · dsimp only
          rw [countVal_cons2, ih3]
          ring
        · intro y hy
          rcases ih4 y hy with h | h
          · exact Or.inl (List.mem_cons_of_mem lo (List.mem_cons_of_mem hi h))
          · exact Or.inr h
        · intro i
          rw [ih5 i,
            show pairsOf (lo :: hi :: rest) = (lo, hi) :: pairsOf rest
            from rfl, MemS_cons]
          push_neg at h2
          constructor
          · rintro ⟨hm, hei⟩
            exact ⟨Or.inr hm, hei⟩
          · rintro ⟨h | hm, hei⟩
            · omega
            · exact ⟨hm, hei⟩
  | case2 B h2 =>
    intro hpw heven
    match B, h2 with
    | [], _ =>
      have hval : removeScan end_ ([] : List Int) = ([], 0, 0) := rfl
      rw [hval]
      refine ⟨List.Pairwise.nil, rfl, by ring, by simp, ?_⟩
      intro i
      constructor
      · rintro ⟨p, hp, _⟩
        exact absurd hp (List.not_mem_nil p)
      · rintro ⟨⟨p, hp, _⟩, _⟩
        exact absurd hp (List.not_mem_nil p)
    | [x], _ => simp at heven
    | s :: e :: rest, h2 => exact absurd rfl (h2 s e rest)

/-- The shared scan-and-splice tail of `_remove` preserves well-formedness
whenever the prefix it keeps is a well-placed even cut whose elements stay
below `end`. -/
theorem removeAssemble_WF (end_ : Int) (l : Nat) (b : List Int) (cnt : Int)
    (hpw : b.Pairwise (· < ·)) (hev : b.length % 2 = 0) (hcnt : cnt = countVal b)
    (hle : l % 2 = 0) (hll : l ≤ b.length)
    (hpre : ∀ x ∈ b.take l, x < end_) :
    WF (removeAssemble end_ l b cnt) := by
  have hdpw : (b.drop l).Pairwise (· < ·) := hpw.sublist (List.drop_sublist l b)
  have hdev : (b.drop l).length % 2 = 0 := by rw [List.length_drop]; omega
  obtain ⟨hspw, hsev, hscnt, hsmem, _⟩ := removeScan_spec end_ (b.drop l) hdpw hdev
  have htake : (b.take l).length = l := List.length_take_of_le hll
  have hcross0 : ∀ x ∈ b.take l, ∀ y ∈ b.drop l, x < y :=
    (List.pairwise_append.mp
      (by rw [List.take_append_drop]; exact hpw :
        (b.take l ++ b.drop l).Pairwise (· < ·))).2.2
  have hsplit : countVal b = countVal (b.take l) + countVal (b.drop l) := by
    conv_lhs => rw [← List.take_append_drop l b]
    rw [countVal_append _ _ (by rw [htake]; exact hle)]
  refine ⟨⟨?_, ?_⟩, ?_⟩
  · show (b.take l ++ (removeScan end_ (b.drop l)).1).Pairwise (· < ·)
    refine List.pairwise_append.mpr ⟨hpw.sublist (List.take_sublist l b), hspw, ?_⟩
    intro x hx y hy
    rcases hsmem y hy with h | h
    · exact hcross0 x hx y h
    · rw [h]
      exact hpre x hx
  · show (b.take l ++ (removeScan end_ (b.drop l)).1).length % 2 = 0
    simp only [List.length_append, htake]
    omega
  · show (if (b.take l ++ (removeScan end_ (b.drop l)).1).length = 0
        then 0
        else cnt - (removeScan end_ (b.drop l)).2.2 -
          (removeScan end_ (b.drop l)).2.1) =
      countVal (b.take l ++ (removeScan end_ (b.drop l)).1)
    by_cases hz : (b.take l ++ (removeScan end_ (b.drop l)).1).length = 0
    · rw [if_pos hz, List.length_eq_zero.mp hz]
      rfl
    · rw [if_neg hz, countVal_append _ _ (by rw [htake]; exact hle)]
      rw [hcnt, hsplit, hscnt]
      ring

theorem removeFind_spec (bounds : List Int) (start end_ : Int)
    (hpw : bounds.Pairwise (· < ·)) :
    ∀ (fuel l r : Nat), l % 2 = 0 → r % 2 = 0 → l ≤ r → r ≤ bounds.length →
      r - l < 2 * fuel →
      (∀ j, j < l → bounds.getD j 0 ≤ start) →
      (∀ j, r ≤ j → j < bounds.length → start < bounds.getD j 0) →
      (match removeFind bounds start end_ fuel l r with
       | .notFound l' => l' % 2 = 0 ∧ l' ≤ bounds.length ∧
           (∀ j, j < l' → bounds.getD j 0 ≤ start) ∧
           (∀ j, l' ≤ j → j < bounds.length → start < bounds.getD j 0)
       | .atStart m => m % 2 = 0 ∧ m + 2 ≤ bounds.length ∧
           (∀ j, j < m → bounds.getD j 0 ≤ start) ∧ bounds.getD m 0 = start
       | .clipTail m => m % 2 = 0 ∧ m + 2 ≤ bounds.length ∧
           (∀ j, j < m → bounds.getD j 0 ≤ start) ∧
           bounds.getD m 0 < start ∧ start < bounds.getD (m + 1) 0 ∧
           bounds.getD (m + 1) 0 ≤ end_
       | .split m => m % 2 = 0 ∧ m + 2 ≤ bounds.length ∧
           (∀ j, j < m → bounds.getD j 0 ≤ start) ∧
           bounds.getD m 0 < start ∧ start < bounds.getD (m + 1) 0 ∧
           end_ < bounds.getD (m + 1) 0) := by
  intro fuel
  induction fuel with
  | zero =>
    intro l r _ _ hlr _ hf _ _
    omega
  | succ fuel ih =>
    intro l r hle hre hlr hrlen hf hleft hright
    have hval : removeFind bounds start end_ (fuel + 1) l r =
        if l < r then
          (if start < bounds.getD ((l + r) / 4 * 2) 0 then
            removeFind bounds start end_ fuel l ((l + r) / 4 * 2)
          else if start ≥ bounds.getD ((l + r) / 4 * 2 + 1) 0 then
            removeFind bounds start end_ fuel ((l + r) / 4 * 2 + 2) r
          else if start = bounds.getD ((l + r) / 4 * 2) 0 then
            RemoveFindOut.atStart ((l + r) / 4 * 2)
          else if end_ ≥ bounds.getD ((l + r) / 4 * 2 + 1) 0 then
            RemoveFindOut.clipTail ((l + r) / 4 * 2)
          else RemoveFindOut.split ((l + r) / 4 * 2))
        else .notFound l := rfl
    rw [hval]
    by_cases hltr : l < r
    · rw [if_pos hltr]
      have hm1 : l ≤ (l + r) / 4 * 2 := by omega
      have hm2 : (l + r) / 4 * 2 + 2 ≤ r := by omega
      have hme : ((l + r) / 4 * 2) % 2 = 0 := by omega
      by_cases hc1 : start < bounds.getD ((l + r) / 4 * 2) 0
      · rw [if_pos hc1]
        exact ih l ((l + r) / 4 * 2) hle (by omega) (by omega) (by omega)
          (by omega) hleft
          (fun j hj hjl => by
            rcases Nat.eq_or_lt_of_le hj with h | h
            · rw [← h]
              exact hc1
            · exact hc1.trans (pw_getD bounds hpw _ j h hjl))
      · rw [if_neg hc1]
        by_cases hc2 : start ≥ bounds.getD ((l + r) / 4 * 2 + 1) 0
        · rw [if_pos hc2]
          exact ih ((l + r) / 4 * 2 + 2) r (by omega) hre (by omega) (by omega)
            (by omega)
            (fun j hj => by
              rcases Nat.lt_or_ge j ((l + r) / 4 * 2 + 1) with h | h
              · exact le_of_lt ((pw_getD bounds hpw j _ h (by omega)).trans_le hc2)
              · rw [show j = (l + r) / 4 * 2 + 1 by omega]
                exact hc2)
            hright
        · rw [if_neg hc2]
          push_neg at hc1 hc2
          by_cases hc3 : start = bounds.getD ((l + r) / 4 * 2) 0
          · rw [if_pos hc3]
            exact ⟨hme, by omega,
              fun j hj => le_of_lt ((pw_getD bounds hpw j _ hj (by omega)).trans_le hc1),
              hc3.symm⟩
          · rw [if_neg hc3]
            have hlo : bounds.getD ((l + r) / 4 * 2) 0 < start := by
              rcases lt_or_eq_of_le hc1 with h | h
              · exact h
              · exact absurd h.symm hc3
            by_cases hc4 : end_ ≥ bounds.getD ((l + r) / 4 * 2 + 1) 0
            · rw [if_pos hc4]
              exact ⟨hme, by omega,
                fun j hj => le_of_lt ((pw_getD bounds hpw j _ hj (by omega)).trans hlo),
                hlo, hc2, hc4⟩
            · rw [if_neg hc4]
              push_neg at hc4
              exact ⟨hme, by omega,
                fun j hj => le_of_lt ((pw_getD bounds hpw j _ hj (by omega)).trans hlo),
                hlo, hc2, hc4⟩
    · rw [if_neg hltr]
      have hlr2 : l = r := by omega
      exact ⟨hle, by omega, hleft, fun j hj => hright j (by omega)⟩

/-- `RangeSet.remove` preserves well-formedness. -/
theorem remove_WF (rs : RangeSet) (start end_ : Int) (h : WF rs) :
    WF (rs.remove start end_) := by
  obtain ⟨⟨hpw, hev⟩, hcnt⟩ := h
  by_cases h1 : ¬ start < end_
  · have heq : rs.remove start end_ = rs := by rw [RangeSet.remove, if_pos h1]
    rw [heq]
    exact ⟨⟨hpw, hev⟩, hcnt⟩
  · push_neg at h1
    by_cases h2 : rs.count = 0
    · have heq : rs.remove start end_ = rs := by
        rw [RangeSet.remove, if_neg (not_not_intro h1)]
        show (if rs.count = 0 then _ else _) = _
        rw [if_pos h2]
      rw [heq]
      exact ⟨⟨hpw, hev⟩, hcnt⟩
    · have hspec := removeFind_spec rs.bounds start end_ hpw
        (rs.bounds.length + 1) 0 rs.bounds.length rfl hev (Nat.zero_le _)
        (le_refl _) (by omega)
        (fun j hj => absurd hj (Nat.not_lt_zero j))
        (fun j hj hjl => absurd hjl (by omega))
      rcases hrf : removeFind rs.bounds start end_ (rs.bounds.length + 1) 0
          rs.bounds.length with l' | m | m | m
      all_goals rw [hrf] at hspec
      · -- notFound
        obtain ⟨hae, hal, hapre, _⟩ := hspec
        have heq : rs.remove start end_ =
            removeAssemble end_ l' rs.bounds rs.count := by
          rw [RangeSet.remove, if_neg (not_not_intro h1)]
          show (if rs.count = 0 then _ else _) = _
          rw [if_neg h2]
          show (match removeFind rs.bounds start end_ (rs.bounds.length + 1) 0
              rs.bounds.length with
            | RemoveFindOut.notFound l => removeAssemble end_ l rs.bounds rs.count
            | RemoveFindOut.atStart m => removeAssemble end_ m rs.bounds rs.count
            | RemoveFindOut.clipTail m =>
              removeAssemble end_ (m + 2)
                (rs.bounds.take (m + 1) ++ [start] ++ rs.bounds.drop (m + 2))
                (rs.count - (rs.bounds.getD (m + 1) 0 - start))
            | RemoveFindOut.split m =>
              ⟨rs.bounds.take (m + 1) ++ [start, end_, rs.bounds.getD (m + 1) 0] ++
                rs.bounds.drop (m + 2),
               rs.count - (end_ - start)⟩) = _
          rw [hrf]
        rw [heq]
        refine removeAssemble_WF end_ l' rs.bounds rs.count hpw hev hcnt hae hal ?_
        intro x hx
        obtain ⟨j, hjl, hjb, hxe⟩ := mem_take_getD rs.bounds l' x hx
        have := hapre j hjl
        omega
      · -- atStart
        obtain ⟨hae, hal, hapre, _⟩ := hspec
        have heq : rs.remove start end_ =
            removeAssemble end_ m rs.bounds rs.count := by
          rw [RangeSet.remove, if_neg (not_not_intro h1)]
          show (if rs.count = 0 then _ else _) = _
          rw [if_neg h2]
          show (match removeFind rs.bounds start end_ (rs.bounds.length + 1) 0
              rs.bounds.length with
            | RemoveFindOut.notFound l => removeAssemble end_ l rs.bounds rs.count
            | RemoveFindOut.atStart m => removeAssemble end_ m rs.bounds rs.count
            | RemoveFindOut.clipTail m =>
              removeAssemble end_ (m + 2)
                (rs.bounds.take (m + 1) ++ [start] ++ rs.bounds.drop (m + 2))
                (rs.count - (rs.bounds.getD (m + 1) 0 - start))
            | RemoveFindOut.split m =>
              ⟨rs.bounds.take (m + 1) ++ [start, end_, rs.bounds.getD (m + 1) 0] ++
                rs.bounds.drop (m + 2),
               rs.count - (end_ - start)⟩) = _
          rw [hrf]
        rw [heq]
        refine removeAssemble_WF end_ m rs.bounds rs.count hpw hev hcnt hae
          (by omega) ?_
        intro x hx
        obtain ⟨j, hjl, hjb, hxe⟩ := mem_take_getD rs.bounds m x hx
        have := hapre j hjl
        omega
      · -- clipTail
        obtain ⟨hae, hal, hapre, hlo, hhi1, hhi2⟩ := hspec
        have heq : rs.remove start end_ =
            removeAssemble end_ (m + 2)
              (rs.bounds.take (m + 1) ++ [start] ++ rs.bounds.drop (m + 2))
              (rs.count - (rs.bounds.getD (m + 1) 0 - start)) := by
          rw [RangeSet.remove, if_neg (not_not_intro h1)]
          show (if rs.count = 0 then _ else _) = _
          rw [if_neg h2]
          show (match removeFind rs.bounds start end_ (rs.bounds.length + 1) 0
              rs.bounds.length with
            | RemoveFindOut.notFound l => removeAssemble end_ l rs.bounds rs.count
            | RemoveFindOut.atStart m => removeAssemble end_ m rs.bounds rs.count
            | RemoveFindOut.clipTail m =>
              removeAssemble end_ (m + 2)
                (rs.bounds.take (m + 1) ++ [start] ++ rs.bounds.drop (m + 2))
                (rs.count - (rs.bounds.getD (m + 1) 0 - start))
            | RemoveFindOut.split m =>
              ⟨rs.bounds.take (m + 1) ++ [start, end_, rs.bounds.getD (m + 1) 0] ++
                rs.bounds.drop (m + 2),
               rs.count - (end_ - start)⟩) = _
          rw [hrf]
        rw [heq]
        have hm1 : m + 1 < rs.bounds.length := by omega
        have hm0 : m < rs.bounds.length := by omega
        have htake1 : rs.bounds.take (m + 1) = rs.bounds.take m ++ [rs.bounds.getD m 0] := by
          rw [List.getD_eq_getElem _ 0 hm0, ← List.concat_eq_append,
            List.take_concat_get rs.bounds m hm0]
        have hxlt : ∀ x ∈ rs.bounds.take (m + 1), x < start := by
          intro x hx
          obtain ⟨j, hjl, hjb, hxe⟩ := mem_take_getD rs.bounds (m + 1) x hx
          rcases Nat.lt_or_ge j m with hj | hj
          · have := pw_getD rs.bounds hpw j m hj hm0
            omega
          · have hje : j = m := by omega
            rw [hxe, hje]
            exact hlo
        have hB'pw : ((rs.bounds.take (m + 1) ++ [start]) ++
            rs.bounds.drop (m + 2)).Pairwise (· < ·) := by
          refine pairwise_lt_assemble _ _ _
            (hpw.sublist (List.take_sublist (m + 1) rs.bounds))
            (List.pairwise_singleton _ _)
            (hpw.sublist (List.drop_sublist (m + 2) rs.bounds)) ?_ ?_ ?_
          · intro x hx y hy
            have hye : y = start := by simpa using hy
            rw [hye]
            exact hxlt x hx
          · intro x hx y hy
            obtain ⟨j, hjge, hjb, hye⟩ := mem_drop_getD rs.bounds (m + 2) y hy
            have := pw_getD rs.bounds hpw (m + 1) j (by omega) hjb
            have := hxlt x hx
            omega
          · intro x hx y hy
            have hxe : x = start := by simpa using hx
            obtain ⟨j, hjge, hjb, hye⟩ := mem_drop_getD rs.bounds (m + 2) y hy
            have := pw_getD rs.bounds hpw (m + 1) j (by omega) hjb
            omega
        have htakelen : (rs.bounds.take (m + 1)).length = m + 1 :=
          List.length_take_of_le (by omega)
        have hB'len : ((rs.bounds.take (m + 1) ++ [start]) ++
            rs.bounds.drop (m + 2)).length = rs.bounds.length := by
          simp only [List.length_append, htakelen, List.length_cons,
            List.length_nil, List.length_drop]
          omega
        have hdropm : rs.bounds.drop m =
            rs.bounds.getD m 0 :: rs.bounds.getD (m + 1) 0 :: rs.bounds.drop (m + 2) := by
          rw [List.getD_eq_getElem _ 0 hm0, List.getD_eq_getElem _ 0 hm1,
            List.drop_eq_getElem_cons hm0, List.drop_eq_getElem_cons hm1]
        have htakeme : (rs.bounds.take m).length = m :=
          List.length_take_of_le (by omega)
        have hsplitm : countVal rs.bounds =
            countVal (rs.bounds.take m) + countVal (rs.bounds.drop m) := by
          conv_lhs => rw [← List.take_append_drop m rs.bounds]
          rw [countVal_append _ _ (by rw [htakeme]; exact hae)]
        have hassoc : (rs.bounds.take (m + 1) ++ [start]) ++
            rs.bounds.drop (m + 2) =
            (rs.bounds.take m ++ [rs.bounds.getD m 0, start]) ++
              rs.bounds.drop (m + 2) := by
          rw [htake1]
          simp
        have hB'cnt : rs.count - (rs.bounds.getD (m + 1) 0 - start) =
            countVal ((rs.bounds.take (m + 1) ++ [start]) ++
              rs.bounds.drop (m + 2)) := by
          rw [hassoc, countVal_append _ _ (by
              simp only [List.length_append, htakeme, List.length_cons,
                List.length_nil]
              omega),
            countVal_append _ _ (by rw [htakeme]; exact hae), countVal_two,
            hcnt, hsplitm, hdropm, countVal_cons2]
          ring
        refine removeAssemble_WF end_ (m + 2) _ _ hB'pw (by rw [hB'len]; exact hev)
          hB'cnt (by omega) (by rw [hB'len]; omega) ?_
        intro x hx
        rw [List.take_left' (by
          simp only [List.length_append, htakelen, List.length_cons,
            List.length_nil])] at hx
        rcases List.mem_append.mp hx with h | h
        · have := hxlt x h
          omega
        · have hxe : x = start := by simpa using h
          omega
      · -- split
        obtain ⟨hae, hal, hapre, hlo, hhi1, hhi2⟩ := hspec
        have heq : rs.remove start end_ =
            (⟨rs.bounds.take (m + 1) ++ [start, end_, rs.bounds.getD (m + 1) 0] ++
                rs.bounds.drop (m + 2),
              rs.count - (end_ - start)⟩ : RangeSet) := by
          rw [RangeSet.remove, if_neg (not_not_intro h1)]
          show (if rs.count = 0 then _ else _) = _
          rw [if_neg h2]
          show (match removeFind rs.bounds start end_ (rs.bounds.length + 1) 0
              rs.bounds.length with
            | RemoveFindOut.notFound l => removeAssemble end_ l rs.bounds rs.count
            | RemoveFindOut.atStart m => removeAssemble end_ m rs.bounds rs.count
            | RemoveFindOut.clipTail m =>
              removeAssemble end_ (m + 2)
                (rs.bounds.take (m + 1) ++ [start] ++ rs.bounds.drop (m + 2))
                (rs.count - (rs.bounds.getD (m + 1) 0 - start))
            | RemoveFindOut.split m =>
              ⟨rs.bounds.take (m + 1) ++ [start, end_, rs.bounds.getD (m + 1) 0] ++
                rs.bounds.drop (m + 2),
               rs.count - (end_ - start)⟩) = _
          rw [hrf]
        rw [heq]
        have hm1 : m + 1 < rs.bounds.length := by omega
        have hm0 : m < rs.bounds.length := by omega
        have htake1 : rs.bounds.take (m + 1) = rs.bounds.take m ++ [rs.bounds.getD m 0] := by
          rw [List.getD_eq_getElem _ 0 hm0, ← List.concat_eq_append,
            List.take_concat_get rs.bounds m hm0]
        have hxlt : ∀ x ∈ rs.bounds.take (m + 1), x < start := by
          intro x hx
          obtain ⟨j, hjl, hjb, hxe⟩ := mem_take_getD rs.bounds (m + 1) x hx
          rcases Nat.lt_or_ge j m with hj | hj
          · have := pw_getD rs.bounds hpw j m hj hm0
            omega
          · have hje : j = m := by omega
            rw [hxe, hje]
            exact hlo
        have htakelen : (rs.bounds.take (m + 1)).length = m + 1 :=
          List.length_take_of_le (by omega)
        have htakeme : (rs.bounds.take m).length = m :=
          List.length_take_of_le (by omega)
        have hdropm : rs.bounds.drop m =
            rs.bounds.getD m 0 :: rs.bounds.getD (m + 1) 0 :: rs.bounds.drop (m + 2) := by
          rw [List.getD_eq_getElem _ 0 hm0, List.getD_eq_getElem _ 0 hm1,
            List.drop_eq_getElem_cons hm0, List.drop_eq_getElem_cons hm1]
        have hsplitm : countVal rs.bounds =
            countVal (rs.bounds.take m) + countVal (rs.bounds.drop m) := by
          conv_lhs => rw [← List.take_append_drop m rs.bounds]
          rw [countVal_append _ _ (by rw [htakeme]; exact hae)]
        refine ⟨⟨?_, ?_⟩, ?_⟩
        · show ((rs.bounds.take (m + 1) ++ [start, end_, rs.bounds.getD (m + 1) 0]) ++
            rs.bounds.drop (m + 2)).Pairwise (· < ·)
          refine pairwise_lt_assemble _ _ _
            (hpw.sublist (List.take_sublist (m + 1) rs.bounds)) ?_
            (hpw.sublist (List.drop_sublist (m + 2) rs.bounds)) ?_ ?_ ?_
          · refine List.pairwise_cons.mpr ⟨?_, List.pairwise_cons.mpr
              ⟨?_, List.pairwise_singleton _ _⟩⟩
            · intro y hy
              rcases List.mem_cons.mp hy with h | h
              · omega
              · have hye : y = rs.bounds.getD (m + 1) 0 := by simpa using h
                omega
            · intro y hy
              have hye : y = rs.bounds.getD (m + 1) 0 := by simpa using hy
              omega
          · intro x hx y hy
            have hxs := hxlt x hx
            have hy3 : y = start ∨ y = end_ ∨ y = rs.bounds.getD (m + 1) 0 := by
              simpa using hy
            rcases hy3 with h | h | h <;> omega
          · intro x hx y hy
            have hxs := hxlt x hx
            obtain ⟨j, hjge, hjb, hye⟩ := mem_drop_getD rs.bounds (m + 2) y hy
            have := pw_getD rs.bounds hpw (m + 1) j (by omega) hjb
            omega
          · intro x hx y hy
            have hx3 : x = start ∨ x = end_ ∨ x = rs.bounds.getD (m + 1) 0 := by
              simpa using hx
            obtain ⟨j, hjge, hjb, hye⟩ := mem_drop_getD rs.bounds (m + 2) y hy
            have := pw_getD rs.bounds hpw (m + 1) j (by omega) hjb
            rcases hx3 with h | h | h <;> omega
        · show ((rs.bounds.take (m + 1) ++ [start, end_, rs.bounds.getD (m + 1) 0]) ++
            rs.bounds.drop (m + 2)).length % 2 = 0
          simp only [List.length_append, htakelen, List.length_cons,
            List.length_nil, List.length_drop]
          omega
        · show rs.count - (end_ - start) =
            countVal ((rs.bounds.take (m + 1) ++
              [start, end_, rs.bounds.getD (m + 1) 0]) ++ rs.bounds.drop (m + 2))
          have hassoc : (rs.bounds.take (m + 1) ++
              [start, end_, rs.bounds.getD (m + 1) 0]) ++ rs.bounds.drop (m + 2) =
              (rs.bounds.take m ++
                [rs.bounds.getD m 0, start, end_, rs.bounds.getD (m + 1) 0]) ++
                rs.bounds.drop (m + 2) := by
            rw [htake1]
            simp
          rw [hassoc, countVal_append _ _ (by
              simp only [List.length_append, htakeme, List.length_cons,
                List.length_nil]
              omega),
            countVal_append _ _ (by rw [htakeme]; exact hae),
            hcnt, hsplitm, hdropm, countVal_cons2, countVal_cons2, countVal_two]
          ring

/-! ### The set denoted by `remove` -/

theorem removeAssemble_mem (end_ : Int) (l : Nat) (b : List Int) (cnt : Int)
    (hpw : b.Pairwise (· < ·)) (hev : b.length % 2 = 0)
    (hle : l % 2 = 0) (hll : l ≤ b.length) (i : Int) :
    MemS (pairsOf (removeAssemble end_ l b cnt).bounds) i ↔
      (MemS (pairsOf (b.take l)) i ∨
        (MemS (pairsOf (b.drop l)) i ∧ end_ ≤ i)) := by
  have hdpw : (b.drop l).Pairwise (· < ·) := hpw.sublist (List.drop_sublist l b)
  have hdev : (b.drop l).length % 2 = 0 := by rw [List.length_drop]; omega
  obtain ⟨_, _, _, _, hsm⟩ := removeScan_spec end_ (b.drop l) hdpw hdev
  show MemS (pairsOf (b.take l ++ (removeScan end_ (b.drop l)).1)) i ↔ _
  rw [pairsOf_append (b.take l) (by rw [List.length_take_of_le hll]; exact hle)
    _, MemS_append, hsm i]

/-- `RangeSet.remove` computes exactly the set difference with the removed
interval `[start, end)`. -/
theorem remove_mem (rs : RangeSet) (start end_ i : Int) (h : WF rs) :
    MemS (pairsOf (rs.remove start end_).bounds) i ↔
      (MemS (pairsOf rs.bounds) i ∧ ¬(start ≤ i ∧ i < end_)) := by
  obtain ⟨⟨hpw, hev⟩, hcnt⟩ := h
  by_cases h1 : ¬ start < end_
  · have heq : rs.remove start end_ = rs := by rw [RangeSet.remove, if_pos h1]
    rw [heq]
    constructor
    · exact fun hm => ⟨hm, by omega⟩
    · exact fun hm => hm.1
  · push_neg at h1
    by_cases h2 : rs.count = 0
    · have heq : rs.remove start end_ = rs := by
        rw [RangeSet.remove, if_neg (not_not_intro h1)]
        show (if rs.count = 0 then _ else _) = _
        rw [if_pos h2]
      rw [heq, WF_count_zero rs ⟨⟨hpw, hev⟩, hcnt⟩ h2]
      constructor
      · exact fun hm => absurd hm (MemS_nil i)
      · exact fun hm => absurd hm.1 (MemS_nil i)
    · have hspec := removeFind_spec rs.bounds start end_ hpw
        (rs.bounds.length + 1) 0 rs.bounds.length rfl hev (Nat.zero_le _)
        (le_refl _) (by omega)
        (fun j hj => absurd hj (Nat.not_lt_zero j))
        (fun j hj hjl => absurd hjl (by omega))
      rcases hrf : removeFind rs.bounds start end_ (rs.bounds.length + 1) 0
          rs.bounds.length with l' | m | m | m
      all_goals rw [hrf] at hspec
      · -- notFound
        obtain ⟨hae, hal, hapre, hapost⟩ := hspec
        have heq : rs.remove start end_ =
            removeAssemble end_ l' rs.bounds rs.count := by
          rw [RangeSet.remove, if_neg (not_not_intro h1)]
          show (if rs.count = 0 then _ else _) = _
          rw [if_neg h2]
          show (match removeFind rs.bounds start end_ (rs.bounds.length + 1) 0
              rs.bounds.length with
            | RemoveFindOut.notFound l => removeAssemble end_ l rs.bounds rs.count
            | RemoveFindOut.atStart m => removeAssemble end_ m rs.bounds rs.count
            | RemoveFindOut.clipTail m =>
              removeAssemble end_ (m + 2)
                (rs.bounds.take (m + 1) ++ [start] ++ rs.bounds.drop (m + 2))
                (rs.count - (rs.bounds.getD (m + 1) 0 - start))
            | RemoveFindOut.split m =>
              ⟨rs.bounds.take (m + 1) ++ [start, end_, rs.bounds.getD (m + 1) 0] ++
                rs.bounds.drop (m + 2),
               rs.count - (end_ - start)⟩) = _
          rw [hrf]
        rw [heq, removeAssemble_mem end_ l' rs.bounds rs.count hpw hev hae hal i,
          MemS_split rs.bounds l' hal hae i]
        have hA : ∀ p ∈ pairsOf (rs.bounds.take l'), p.2 ≤ start :=
          pairs_snd_le rs.bounds l' start hapre
        have hB : ∀ p ∈ pairsOf (rs.bounds.drop l'), start < p.1 :=
          pairs_fst_gt rs.bounds l' start hapost
        constructor
        · rintro (hA' | ⟨hB', hei⟩)
          · obtain ⟨p, hp, hp1, hp2⟩ := hA'
            have := hA p hp
            exact ⟨Or.inl ⟨p, hp, hp1, hp2⟩, by omega⟩
          · obtain ⟨p, hp, hp1, hp2⟩ := hB'
            have := hB p hp
            exact ⟨Or.inr ⟨p, hp, hp1, hp2⟩, by omega⟩
        · rintro ⟨hA' | hB', hni⟩
          · exact Or.inl hA'
          · obtain ⟨p, hp, hp1, hp2⟩ := hB'
            have := hB p hp
            exact Or.inr ⟨⟨p, hp, hp1, hp2⟩, by omega⟩
      · -- atStart
        obtain ⟨hae, hal, hapre, hstart⟩ := hspec
        have heq : rs.remove start end_ =
            removeAssemble end_ m rs.bounds rs.count := by
          rw [RangeSet.remove, if_neg (not_not_intro h1)]
          show (if rs.count = 0 then _ else _) = _
          rw [if_neg h2]
          show (match removeFind rs.bounds start end_ (rs.bounds.length + 1) 0
              rs.bounds.length with
            | RemoveFindOut.notFound l => removeAssemble end_ l rs.bounds rs.count
            | RemoveFindOut.atStart m => removeAssemble end_ m rs.bounds rs.count
            | RemoveFindOut.clipTail m =>
              removeAssemble end_ (m + 2)
                (rs.bounds.take (m + 1) ++ [start] ++ rs.bounds.drop (m + 2))
                (rs.count - (rs.bounds.getD (m + 1) 0 - start))
            | RemoveFindOut.split m =>
              ⟨rs.bounds.take (m + 1) ++ [start, end_, rs.bounds.getD (m + 1) 0] ++
                rs.bounds.drop (m + 2),
               rs.count - (end_ - start)⟩) = _
          rw [hrf]
        have hapost : ∀ j, m ≤ j → j < rs.bounds.length →
            start ≤ rs.bounds.getD j 0 := by
          intro j hj hjl
          rcases Nat.eq_or_lt_of_le hj with hj' | hj'
          · rw [← hj', hstart]
          · rw [← hstart]
            exact le_of_lt (pw_getD rs.bounds hpw m j hj' hjl)
        rw [heq, removeAssemble_mem end_ m rs.bounds rs.count hpw hev hae
          (by omega) i, MemS_split rs.bounds m (by omega) hae i]
        have hA : ∀ p ∈ pairsOf (rs.bounds.take m), p.2 ≤ start :=
          pairs_snd_le rs.bounds m start hapre
        have hB : ∀ p ∈ pairsOf (rs.bounds.drop m), start ≤ p.1 :=
          pairs_fst_ge rs.bounds m start hapost
        constructor
        · rintro (hA' | ⟨hB', hei⟩)
          · obtain ⟨p, hp, hp1, hp2⟩ := hA'
            have := hA p hp
            exact ⟨Or.inl ⟨p, hp, hp1, hp2⟩, by omega⟩
          · obtain ⟨p, hp, hp1, hp2⟩ := hB'
            have := hB p hp
            exact ⟨Or.inr ⟨p, hp, hp1, hp2⟩, by omega⟩
        · rintro ⟨hA' | hB', hni⟩
          · exact Or.inl hA'
          · obtain ⟨p, hp, hp1, hp2⟩ := hB'
            have := hB p hp
            exact Or.inr ⟨⟨p, hp, hp1, hp2⟩, by omega⟩
      · -- clipTail
        obtain ⟨hae, hal, hapre, hlo, hhi1, hhi2⟩ := hspec
        have heq : rs.remove start end_ =
            removeAssemble end_ (m + 2)
              (rs.bounds.take (m + 1) ++ [start] ++ rs.bounds.drop (m + 2))
              (rs.count - (rs.bounds.getD (m + 1) 0 - start)) := by
          rw [RangeSet.remove, if_neg (not_not_intro h1)]
          show (if rs.count = 0 then _ else _) = _
          rw [if_neg h2]
          show (match removeFind rs.bounds start end_ (rs.bounds.length + 1) 0
              rs.bounds.length with
            | RemoveFindOut.notFound l => removeAssemble end_ l rs.bounds rs.count
            | RemoveFindOut.atStart m => removeAssemble end_ m rs.bounds rs.count
            | RemoveFindOut.clipTail m =>
              removeAssemble end_ (m + 2)
                (rs.bounds.take (m + 1) ++ [start] ++ rs.bounds.drop (m + 2))
                (rs.count - (rs.bounds.getD (m + 1) 0 - start))
            | RemoveFindOut.split m =>
              ⟨rs.bounds.take (m + 1) ++ [start, end_, rs.bounds.getD (m + 1) 0] ++
                rs.bounds.drop (m + 2),
               rs.count - (end_ - start)⟩) = _
          rw [hrf]
        rw [heq]
        have hm1 : m + 1 < rs.bounds.length := by omega
        have hm0 : m < rs.bounds.length := by omega
        have htake1 : rs.bounds.take (m + 1) =
            rs.bounds.take m ++ [rs.bounds.getD m 0] := by
          rw [List.getD_eq_getElem _ 0 hm0, ← List.concat_eq_append,
            List.take_concat_get rs.bounds m hm0]
        have hxlt : ∀ x ∈ rs.bounds.take (m + 1), x < start := by
          intro x hx
          obtain ⟨j, hjl, hjb, hxe⟩ := mem_take_getD rs.bounds (m + 1) x hx
          rcases Nat.lt_or_ge j m with hj | hj
          · have := pw_getD rs.bounds hpw j m hj hm0
            omega
          · have hje : j = m := by omega
            rw [hxe, hje]
            exact hlo
        have hB'pw : ((rs.bounds.take (m + 1) ++ [start]) ++
            rs.bounds.drop (m + 2)).Pairwise (· < ·) := by
          refine pairwise_lt_assemble _ _ _
            (hpw.sublist (List.take_sublist (m + 1) rs.bounds))
            (List.pairwise_singleton _ _)
            (hpw.sublist (List.drop_sublist (m + 2) rs.bounds)) ?_ ?_ ?_
          · intro x hx y hy
            have hye : y = start := by simpa using hy
            rw [hye]
            exact hxlt x hx
          · intro x hx y hy
            obtain ⟨j, hjge, hjb, hye⟩ := mem_drop_getD rs.bounds (m + 2) y hy
            have := pw_getD rs.bounds hpw (m + 1) j (by omega) hjb
            have := hxlt x hx
            omega
          · intro x hx y hy
            have hxe : x = start := by simpa using hx
            obtain ⟨j, hjge, hjb, hye⟩ := mem_drop_getD rs.bounds (m + 2) y hy
            have := pw_getD rs.bounds hpw (m + 1) j (by omega) hjb
            omega
        have htakelen : (rs.bounds.take (m + 1)).length = m + 1 :=
          List.length_take_of_le (by omega)
        have hB'len : ((rs.bounds.take (m + 1) ++ [start]) ++
            rs.bounds.drop (m + 2)).length = rs.bounds.length := by
          simp only [List.length_append, htakelen, List.length_cons,
            List.length_nil, List.length_drop]
          omega
        have hPlen : (rs.bounds.take (m + 1) ++ [start]).length = m + 2 := by
          simp only [List.length_append, htakelen, List.length_cons,
            List.length_nil]
        rw [removeAssemble_mem end_ (m + 2) _ _ hB'pw
          (by rw [hB'len]; exact hev) (by omega) (by rw [hB'len]; omega) i]
        have htk2 : ((rs.bounds.take (m + 1) ++ [start]) ++
            rs.bounds.drop (m + 2)).take (m + 2) =
            rs.bounds.take (m + 1) ++ [start] := List.take_left' hPlen
        have hdr2 : ((rs.bounds.take (m + 1) ++ [start]) ++
            rs.bounds.drop (m + 2)).drop (m + 2) =
            rs.bounds.drop (m + 2) := List.drop_left' hPlen
        rw [htk2, hdr2]
        have hassoc : rs.bounds.take (m + 1) ++ [start] =
            rs.bounds.take m ++ [rs.bounds.getD m 0, start] := by
          rw [htake1]
          simp
        have htakeme : (rs.bounds.take m).length = m :=
          List.length_take_of_le (by omega)
        rw [hassoc, pairsOf_append (rs.bounds.take m)
          (by rw [htakeme]; exact hae) _, MemS_append,
          show pairsOf [rs.bounds.getD m 0, start] =
            [(rs.bounds.getD m 0, start)] from rfl,
          MemS_cons,
          MemS_split rs.bounds m (by omega) hae i]
        have hdropm : rs.bounds.drop m =
            rs.bounds.getD m 0 :: rs.bounds.getD (m + 1) 0 ::
              rs.bounds.drop (m + 2) := by
          rw [List.getD_eq_getElem _ 0 hm0, List.getD_eq_getElem _ 0 hm1,
            List.drop_eq_getElem_cons hm0, List.drop_eq_getElem_cons hm1]
        rw [show pairsOf (rs.bounds.drop m) =
            (rs.bounds.getD m 0, rs.bounds.getD (m + 1) 0) ::
              pairsOf (rs.bounds.drop (m + 2)) by rw [hdropm]; rfl]
        rw [MemS_cons]
        have hA : ∀ p ∈ pairsOf (rs.bounds.take m), p.2 ≤ start :=
          pairs_snd_le rs.bounds m start hapre
        have hB : ∀ p ∈ pairsOf (rs.bounds.drop (m + 2)),
            rs.bounds.getD (m + 1) 0 < p.1 :=
          pairs_fst_gt rs.bounds (m + 2)
            (rs.bounds.getD (m + 1) 0)
            (fun j hj hjl => pw_getD rs.bounds hpw (m + 1) j (by omega) hjl)
        constructor
        · rintro ((hA' | hmid) | ⟨hB', hei⟩)
          · obtain ⟨p, hp, hp1, hp2⟩ := hA'
            have := hA p hp
            exact ⟨Or.inl ⟨p, hp, hp1, hp2⟩, by omega⟩
          · rcases hmid with ⟨hm1', hm2'⟩ | hnil
            · exact ⟨Or.inr (Or.inl ⟨hm1', by omega⟩), by omega⟩
            · exact absurd hnil (MemS_nil i)
          · obtain ⟨p, hp, hp1, hp2⟩ := hB'
            have := hB p hp
            exact ⟨Or.inr (Or.inr ⟨p, hp, hp1, hp2⟩), by omega⟩
        · rintro ⟨hA' | hmid | hB', hni⟩
          · exact Or.inl (Or.inl hA')
          · rcases hmid with ⟨hm1', hm2'⟩
            exact Or.inl (Or.inr (Or.inl ⟨hm1', by omega⟩))
          · obtain ⟨p, hp, hp1, hp2⟩ := hB'
            have := hB p hp
            exact Or.inr ⟨⟨p, hp, hp1, hp2⟩, by omega⟩
      · -- split
        obtain ⟨hae, hal, hapre, hlo, hhi1, hhi2⟩ := hspec
        have heq : rs.remove start end_ =
            (⟨rs.bounds.take (m + 1) ++ [start, end_, rs.bounds.getD (m + 1) 0] ++
                rs.bounds.drop (m + 2),
              rs.count - (end_ - start)⟩ : RangeSet) := by
          rw [RangeSet.remove, if_neg (not_not_intro h1)]
          show (if rs.count = 0 then _ else _) = _
          rw [if_neg h2]
          show (match removeFind rs.bounds start end_ (rs.bounds.length + 1) 0
              rs.bounds.length with
            | RemoveFindOut.notFound l => removeAssemble end_ l rs.bounds rs.count
            | RemoveFindOut.atStart m => removeAssemble end_ m rs.bounds rs.count
            | RemoveFindOut.clipTail m =>
              removeAssemble end_ (m + 2)
                (rs.bounds.take (m + 1) ++ [start] ++ rs.bounds.drop (m + 2))
                (rs.count - (rs.bounds.getD (m + 1) 0 - start))
            | RemoveFindOut.split m =>
              ⟨rs.bounds.take (m + 1) ++ [start, end_, rs.bounds.getD (m + 1) 0] ++
                rs.bounds.drop (m + 2),
               rs.count - (end_ - start)⟩) = _
          rw [hrf]
        rw [heq]
        have hm1 : m + 1 < rs.bounds.length := by omega
        have hm0 : m < rs.bounds.length := by omega
        have htake1 : rs.bounds.take (m + 1) =
            rs.bounds.take m ++ [rs.bounds.getD m 0] := by
          rw [List.getD_eq_getElem _ 0 hm0, ← List.concat_eq_append,
            List.take_concat_get rs.bounds m hm0]
        have htakeme : (rs.bounds.take m).length = m :=
          List.length_take_of_le (by omega)
        show MemS (pairsOf ((rs.bounds.take (m + 1) ++
            [start, end_, rs.bounds.getD (m + 1) 0]) ++
            rs.bounds.drop (m + 2))) i ↔ _
        have hassoc : (rs.bounds.take (m + 1) ++
            [start, end_, rs.bounds.getD (m + 1) 0]) ++
              rs.bounds.drop (m + 2) =
            rs.bounds.take m ++
              ([rs.bounds.getD m 0, start, end_, rs.bounds.getD (m + 1) 0] ++
                rs.bounds.drop (m + 2)) := by
          rw [htake1]
          simp
        rw [hassoc, pairsOf_append (rs.bounds.take m)
          (by rw [htakeme]; exact hae) _, MemS_append,
          show pairsOf ([rs.bounds.getD m 0, start, end_,
              rs.bounds.getD (m + 1) 0] ++ rs.bounds.drop (m + 2)) =
            (rs.bounds.getD m 0, start) :: (end_, rs.bounds.getD (m + 1) 0) ::
              pairsOf (rs.bounds.drop (m + 2)) from rfl,
          MemS_cons, MemS_cons,
          MemS_split rs.bounds m (by omega) hae i]
        have hdropm : rs.bounds.drop m =
            rs.bounds.getD m 0 :: rs.bounds.getD (m + 1) 0 ::
              rs.bounds.drop (m + 2) := by
          rw [List.getD_eq_getElem _ 0 hm0, List.getD_eq_getElem _ 0 hm1,
            List.drop_eq_getElem_cons hm0, List.drop_eq_getElem_cons hm1]
        rw [show pairsOf (rs.bounds.drop m) =
            (rs.bounds.getD m 0, rs.bounds.getD (m + 1) 0) ::
              pairsOf (rs.bounds.drop (m + 2)) by rw [hdropm]; rfl]
        rw [MemS_cons]
        have hA : ∀ p ∈ pairsOf (rs.bounds.take m), p.2 ≤ start :=
          pairs_snd_le rs.bounds m start hapre
        have hB : ∀ p ∈ pairsOf (rs.bounds.drop (m + 2)),
            rs.bounds.getD (m + 1) 0 < p.1 :=
          pairs_fst_gt rs.bounds (m + 2)
            (rs.bounds.getD (m + 1) 0)
            (fun j hj hjl => pw_getD rs.bounds hpw (m + 1) j (by omega) hjl)
        constructor
        · rintro (hA' | hm1' | hm2' | hB')
          · obtain ⟨p, hp, hp1, hp2⟩ := hA'
            have := hA p hp
            exact ⟨Or.inl ⟨p, hp, hp1, hp2⟩, by omega⟩
          · exact ⟨Or.inr (Or.inl ⟨hm1'.1, by omega⟩), by omega⟩
          · exact ⟨Or.inr (Or.inl ⟨by omega, hm2'.2⟩), by omega⟩
          · obtain ⟨p, hp, hp1, hp2⟩ := hB'
            have := hB p hp
            exact ⟨Or.inr (Or.inr ⟨p, hp, hp1, hp2⟩), by omega⟩
        · rintro ⟨hA' | hmid | hB', hni⟩
          · exact Or.inl hA'
          · rcases hmid with ⟨hm1', hm2'⟩
            by_cases his : i < start
            · exact Or.inr (Or.inl ⟨hm1', by omega⟩)
            · exact Or.inr (Or.inr (Or.inl ⟨by omega, hm2'⟩))
          · obtain ⟨p, hp, hp1, hp2⟩ := hB'
            exact Or.inr (Or.inr (Or.inr ⟨p, hp, hp1, hp2⟩))

/-! ### `toggle` preserves well-formedness -/

theorem getD_drop (b : List Int) (l j : Nat) (h : l + j < b.length) :
    (b.drop l).getD j 0 = b.getD (l + j) 0 := by
  rw [List.getD_eq_getElem _ 0 (by rw [List.length_drop]; omega),
    List.getD_eq_getElem _ 0 h]
  exact List.getElem_drop b

theorem getD_append_self (P R : List Int) (j : Nat) (h : j < R.length) :
    (P ++ R).getD (P.length + j) 0 = R.getD j 0 := by
  rw [List.getD_eq_getElem _ 0 (by rw [List.length_append]; omega),
    List.getD_eq_getElem _ 0 h, List.getElem_append_right (by omega)]
  congr 1
  omega

theorem strict_after (R : List Int) (e : Int) (hpw : R.Pairwise (· < ·))
    (hweak : ∀ y ∈ R, e ≤ y) (hne : R = [] ∨ e ≠ R.getD 0 0) :
    ∀ y ∈ R, e < y := by
  match R with
  | [] =>
    intro y hy
    exact absurd hy (List.not_mem_nil y)
  | a :: rest =>
    intro y hy
    have ha : e ≤ a := hweak a (List.mem_cons_self a rest)
    have hane : e ≠ a := by
      rcases hne with h | h
      · exact absurd h (by simp)
      · simpa using h
    rcases List.mem_cons.mp hy with h | h
    · omega
    · have := (List.pairwise_cons.mp hpw).1 y h
      omega

theorem insertIdx_take_drop (a : Int) : ∀ (i : Nat) (xs : List Int),
    i ≤ xs.length → xs.insertIdx i a = xs.take i ++ a :: xs.drop i := by
  intro i
  induction i with
  | zero =>
    intro xs _
    simp [List.insertIdx_zero]
  | succ i ih =>
    intro xs h
    match xs with
    | [] => simp at h
    | x :: xs =>
      rw [List.insertIdx_succ_cons, ih xs (by simpa using h)]
      simp

theorem lowerBound_spec (bounds : List Int) (start : Int)
    (hpw : bounds.Pairwise (· < ·)) :
    ∀ (fuel l r : Nat), l ≤ r → r ≤ bounds.length → r - l < fuel →
      (∀ j, j < l → bounds.getD j 0 < start) →
      (∀ j, r ≤ j → j < bounds.length → start ≤ bounds.getD j 0) →
      lowerBound bounds start fuel l r ≤ bounds.length ∧
      (∀ j, j < lowerBound bounds start fuel l r → bounds.getD j 0 < start) ∧
      (∀ j, lowerBound bounds start fuel l r ≤ j → j < bounds.length →
        start ≤ bounds.getD j 0) := by
  intro fuel
  induction fuel with
  | zero =>
    intro l r hlr _ hf _ _
    omega
  | succ fuel ih =>
    intro l r hlr hrlen hf hleft hright
    have hval : lowerBound bounds start (fuel + 1) l r =
        if l < r then
          (if start ≤ bounds.getD ((l + r) / 2) 0 then
            lowerBound bounds start fuel l ((l + r) / 2)
          else lowerBound bounds start fuel ((l + r) / 2 + 1) r)
        else l := rfl
    rw [hval]
    by_cases hltr : l < r
    · rw [if_pos hltr]
      have hm1 : l ≤ (l + r) / 2 := by omega
      have hm2 : (l + r) / 2 < r := by omega
      by_cases hc : start ≤ bounds.getD ((l + r) / 2) 0
      · rw [if_pos hc]
        exact ih l ((l + r) / 2) (by omega) (by omega) (by omega) hleft
          (fun j hj hjl => by
            rcases Nat.eq_or_lt_of_le hj with h | h
            · rw [← h]
              exact hc
            · exact hc.trans (le_of_lt (pw_getD bounds hpw _ j h hjl)))
      · rw [if_neg hc]
        push_neg at hc
        exact ih ((l + r) / 2 + 1) r (by omega) hrlen (by omega)
          (fun j hj => by
            rcases Nat.lt_or_ge j ((l + r) / 2) with h | h
            · exact (pw_getD bounds hpw j _ h (by omega)).trans hc
            · rw [show j = (l + r) / 2 by omega]
              exact hc)
          hright
    · rw [if_neg hltr]
      exact ⟨by omega, hleft, fun j hj => hright j (by omega)⟩

theorem toggleScanGo_spec (end_ : Int) : ∀ (xs : List Int),
    toggleScanGo end_ xs ≤ xs.length ∧
    (∀ y ∈ xs.take (toggleScanGo end_ xs), y < end_) ∧
    (toggleScanGo end_ xs < xs.length →
      end_ ≤ xs.getD (toggleScanGo end_ xs) 0) := by
  intro xs
  induction xs with
  | nil => exact ⟨le_refl _, by simp, fun h => absurd h (by simp)⟩
  | cons v rest ih =>
    have hval : toggleScanGo end_ (v :: rest) =
        if end_ ≤ v then 0 else toggleScanGo end_ rest + 1 := rfl
    by_cases hc : end_ ≤ v
    · rw [hval, if_pos hc]
      exact ⟨Nat.zero_le _, by simp, fun _ => hc⟩
    · rw [hval, if_neg hc]
      push_neg at hc
      obtain ⟨ih1, ih2, ih3⟩ := ih
      refine ⟨by simp only [List.length_cons]; omega, ?_, ?_⟩
      · intro y hy
        rw [List.take_succ_cons] at hy
        rcases List.mem_cons.mp hy with h | h
        · omega
        · exact ih2 y h
      · intro h
        rw [List.getD_cons_succ]
        exact ih3 (by simp only [List.length_cons] at h; omega)

/-- The boundary-point surgery of `toggle`, first stage: the `start` bound is
removed if present, inserted otherwise, and the scan position is shifted
accordingly. -/
def toggleBr (b : List Int) (start : Int) (l r : Nat) : List Int × Nat :=
  if l ≠ b.length ∧ start = b.getD l 0 then (b.eraseIdx l, r - 1)
  else (b.insertIdx l start, r + 1)

/-- The boundary-point surgery of `toggle`, second stage, acting on the `end`
bound. -/
def toggleB2 (end_ : Int) (br : List Int × Nat) : List Int :=
  if br.2 ≠ br.1.length ∧ end_ = br.1.getD br.2 0
  then br.1.eraseIdx br.2 else br.1.insertIdx br.2 end_

theorem toggleSurgery_WFb (b : List Int) (start end_ : Int) (l t : Nat)
    (hpw : b.Pairwise (· < ·)) (hev : b.length % 2 = 0) (h1 : start < end_)
    (hll : l ≤ b.length)
    (hlpre : ∀ j, j < l → b.getD j 0 < start)
    (hlpost : ∀ j, l ≤ j → j < b.length → start ≤ b.getD j 0)
    (htl : t ≤ b.length - l)
    (hspre : ∀ y ∈ (b.drop l).take t, y < end_)
    (hspost : t < b.length - l → end_ ≤ (b.drop l).getD t 0) :
    WFb (toggleB2 end_ (toggleBr b start l (l + t))) := by
  have hDLpw : (b.drop l).Pairwise (· < ·) := hpw.sublist (List.drop_sublist l b)
  have h6 : (b.drop l).drop t = b.drop (l + t) := by rw [List.drop_drop]
  have hT1 : ∀ x ∈ b.take l, x < start := by
    intro x hx
    obtain ⟨j, hjl, hjb, hxe⟩ := mem_take_getD b l x hx
    rw [hxe]
    exact hlpre j hjl
  have hTDL : ∀ x ∈ b.take l, ∀ y ∈ b.drop l, x < y :=
    (List.pairwise_append.mp
      (by rw [List.take_append_drop]; exact hpw :
        (b.take l ++ b.drop l).Pairwise (· < ·))).2.2
  have hSR0 : ∀ x ∈ (b.drop l).take t, ∀ y ∈ (b.drop l).drop t, x < y :=
    (List.pairwise_append.mp
      (by rw [List.take_append_drop]; exact hDLpw :
        ((b.drop l).take t ++ (b.drop l).drop t).Pairwise (· < ·))).2.2
  have hRweak : ∀ y ∈ b.drop (l + t), end_ ≤ y := by
    intro y hy
    rw [← h6] at hy
    obtain ⟨j, hj, hjb, hye⟩ := mem_drop_getD (b.drop l) t y hy
    have hjb' := hjb
    rw [List.length_drop] at hjb'
    have h0 := hspost (by omega)
    rcases Nat.eq_or_lt_of_le hj with h | h
    · rw [hye, ← h]
      exact h0
    · have := pw_getD (b.drop l) hDLpw t j h hjb
      omega
  have hT1len : (b.take l).length = l := List.length_take_of_le hll
  have hSlen : ((b.drop l).take t).length = t :=
    List.length_take_of_le (by rw [List.length_drop]; omega)
  have hRlen : (b.drop (l + t)).length = b.length - l - t := by
    rw [List.length_drop]
    omega
  by_cases hc1 : l ≠ b.length ∧ start = b.getD l 0
  · -- the `start` bound is present: erase it
    have hbr : toggleBr b start l (l + t) = (b.eraseIdx l, l + t - 1) := by
      rw [toggleBr, if_pos hc1]
    rw [hbr]
    have hlt : l < b.length := by
      rcases hc1 with ⟨h, _⟩
      omega
    have ht1 : 1 ≤ t := by
      by_contra h0
      have ht0 : t = 0 := by omega
      have hspost0 := hspost (by omega)
      rw [ht0, getD_drop b l 0 (by omega)] at hspost0
      simp only [Nat.add_zero] at hspost0
      rcases hc1 with ⟨_, hs⟩
      omega
    have hdrop1 : b.drop (l + 1) =
        (b.drop (l + 1)).take (t - 1) ++ b.drop (l + t) := by
      have h5 : (b.drop (l + 1)).drop (t - 1) = b.drop (l + t) := by
        rw [List.drop_drop]
        congr 1
        omega
      rw [← h5, List.take_append_drop]
    have hbr1 : b.eraseIdx l =
        b.take l ++ ((b.drop (l + 1)).take (t - 1) ++ b.drop (l + t)) := by
      rw [List.eraseIdx_eq_take_drop_succ, ← hdrop1]
    have hDL1 : b.drop l = b.getD l 0 :: b.drop (l + 1) := by
      rw [List.getD_eq_getElem _ 0 hlt, List.drop_eq_getElem_cons hlt]
    have hS : (b.drop l).take t =
        b.getD l 0 :: (b.drop (l + 1)).take (t - 1) := by
      rw [hDL1, List.take_cons ht1]
    have hS'mem : ∀ y ∈ (b.drop (l + 1)).take (t - 1), y ∈ (b.drop l).take t := by
      intro y hy
      rw [hS]
      exact List.mem_cons_of_mem _ hy
    have hELlen : (b.eraseIdx l).length = b.length - 1 :=
      List.length_eraseIdx_of_lt hlt
    have hPlen : (b.take l ++ (b.drop (l + 1)).take (t - 1)).length =
        l + t - 1 := by
      rw [List.length_append, hT1len,
        List.length_take_of_le (by rw [List.length_drop]; omega)]
      omega
    have hbr1assoc : b.eraseIdx l =
        (b.take l ++ (b.drop (l + 1)).take (t - 1)) ++ b.drop (l + t) := by
      rw [hbr1, List.append_assoc]
    have hEpw : (b.eraseIdx l).Pairwise (· < ·) :=
      hpw.sublist (List.eraseIdx_sublist b l)
    by_cases hc2 : l + t - 1 ≠ (b.eraseIdx l).length ∧
        end_ = (b.eraseIdx l).getD (l + t - 1) 0
    · -- the `end` bound is present in the intermediate list: erase it
      have hb2 : toggleB2 end_ (b.eraseIdx l, l + t - 1) =
          (b.eraseIdx l).eraseIdx (l + t - 1) := by
        rw [toggleB2]
        dsimp only
        rw [if_pos hc2]
      rw [hb2]
      have hlt2 : l + t - 1 < (b.eraseIdx l).length := by
        rcases hc2 with ⟨hne, _⟩
        rw [hELlen] at hne ⊢
        omega
      constructor
      · exact hEpw.sublist (List.eraseIdx_sublist _ _)
      · rw [List.length_eraseIdx_of_lt hlt2, hELlen]
        omega
    · -- insert the `end` bound into the intermediate list
      have hb2 : toggleB2 end_ (b.eraseIdx l, l + t - 1) =
          (b.eraseIdx l).insertIdx (l + t - 1) end_ := by
        rw [toggleB2]
        dsimp only
        rw [if_neg hc2]
      rw [hb2]
      have hle2 : l + t - 1 ≤ (b.eraseIdx l).length := by
        rw [hELlen]
        omega
      rw [insertIdx_take_drop end_ (l + t - 1) (b.eraseIdx l) hle2]
      have htk : (b.eraseIdx l).take (l + t - 1) =
          b.take l ++ (b.drop (l + 1)).take (t - 1) := by
        rw [hbr1assoc]
        exact List.take_left' hPlen
      have hdr : (b.eraseIdx l).drop (l + t - 1) = b.drop (l + t) := by
        rw [hbr1assoc]
        exact List.drop_left' hPlen
      rw [htk, hdr]
      have hRstrict : ∀ y ∈ b.drop (l + t), end_ < y := by
        apply strict_after _ end_ (hpw.sublist (List.drop_sublist _ b)) hRweak
        by_cases hR0 : b.drop (l + t) = []
        · exact Or.inl hR0
        · right
          have hRne : (b.drop (l + t)).length ≠ 0 := by
            intro h0
            exact hR0 (List.length_eq_zero.mp h0)
          rw [hRlen] at hRne
          have hne2 : l + t - 1 ≠ (b.eraseIdx l).length := by
            rw [hELlen]
            omega
          have hhead : (b.eraseIdx l).getD (l + t - 1) 0 =
              (b.drop (l + t)).getD 0 0 := by
            rw [hbr1assoc, show l + t - 1 =
              (b.take l ++ (b.drop (l + 1)).take (t - 1)).length + 0
              by rw [hPlen]; omega]
            exact getD_append_self _ _ 0 (by rw [hRlen]; omega)
          rcases not_and_or.mp hc2 with h | h
          · exact absurd (not_not.mp h) hne2
          · rw [← hhead]
            exact h
      refine ⟨List.pairwise_append.mpr ⟨?_, ?_, ?_⟩, ?_⟩
      · have hsub : (b.take l ++ (b.drop (l + 1)).take (t - 1)).Sublist
            (b.eraseIdx l) := by
          rw [hbr1assoc]
          exact List.sublist_append_left _ _
        exact hEpw.sublist hsub
      · exact List.pairwise_cons.mpr
          ⟨hRstrict, hpw.sublist (List.drop_sublist _ b)⟩
      · intro x hx y hy
        have hxlt : x < end_ := by
          rcases List.mem_append.mp hx with h | h
          · have := hT1 x h
            omega
          · exact hspre x (hS'mem x h)
        rcases List.mem_cons.mp hy with h | h
        · omega
        · have hxy : x < y := by
            rcases List.mem_append.mp hx with hx1 | hx2
            · refine hTDL x hx1 y ?_
              rw [← h6] at h
              exact (List.drop_sublist t (b.drop l)).subset h
            · refine hSR0 x (hS'mem x hx2) y ?_
              rw [← h6] at h
              exact h
          exact hxy
      · rw [List.length_append, hPlen, List.length_cons, hRlen]
        omega
  · -- the `start` bound is absent: insert it
    have hbr : toggleBr b start l (l + t) = (b.insertIdx l start, l + t + 1) := by
      rw [toggleBr, if_neg hc1]
    rw [hbr]
    have hIeq : b.insertIdx l start = b.take l ++ start :: b.drop l :=
      insertIdx_take_drop start l b hll
    have hDLstrict : ∀ y ∈ b.drop l, start < y := by
      apply strict_after (b.drop l) start hDLpw ?_ ?_
      · intro y hy
        obtain ⟨j, hj, hjb, hye⟩ := mem_drop_getD b l y hy
        rw [hye]
        exact hlpost j hj hjb
      · by_cases hlb : l = b.length
        · left
          rw [hlb, List.drop_length]
        · right
          have hlt : l < b.length := by omega
          rcases not_and_or.mp hc1 with h | h
          · exact absurd (not_not.mp h) hlb
          · rw [getD_drop b l 0 (by omega)]
            simpa using h
    have hIpw : (b.insertIdx l start).Pairwise (· < ·) := by
      rw [hIeq]
      refine List.pairwise_append.mpr ⟨hpw.sublist (List.take_sublist l b), ?_, ?_⟩
      · exact List.pairwise_cons.mpr ⟨fun y hy => hDLstrict y hy, hDLpw⟩
      · intro x hx y hy
        rcases List.mem_cons.mp hy with h | h
        · rw [h]
          exact hT1 x hx
        · exact hTDL x hx y h
    have hIlen : (b.insertIdx l start).length = b.length + 1 := by
      rw [hIeq]
      simp only [List.length_append, hT1len, List.length_cons, List.length_drop]
      omega
    have hI2 : b.insertIdx l start =
        (b.take l ++ start :: (b.drop l).take t) ++ b.drop (l + t) := by
      rw [hIeq, ← h6]
      conv_lhs => rw [← List.take_append_drop t (b.drop l)]
      simp
    have hP2len : (b.take l ++ start :: (b.drop l).take t).length =
        l + t + 1 := by
      simp only [List.length_append, hT1len, List.length_cons, hSlen]
      omega
    have hP2lt : ∀ x ∈ b.take l ++ start :: (b.drop l).take t, x < end_ := by
      intro x hx
      rcases List.mem_append.mp hx with h | h
      · have := hT1 x h
        omega
      · rcases List.mem_cons.mp h with h | h
        · omega
        · exact hspre x h
    have hP2R : ∀ x ∈ b.take l ++ start :: (b.drop l).take t,
        ∀ y ∈ b.drop (l + t), x < y := by
      intro x hx y hy
      rw [← h6] at hy
      have hyDL : y ∈ b.drop l := (List.drop_sublist t (b.drop l)).subset hy
      rcases List.mem_append.mp hx with h | h
      · exact hTDL x h y hyDL
      · rcases List.mem_cons.mp h with h | h
        · rw [h]
          exact hDLstrict y hyDL
        · exact hSR0 x h y hy
    by_cases hc2 : l + t + 1 ≠ (b.insertIdx l start).length ∧
        end_ = (b.insertIdx l start).getD (l + t + 1) 0
    · -- the `end` bound is present in the intermediate list: erase it
      have hb2 : toggleB2 end_ (b.insertIdx l start, l + t + 1) =
          (b.insertIdx l start).eraseIdx (l + t + 1) := by
        rw [toggleB2]
        dsimp only
        rw [if_pos hc2]
      rw [hb2]
      have hlt2 : l + t + 1 < (b.insertIdx l start).length := by
        rcases hc2 with ⟨hne, _⟩
        rw [hIlen] at hne ⊢
        omega
      constructor
      · exact hIpw.sublist (List.eraseIdx_sublist _ _)
      · rw [List.length_eraseIdx_of_lt hlt2, hIlen]
        omega
    · -- insert the `end` bound into the intermediate list
      have hb2 : toggleB2 end_ (b.insertIdx l start, l + t + 1) =
          (b.insertIdx l start).insertIdx (l + t + 1) end_ := by
        rw [toggleB2]
        dsimp only
        rw [if_neg hc2]
      rw [hb2]
      have hle2 : l + t + 1 ≤ (b.insertIdx l start).length := by
        rw [hIlen]
        omega
      rw [insertIdx_take_drop end_ (l + t + 1) _ hle2]
      have htk : (b.insertIdx l start).take (l + t + 1) =
          b.take l ++ start :: (b.drop l).take t := by
        rw [hI2]
        exact List.take_left' hP2len
      have hdr : (b.insertIdx l start).drop (l + t + 1) = b.drop (l + t) := by
        rw [hI2]
        exact List.drop_left' hP2len
      rw [htk, hdr]
      have hRstrict : ∀ y ∈ b.drop (l + t), end_ < y := by
        apply strict_after _ end_ (hpw.sublist (List.drop_sublist _ b)) hRweak
        by_cases hR0 : b.drop (l + t) = []
        · exact Or.inl hR0
        · right
          have hRne : (b.drop (l + t)).length ≠ 0 := by
            intro h0
            exact hR0 (List.length_eq_zero.mp h0)
          rw [hRlen] at hRne
          have hne2 : l + t + 1 ≠ (b.insertIdx l start).length := by
            rw [hIlen]
            omega
          have hhead : (b.insertIdx l start).getD (l + t + 1) 0 =
              (b.drop (l + t)).getD 0 0 := by
            rw [hI2, show l + t + 1 =
              (b.take l ++ start :: (b.drop l).take t).length + 0
              by rw [hP2len]]
            exact getD_append_self _ _ 0 (by rw [hRlen]; omega)
          rcases not_and_or.mp hc2 with h | h
          · exact absurd (not_not.mp h) hne2
          · rw [← hhead]
            exact h
      refine ⟨List.pairwise_append.mpr ⟨?_, ?_, ?_⟩, ?_⟩
      · have hsub : (b.take l ++ start :: (b.drop l).take t).Sublist
            (b.insertIdx l start) := by
          rw [hI2]
          exact List.sublist_append_left _ _
        exact hIpw.sublist hsub
      · exact List.pairwise_cons.mpr
          ⟨hRstrict, hpw.sublist (List.drop_sublist _ b)⟩
      · intro x hx y hy
        rcases List.mem_cons.mp hy with h | h
        · rw [h]
          exact hP2lt x hx
        · exact hP2R x hx y h
      · rw [List.length_append, hP2len, List.length_cons, hRlen]
        omega

/-- `RangeSet.toggle` preserves well-formedness. -/
theorem toggle_WF (rs : RangeSet) (start end_ : Int) (h : WF rs) :
    WF (rs.toggle start end_) := by
  obtain ⟨⟨hpw, hev⟩, hcnt⟩ := h
  by_cases h1 : ¬ start < end_
  · have heq : rs.toggle start end_ = rs := by rw [RangeSet.toggle, if_pos h1]
    rw [heq]
    exact ⟨⟨hpw, hev⟩, hcnt⟩
  · push_neg at h1
    by_cases h2 : rs.count = 0
    · have heq : rs.toggle start end_ =
          ⟨rs.bounds ++ [start, end_], rs.count + (end_ - start)⟩ := by
        rw [RangeSet.toggle, if_neg (not_not_intro h1)]
        show (if rs.count = 0 then _ else _) = _
        rw [if_pos h2]
      rw [heq]
      have hbe : rs.bounds = [] := WF_count_zero rs ⟨⟨hpw, hev⟩, hcnt⟩ h2
      rw [hbe, h2]
      refine ⟨⟨?_, ?_⟩, ?_⟩
      · show ([] ++ [start, end_] : List Int).Pairwise (· < ·)
        rw [List.nil_append]
        exact List.pairwise_cons.mpr ⟨fun y hy => by
            have hye : y = end_ := by simpa using hy
            omega,
          List.pairwise_singleton _ _⟩
      · show ([] ++ [start, end_] : List Int).length % 2 = 0
        simp
      · show (0 : Int) + (end_ - start) = countVal ([] ++ [start, end_])
        rw [List.nil_append, countVal_two]
        ring
    · obtain ⟨hl1, hl2, hl3⟩ := lowerBound_spec rs.bounds start hpw
        (rs.bounds.length + 1) 0 rs.bounds.length (Nat.zero_le _) (le_refl _)
        (by omega) (fun j hj => absurd hj (Nat.not_lt_zero j))
        (fun j hj hjl => absurd hjl (by omega))
      obtain ⟨hs1, hs2, hs3⟩ := toggleScanGo_spec end_
        (rs.bounds.drop
          (lowerBound rs.bounds start (rs.bounds.length + 1) 0 rs.bounds.length))
      have heq : rs.toggle start end_ =
          ⟨toggleB2 end_ (toggleBr rs.bounds start
              (lowerBound rs.bounds start (rs.bounds.length + 1) 0
                rs.bounds.length)
              (lowerBound rs.bounds start (rs.bounds.length + 1) 0
                  rs.bounds.length +
                toggleScanGo end_ (rs.bounds.drop (lowerBound rs.bounds start
                  (rs.bounds.length + 1) 0 rs.bounds.length)))),
            countVal (toggleB2 end_ (toggleBr rs.bounds start
              (lowerBound rs.bounds start (rs.bounds.length + 1) 0
                rs.bounds.length)
              (lowerBound rs.bounds start (rs.bounds.length + 1) 0
                  rs.bounds.length +
                toggleScanGo end_ (rs.bounds.drop (lowerBound rs.bounds start
                  (rs.bounds.length + 1) 0 rs.bounds.length)))))⟩ := by
        rw [RangeSet.toggle, if_neg (not_not_intro h1)]
        show (if rs.count = 0 then _ else _) = _
        rw [if_neg h2]
        rfl
      rw [heq]
      refine ⟨toggleSurgery_WFb rs.bounds start end_ _ _ hpw hev h1 hl1 hl2 hl3
        ?_ ?_ ?_, rfl⟩
      · rwa [List.length_drop] at hs1
      · exact hs2
      · intro hlt
        exact hs3 (by rw [List.length_drop]; exact hlt)

/-! ### The set denoted by `toggle`

Membership in the set of a well-formed bounds list is the parity of the
number of bounds that are `≤ i`; `toggle` only inserts or erases the two
boundary values `start` and `end`, so its effect on membership is a pointwise
exclusive or with `[start, end)`. -/

def countLE (b : List Int) (i : Int) : Nat :=
  (b.filter (fun v => decide (v ≤ i))).length

theorem countLE_append (A B : List Int) (i : Int) :
    countLE (A ++ B) i = countLE A i + countLE B i := by
  show ((A ++ B).filter _).length = _
  rw [List.filter_append, List.length_append]
  rfl

theorem countLE_cons (v : Int) (rest : List Int) (i : Int) :
    countLE (v :: rest) i = (if v ≤ i then 1 else 0) + countLE rest i := by
  by_cases h : v ≤ i
  · rw [if_pos h]
    show ((v :: rest).filter (fun v => decide (v ≤ i))).length = _
    rw [List.filter_cons_of_pos (by simpa using h), List.length_cons]
    show countLE rest i + 1 = 1 + countLE rest i
    omega
  · rw [if_neg h]
    show ((v :: rest).filter (fun v => decide (v ≤ i))).length = _
    rw [List.filter_cons_of_neg (by simpa using h)]
    show countLE rest i = 0 + countLE rest i
    omega

theorem MemS_iff_countLE_odd : ∀ (b : List Int), b.Pairwise (· < ·) →
    b.length % 2 = 0 → ∀ i, (MemS (pairsOf b) i ↔ countLE b i % 2 = 1) := by
  intro b
  induction b using pairsOf.induct with
  | case1 s e rest ih =>
    intro hpw heven i
    have hpc := List.pairwise_cons.mp hpw
    have hpc2 := List.pairwise_cons.mp hpc.2
    have hse : s < e := hpc.1 e (by simp)
    have hrest : ∀ v ∈ rest, e < v := hpc2.1
    have hrestp : ∀ p ∈ pairsOf rest, e < p.1 :=
      fun p hp => hrest p.1 (pairsOf_mem_mem rest p hp).1
    have ihi := ih hpc2.2 (by simp only [List.length_cons] at heven; omega) i
    rw [show pairsOf (s :: e :: rest) = (s, e) :: pairsOf rest from rfl,
      MemS_cons, countLE_cons, countLE_cons]
    by_cases h1 : i < s
    · have hr0 : countLE rest i = 0 := by
        show (rest.filter _).length = 0
        rw [List.filter_eq_nil_iff.mpr (fun a ha => by
          simp only [decide_eq_true_eq]
          have := hrest a ha
          omega)]
        rfl
      refine iff_of_false ?_ ?_
      · rintro (⟨hA, _⟩ | ⟨p, hp, hp1, _⟩)
        · omega
        · have := hrestp p hp
          omega
      · rw [if_neg (by omega), if_neg (by omega), hr0]
        omega
    · by_cases h2 : i < e
      · have hr0 : countLE rest i = 0 := by
          show (rest.filter _).length = 0
          rw [List.filter_eq_nil_iff.mpr (fun a ha => by
            simp only [decide_eq_true_eq]
            have := hrest a ha
            omega)]
          rfl
        refine iff_of_true (Or.inl ⟨by omega, h2⟩) ?_
        rw [if_pos (by omega), if_neg (by omega), hr0]
      · rw [if_pos (by omega), if_pos (by omega)]
        constructor
        · rintro (⟨_, hA⟩ | hm)
          · omega
          · have := ihi.mp hm
            omega
        · intro hcount
          exact Or.inr (ihi.mpr (by omega))
  | case2 B h2 =>
    intro hpw heven i
    match B, h2 with
    | [], _ =>
      refine iff_of_false (MemS_nil i) ?_
      show ((List.filter _ []).length) % 2 = 1 → False
      simp
    | [x], _ => simp at heven
    | s :: e :: rest, h2 => exact absurd rfl (h2 s e rest)

theorem countLE_eraseIdx (b : List Int) (l : Nat) (i : Int) (hl : l < b.length) :
    countLE b i = countLE (b.eraseIdx l) i +
      (if b.getD l 0 ≤ i then 1 else 0) := by
  have hb : b = b.take l ++ (b.getD l 0 :: b.drop (l + 1)) := by
    conv_lhs => rw [← List.take_append_drop l b]
    rw [List.drop_eq_getElem_cons hl, List.getD_eq_getElem _ 0 hl]
  rw [List.eraseIdx_eq_take_drop_succ]
  conv_lhs => rw [hb]
  rw [countLE_append, countLE_cons, countLE_append]
  by_cases hc : b.getD l 0 ≤ i
  · rw [if_pos hc]
    omega
  · rw [if_neg hc]
    omega

theorem countLE_insertIdx (b : List Int) (l : Nat) (v i : Int)
    (hl : l ≤ b.length) :
    countLE (b.insertIdx l v) i = countLE b i + (if v ≤ i then 1 else 0) := by
  rw [insertIdx_take_drop v l b hl, countLE_append, countLE_cons]
  conv_rhs => rw [← List.take_append_drop l b]
  rw [countLE_append]
  by_cases hc : v ≤ i
  · rw [if_pos hc]
    omega
  · rw [if_neg hc]
    omega

/-- `toggle`'s boundary surgery changes the number of bounds `≤ i` by exactly
the two indicators of `start ≤ i` and `end ≤ i`, modulo 2. -/
theorem toggleSurgery_countLE (b : List Int) (start end_ : Int) (l t : Nat)
    (hll : l ≤ b.length) (htl : t ≤ b.length - l) (i : Int) :
    countLE (toggleB2 end_ (toggleBr b start l (l + t))) i % 2 =
      (countLE b i + (if start ≤ i then 1 else 0) +
        (if end_ ≤ i then 1 else 0)) % 2 := by
  by_cases hc1 : l ≠ b.length ∧ start = b.getD l 0
  · have hbr : toggleBr b start l (l + t) = (b.eraseIdx l, l + t - 1) := by
      rw [toggleBr, if_pos hc1]
    rw [hbr]
    have hlt : l < b.length := by
      rcases hc1 with ⟨h, _⟩
      omega
    have hELlen : (b.eraseIdx l).length = b.length - 1 :=
      List.length_eraseIdx_of_lt hlt
    set ds := (if start ≤ i then (1 : Nat) else 0) with hds
    set de := (if end_ ≤ i then (1 : Nat) else 0) with hde
    have hE : countLE b i = countLE (b.eraseIdx l) i + ds := by
      rw [countLE_eraseIdx b l i hlt, ← hc1.2, ← hds]
    by_cases hc2 : l + t - 1 ≠ (b.eraseIdx l).length ∧
        end_ = (b.eraseIdx l).getD (l + t - 1) 0
    · have hb2 : toggleB2 end_ (b.eraseIdx l, l + t - 1) =
          (b.eraseIdx l).eraseIdx (l + t - 1) := by
        rw [toggleB2]
        dsimp only
        rw [if_pos hc2]
      rw [hb2]
      have hlt2 : l + t - 1 < (b.eraseIdx l).length := by
        rcases hc2 with ⟨hne, _⟩
        rw [hELlen] at hne ⊢
        omega
      have hE2 : countLE (b.eraseIdx l) i =
          countLE ((b.eraseIdx l).eraseIdx (l + t - 1)) i + de := by
        rw [countLE_eraseIdx _ _ i hlt2, ← hc2.2, ← hde]
      omega
    · have hb2 : toggleB2 end_ (b.eraseIdx l, l + t - 1) =
          (b.eraseIdx l).insertIdx (l + t - 1) end_ := by
        rw [toggleB2]
        dsimp only
        rw [if_neg hc2]
      rw [hb2]
      have hle2 : l + t - 1 ≤ (b.eraseIdx l).length := by
        rw [hELlen]
        omega
      have hE2 : countLE ((b.eraseIdx l).insertIdx (l + t - 1) end_) i =
          countLE (b.eraseIdx l) i + de := by
        rw [countLE_insertIdx _ _ end_ i hle2, ← hde]
      omega
  · have hbr : toggleBr b start l (l + t) = (b.insertIdx l start, l + t + 1) := by
      rw [toggleBr, if_neg hc1]
    rw [hbr]
    have hIlen : (b.insertIdx l start).length = b.length + 1 :=
      List.length_insertIdx l b hll
    set ds := (if start ≤ i then (1 : Nat) else 0) with hds
    set de := (if end_ ≤ i then (1 : Nat) else 0) with hde
    have hI : countLE (b.insertIdx l start) i = countLE b i + ds := by
      rw [countLE_insertIdx b l start i hll, ← hds]
    by_cases hc2 : l + t + 1 ≠ (b.insertIdx l start).length ∧
        end_ = (b.insertIdx l start).getD (l + t + 1) 0
    · have hb2 : toggleB2 end_ (b.insertIdx l start, l + t + 1) =
          (b.insertIdx l start).eraseIdx (l + t + 1) := by
        rw [toggleB2]
        dsimp only
        rw [if_pos hc2]
      rw [hb2]
      have hlt2 : l + t + 1 < (b.insertIdx l start).length := by
        rcases hc2 with ⟨hne, _⟩
        rw [hIlen] at hne ⊢
        omega
      have hE2 : countLE (b.insertIdx l start) i =
          countLE ((b.insertIdx l start).eraseIdx (l + t + 1)) i + de := by
        rw [countLE_eraseIdx _ _ i hlt2, ← hc2.2, ← hde]
      omega
    · have hb2 : toggleB2 end_ (b.insertIdx l start, l + t + 1) =
          (b.insertIdx l start).insertIdx (l + t + 1) end_ := by
        rw [toggleB2]
        dsimp only
        rw [if_neg hc2]
      rw [hb2]
      have hle2 : l + t + 1 ≤ (b.insertIdx l start).length := by
        rw [hIlen]
        omega
      have hE2 : countLE ((b.insertIdx l start).insertIdx (l + t + 1) end_) i =
          countLE (b.insertIdx l start) i + de := by
        rw [countLE_insertIdx _ _ end_ i hle2, ← hde]
      omega

/-- `RangeSet.toggle` computes exactly the symmetric difference with the
interval `[start, end)`. -/
theorem toggle_mem (rs : RangeSet) (start end_ i : Int) (h : WF rs) :
    MemS (pairsOf (rs.toggle start end_).bounds) i ↔
      Xor' (MemS (pairsOf rs.bounds) i) (start ≤ i ∧ i < end_) := by
  obtain ⟨⟨hpw, hev⟩, hcnt⟩ := h
  by_cases h1 : ¬ start < end_
  · have heq : rs.toggle start end_ = rs := by rw [RangeSet.toggle, if_pos h1]
    rw [heq]
    have hint : ¬(start ≤ i ∧ i < end_) := by omega
    constructor
    · intro hm
      exact Or.inl ⟨hm, hint⟩
    · rintro (⟨hm, _⟩ | ⟨hi', _⟩)
      · exact hm
      · exact absurd hi' hint
  · push_neg at h1
    by_cases h2 : rs.count = 0
    · have heq : rs.toggle start end_ =
          ⟨rs.bounds ++ [start, end_], rs.count + (end_ - start)⟩ := by
        rw [RangeSet.toggle, if_neg (not_not_intro h1)]
        show (if rs.count = 0 then _ else _) = _
        rw [if_pos h2]
      have hbe : rs.bounds = [] := WF_count_zero rs ⟨⟨hpw, hev⟩, hcnt⟩ h2
      rw [heq, hbe]
      rw [show ([] : List Int) ++ [start, end_] = [start, end_] from
        List.nil_append _]
      rw [show pairsOf [start, end_] = [(start, end_)] from rfl, MemS_cons]
      constructor
      · rintro (h' | hnil)
        · exact Or.inr ⟨h', MemS_nil i⟩
        · exact absurd hnil (MemS_nil i)
      · rintro (⟨hm, _⟩ | ⟨hi', _⟩)
        · exact absurd hm (MemS_nil i)
        · exact Or.inl hi'
    · obtain ⟨hl1, hl2, hl3⟩ := lowerBound_spec rs.bounds start hpw
        (rs.bounds.length + 1) 0 rs.bounds.length (Nat.zero_le _) (le_refl _)
        (by omega) (fun j hj => absurd hj (Nat.not_lt_zero j))
        (fun j hj hjl => absurd hjl (by omega))
      obtain ⟨hs1, hs2, hs3⟩ := toggleScanGo_spec end_
        (rs.bounds.drop
          (lowerBound rs.bounds start (rs.bounds.length + 1) 0 rs.bounds.length))
      have heq : rs.toggle start end_ =
          ⟨toggleB2 end_ (toggleBr rs.bounds start
              (lowerBound rs.bounds start (rs.bounds.length + 1) 0
                rs.bounds.length)
              (lowerBound rs.bounds start (rs.bounds.length + 1) 0
                  rs.bounds.length +
                toggleScanGo end_ (rs.bounds.drop (lowerBound rs.bounds start
                  (rs.bounds.length + 1) 0 rs.bounds.length)))),
            countVal (toggleB2 end_ (toggleBr rs.bounds start
              (lowerBound rs.bounds start (rs.bounds.length + 1) 0
                rs.bounds.length)
              (lowerBound rs.bounds start (rs.bounds.length + 1) 0
                  rs.bounds.length +
                toggleScanGo end_ (rs.bounds.drop (lowerBound rs.bounds start
                  (rs.bounds.length + 1) 0 rs.bounds.length)))))⟩ := by
        rw [RangeSet.toggle, if_neg (not_not_intro h1)]
        show (if rs.count = 0 then _ else _) = _
        rw [if_neg h2]
        rfl
      rw [heq]
      have hwfb2 := toggleSurgery_WFb rs.bounds start end_
        (lowerBound rs.bounds start (rs.bounds.length + 1) 0 rs.bounds.length)
        (toggleScanGo end_ (rs.bounds.drop (lowerBound rs.bounds start
          (rs.bounds.length + 1) 0 rs.bounds.length)))
        hpw hev h1 hl1 hl2 hl3
        (by rwa [List.length_drop] at hs1) hs2
        (fun hlt => hs3 (by rw [List.length_drop]; exact hlt))
      have hml := MemS_iff_countLE_odd _ hwfb2.1 hwfb2.2 i
      have hmb := MemS_iff_countLE_odd rs.bounds hpw hev i
      have hcntp := toggleSurgery_countLE rs.bounds start end_
        (lowerBound rs.bounds start (rs.bounds.length + 1) 0 rs.bounds.length)
        (toggleScanGo end_ (rs.bounds.drop (lowerBound rs.bounds start
          (rs.bounds.length + 1) 0 rs.bounds.length)))
        hl1 (by rwa [List.length_drop] at hs1) i
      show MemS (pairsOf (toggleB2 end_ (toggleBr rs.bounds start _ _))) i ↔ _
      rw [hml, hmb, hcntp]
      simp only [Xor']
      by_cases hsi : start ≤ i
      all_goals by_cases hei : end_ ≤ i
      · rw [if_pos hsi, if_pos hei]
        omega
      · rw [if_pos hsi, if_neg hei]
        omega
      · rw [if_neg hsi, if_pos hei]
        omega
      · rw [if_neg hsi, if_neg hei]
        omega

/-! ### The merge loop of `union` -/

/-- A well-formed list of ranges: each nonempty, pairwise separated.  This is
what `pairsOf` of well-formed bounds yields. -/
def RL (ps : List (Int × Int)) : Prop :=
  (∀ p ∈ ps, p.1 < p.2) ∧ ps.Pairwise (fun p q => p.2 < q.1)

theorem RL_of_WFb (b : List Int) (hpw : b.Pairwise (· < ·)) : RL (pairsOf b) :=
  pairsOf_of_pairwise b hpw

theorem RL_tail (p : Int × Int) (ps : List (Int × Int)) (h : RL (p :: ps)) :
    RL ps :=
  ⟨fun q hq => h.1 q (List.mem_cons_of_mem p hq), (List.pairwise_cons.mp h.2).2⟩

theorem RL_head_lt (p : Int × Int) (ps : List (Int × Int)) (h : RL (p :: ps)) :
    ∀ q ∈ ps, p.2 < q.1 :=
  (List.pairwise_cons.mp h.2).1

theorem hiLE_none (v : Int) : hiLE v none = false := rfl

theorem hiLT_none (v : Int) : hiLT v none = false := rfl

theorem hiLE_some (v lh : Int) : hiLE v (some lh) = decide (v ≤ lh) := rfl

theorem hiLT_some (v lh : Int) : hiLT v (some lh) = decide (v < lh) := rfl

/-- Every element of an ascending bounds list ending in `[ls, lh]` is at most
`lh`. -/
theorem le_of_last (A : List Int) (ls lh : Int)
    (hpw : (A ++ [ls, lh]).Pairwise (· < ·)) :
    ∀ x ∈ A ++ [ls, lh], x ≤ lh := by
  obtain ⟨hA, hM, hX⟩ := List.pairwise_append.mp hpw
  have hlslh : ls < lh := (List.pairwise_cons.mp hM).1 lh (by simp)
  intro x hx
  rcases List.mem_append.mp hx with h | h
  · have := hX x h lh (by simp)
    omega
  · rcases List.mem_cons.mp h with h | h
    · omega
    · have : x = lh := by simpa using h
      omega

theorem accAppend_pw (acc : List Int) (lo hi : Int)
    (hpw : acc.Pairwise (· < ·)) (hbound : ∀ x ∈ acc, x < lo)
    (hlohi : lo < hi) : (acc ++ [lo, hi]).Pairwise (· < ·) := by
  refine List.pairwise_append.mpr ⟨hpw, ?_, ?_⟩
  · exact List.pairwise_cons.mpr ⟨fun y hy => by
      rcases List.mem_cons.mp hy with h | h
      · omega
      · have : y = hi := by simpa using h
        omega, List.pairwise_singleton _ _⟩
  · intro x hx y hy
    have := hbound x hx
    have : y = lo ∨ y = hi := by simpa using hy
    rcases this with h | h <;> omega

theorem accAppend_cnt (acc : List Int) (lo hi : Int)
    (hev : acc.length % 2 = 0) :
    countVal (acc ++ [lo, hi]) = countVal acc + (hi - lo) := by
  rw [countVal_append _ _ hev, countVal_two]

theorem accAppend_mem (acc : List Int) (lo hi : Int)
    (hev : acc.length % 2 = 0) (i : Int) :
    MemS (pairsOf (acc ++ [lo, hi])) i ↔
      (MemS (pairsOf acc) i ∨ (lo ≤ i ∧ i < hi)) := by
  rw [pairsOf_append acc hev, MemS_append,
    show pairsOf [lo, hi] = [(lo, hi)] from rfl, MemS_cons]
  constructor
  · rintro (h | h | hnil)
    · exact Or.inl h
    · exact Or.inr h
    · exact absurd hnil (MemS_nil i)
  · rintro (h | h)
    · exact Or.inl h
    · exact Or.inr (Or.inl h)

theorem accMerge_pw (A : List Int) (ls lh hi : Int)
    (hpw : (A ++ [ls, lh]).Pairwise (· < ·)) (hh : lh ≤ hi) :
    (A ++ [ls, hi]).Pairwise (· < ·) := by
  obtain ⟨hA, hM, hX⟩ := List.pairwise_append.mp hpw
  have hlslh : ls < lh := (List.pairwise_cons.mp hM).1 lh (by simp)
  refine List.pairwise_append.mpr ⟨hA, ?_, ?_⟩
  · exact List.pairwise_cons.mpr ⟨fun y hy => by
      have : y = hi := by simpa using hy
      omega, List.pairwise_singleton _ _⟩
  · intro x hx y hy
    have h1 := hX x hx ls (by simp)
    have : y = ls ∨ y = hi := by simpa using hy
    rcases this with h | h <;> omega

theorem accMerge_cnt (A : List Int) (ls lh hi : Int)
    (hev : A.length % 2 = 0) :
    countVal (A ++ [ls, hi]) = countVal (A ++ [ls, lh]) + (hi - lh) := by
  rw [countVal_append _ _ hev, countVal_append _ _ hev, countVal_two,
    countVal_two]
  ring

theorem accMerge_mem (A : List Int) (ls lh lo hi : Int)
    (hev : A.length % 2 = 0)
    (h1 : ls ≤ lo) (h2 : lo ≤ lh) (h3 : lh ≤ hi) (i : Int) :
    MemS (pairsOf (A ++ [ls, hi])) i ↔
      (MemS (pairsOf (A ++ [ls, lh])) i ∨ (lo ≤ i ∧ i < hi)) := by
  rw [pairsOf_append A hev, pairsOf_append A hev, MemS_append, MemS_append,
    show pairsOf [ls, hi] = [(ls, hi)] from rfl,
    show pairsOf [ls, lh] = [(ls, lh)] from rfl, MemS_cons, MemS_cons]
  constructor
  · rintro (h | h | hnil)
    · exact Or.inl (Or.inl h)
    · by_cases hc : i < lh
      · exact Or.inl (Or.inr (Or.inl ⟨h.1, hc⟩))
      · exact Or.inr ⟨by omega, h.2⟩
    · exact absurd hnil (MemS_nil i)
  · rintro ((h | h | hnil) | h)
    · exact Or.inl h
    · exact Or.inr (Or.inl ⟨h.1, by omega⟩)
    · exact absurd hnil (MemS_nil i)
    · exact Or.inr (Or.inl ⟨by omega, h.2⟩)

/-- The interval of the last stored range is contained in the denoted set. -/
theorem mem_of_last (A : List Int) (ls lh i : Int) (hev : A.length % 2 = 0)
    (h1 : ls ≤ i) (h2 : i < lh) : MemS (pairsOf (A ++ [ls, lh])) i := by
  rw [pairsOf_append A hev, MemS_append,
    show pairsOf [ls, lh] = [(ls, lh)] from rfl, MemS_cons]
  exact Or.inr (Or.inl ⟨h1, h2⟩)

/-- The verbatim tail append of `addRest`: once past the merge point, the
remaining ranges are copied as-is. -/
theorem unionFoldAppend_spec : ∀ (rest : List (Int × Int))
    (st : List Int × Int) (A2 : List Int) (ls2 lh2 : Int),
    st.1 = A2 ++ [ls2, lh2] → st.1.Pairwise (· < ·) → st.1.length % 2 = 0 →
    st.2 = countVal st.1 →
    RL rest → (∀ p ∈ rest, lh2 < p.1) →
    (rest.foldl (fun st p => (st.1 ++ [p.1, p.2], st.2 + (p.2 - p.1)))
        st).1.Pairwise (· < ·) ∧
    (rest.foldl (fun st p => (st.1 ++ [p.1, p.2], st.2 + (p.2 - p.1)))
        st).1.length % 2 = 0 ∧
    (rest.foldl (fun st p => (st.1 ++ [p.1, p.2], st.2 + (p.2 - p.1))) st).2 =
      countVal (rest.foldl
        (fun st p => (st.1 ++ [p.1, p.2], st.2 + (p.2 - p.1))) st).1 ∧
    (∀ i, MemS (pairsOf (rest.foldl
        (fun st p => (st.1 ++ [p.1, p.2], st.2 + (p.2 - p.1))) st).1) i ↔
      (MemS (pairsOf st.1) i ∨ MemS rest i)) := by
  intro rest
  induction rest with
  | nil =>
    intro st A2 ls2 lh2 hshape hpw hev hcnt hRL hlow
    refine ⟨hpw, hev, hcnt, ?_⟩
    intro i
    constructor
    · exact fun h => Or.inl h
    · rintro (h | h)
      · exact h
      · exact absurd h (MemS_nil i)
  | cons p rest ih =>
    intro st A2 ls2 lh2 hshape hpw hev hcnt hRL hlow
    simp only [List.foldl_cons]
    have hlohi : p.1 < p.2 := hRL.1 p (List.mem_cons_self p rest)
    have hbound : ∀ x ∈ st.1, x < p.1 := by
      intro x hx
      rw [hshape] at hx
      have := le_of_last A2 ls2 lh2 (hshape ▸ hpw) x hx
      have := hlow p (List.mem_cons_self p rest)
      omega
    have hpw' : (st.1 ++ [p.1, p.2]).Pairwise (· < ·) :=
      accAppend_pw st.1 p.1 p.2 hpw hbound hlohi
    have hev' : (st.1 ++ [p.1, p.2]).length % 2 = 0 := by
      simp only [List.length_append, List.length_cons, List.length_nil]
      omega
    have hstep := ih (st.1 ++ [p.1, p.2], st.2 + (p.2 - p.1)) st.1 p.1 p.2
      rfl hpw' hev'
      (by
        show st.2 + (p.2 - p.1) = countVal (st.1 ++ [p.1, p.2])
        rw [accAppend_cnt st.1 p.1 p.2 hev, hcnt])
      (RL_tail p rest hRL)
      (fun q hq => RL_head_lt p rest hRL q hq)
    refine ⟨hstep.1, hstep.2.1, hstep.2.2.1, ?_⟩
    intro i
    rw [hstep.2.2.2 i]
    show (MemS (pairsOf (st.1 ++ [p.1, p.2])) i ∨ MemS rest i) ↔ _
    rw [accAppend_mem st.1 p.1 p.2 hev i, MemS_cons]
    constructor
    · rintro ((h | h) | h)
      · exact Or.inl h
      · exact Or.inr (Or.inl h)
      · exact Or.inr (Or.inr h)
    · rintro (h | h | h)
      · exact Or.inl (Or.inl h)
      · exact Or.inl (Or.inr h)
      · exact Or.inr h

theorem addRest_none_spec : ∀ (ps : List (Int × Int)), RL ps →
    (addRest none [] 0 ps).1.Pairwise (· < ·) ∧
    (addRest none [] 0 ps).1.length % 2 = 0 ∧
    (addRest none [] 0 ps).2 = countVal (addRest none [] 0 ps).1 ∧
    (∀ i, MemS (pairsOf (addRest none [] 0 ps).1) i ↔ MemS ps i) := by
  intro ps hRL
  cases ps with
  | nil =>
    refine ⟨List.Pairwise.nil, rfl, rfl, ?_⟩
    intro i
    exact iff_of_false (MemS_nil i) (MemS_nil i)
  | cons p ps =>
    obtain ⟨lo, hi⟩ := p
    have hlohi : lo < hi := hRL.1 (lo, hi) (List.mem_cons_self _ _)
    have hval : addRest none [] 0 ((lo, hi) :: ps) =
        ps.foldl (fun st p => (st.1 ++ [p.1, p.2], st.2 + (p.2 - p.1)))
          (([] : List Int) ++ [lo, hi], 0 + (hi - lo)) := rfl
    rw [hval]
    have hfold := unionFoldAppend_spec ps
      (([] : List Int) ++ [lo, hi], 0 + (hi - lo)) [] lo hi rfl
      (accAppend_pw [] lo hi List.Pairwise.nil
        (fun x hx => absurd hx (List.not_mem_nil x)) hlohi)
      (by simp)
      (by
        show (0 : Int) + (hi - lo) = countVal (([] : List Int) ++ [lo, hi])
        rw [accAppend_cnt ([] : List Int) lo hi rfl]
        show (0 : Int) + (hi - lo) = 0 + (hi - lo)
        rfl)
      (RL_tail (lo, hi) ps hRL)
      (fun q hq => RL_head_lt (lo, hi) ps hRL q hq)
    refine ⟨hfold.1, hfold.2.1, hfold.2.2.1, ?_⟩
    intro i
    rw [hfold.2.2.2 i, accAppend_mem ([] : List Int) lo hi rfl i, MemS_cons]
    dsimp only
    constructor
    · rintro ((hnil | h) | h)
      · exact absurd hnil (MemS_nil i)
      · exact Or.inl h
      · exact Or.inr h
    · rintro (h | h)
      · exact Or.inl (Or.inr h)
      · exact Or.inr h

theorem addRest_some_spec (lh : Int) (A : List Int) (ls : Int) (count : Int)
    (hpw : (A ++ [ls, lh]).Pairwise (· < ·))
    (hev : (A ++ [ls, lh]).length % 2 = 0)
    (hcnt : count = countVal (A ++ [ls, lh])) :
    ∀ (ps : List (Int × Int)), RL ps → (∀ p ∈ ps, ls ≤ p.1) →
    (addRest (some lh) (A ++ [ls, lh]) count ps).1.Pairwise (· < ·) ∧
    (addRest (some lh) (A ++ [ls, lh]) count ps).1.length % 2 = 0 ∧
    (addRest (some lh) (A ++ [ls, lh]) count ps).2 =
      countVal (addRest (some lh) (A ++ [ls, lh]) count ps).1 ∧
    (∀ i, MemS (pairsOf (addRest (some lh) (A ++ [ls, lh]) count ps).1) i ↔
      (MemS (pairsOf (A ++ [ls, lh])) i ∨ MemS ps i)) := by
  have heA : A.length % 2 = 0 := by
    simp only [List.length_append, List.length_cons, List.length_nil] at hev
    omega
  intro ps
  induction ps with
  | nil =>
    intro _ _
    refine ⟨hpw, hev, hcnt, ?_⟩
    intro i
    constructor
    · exact fun h => Or.inl h
    · rintro (h | h)
      · exact h
      · exact absurd h (MemS_nil i)
  | cons p ps ih =>
    intro hRL hlow
    obtain ⟨lo, hi⟩ := p
    have hlohi : lo < hi := hRL.1 (lo, hi) (List.mem_cons_self _ _)
    have hlo_ls : ls ≤ lo := hlow (lo, hi) (List.mem_cons_self _ _)
    have hval : addRest (some lh) (A ++ [ls, lh]) count ((lo, hi) :: ps) =
        if hiLT hi (some lh) then addRest (some lh) (A ++ [ls, lh]) count ps
        else (ps.foldl (fun st p => (st.1 ++ [p.1, p.2], st.2 + (p.2 - p.1)))
          (if hiLE lo (some lh) then
            ((A ++ [ls, lh]).dropLast ++ [hi],
              count + (hi - ((some lh).getD 0 : Int)))
          else ((A ++ [ls, lh]) ++ [lo, hi], count + (hi - lo)))) := rfl
    rw [hval, hiLT_some, hiLE_some]
    by_cases hsk : hi < lh
    · rw [if_pos (by simpa using hsk)]
      obtain ⟨ih1, ih2, ih3, ih4⟩ := ih (RL_tail _ _ hRL)
        (fun q hq => hlow q (List.mem_cons_of_mem _ hq))
      refine ⟨ih1, ih2, ih3, ?_⟩
      intro i
      rw [ih4 i, MemS_cons]
      dsimp only
      constructor
      · rintro (h | h)
        · exact Or.inl h
        · exact Or.inr (Or.inr h)
      · rintro (h | h | h)
        · exact Or.inl h
        · exact Or.inl (mem_of_last A ls lh i heA (by omega) (by omega))
        · exact Or.inr h
    · rw [if_neg (by simpa using hsk)]
      push_neg at hsk
      by_cases hmg : lo ≤ lh
      · rw [if_pos (by simpa using hmg)]
        have hstep1 : (A ++ [ls, lh]).dropLast ++ [hi] = A ++ [ls, hi] := by
          rw [show A ++ [ls, lh] = (A ++ [ls]) ++ [lh] by simp,
            List.dropLast_concat]
          simp
        rw [hstep1, show ((some lh).getD 0 : Int) = lh from rfl]
        have hfold := unionFoldAppend_spec ps
          (A ++ [ls, hi], count + (hi - lh)) A ls hi rfl
          (accMerge_pw A ls lh hi hpw hsk)
          (by
            simp only [List.length_append, List.length_cons, List.length_nil]
            omega)
          (by
            show count + (hi - lh) = countVal (A ++ [ls, hi])
            rw [accMerge_cnt A ls lh hi heA, hcnt])
          (RL_tail (lo, hi) ps hRL)
          (fun q hq => RL_head_lt (lo, hi) ps hRL q hq)
        refine ⟨hfold.1, hfold.2.1, hfold.2.2.1, ?_⟩
        intro i
        rw [hfold.2.2.2 i, accMerge_mem A ls lh lo hi heA hlo_ls hmg hsk i,
          MemS_cons]
        dsimp only
        constructor
        · rintro ((h | h) | h)
          · exact Or.inl h
          · exact Or.inr (Or.inl h)
          · exact Or.inr (Or.inr h)
        · rintro (h | h | h)
          · exact Or.inl (Or.inl h)
          · exact Or.inl (Or.inr h)
          · exact Or.inr h
      · rw [if_neg (by simpa using hmg)]
        push_neg at hmg
        have hbound : ∀ x ∈ A ++ [ls, lh], x < lo := by
          intro x hx
          have := le_of_last A ls lh hpw x hx
          omega
        have hfold := unionFoldAppend_spec ps
          ((A ++ [ls, lh]) ++ [lo, hi], count + (hi - lo)) (A ++ [ls, lh])
          lo hi rfl
          (accAppend_pw (A ++ [ls, lh]) lo hi hpw hbound hlohi)
          (by
            simp only [List.length_append, List.length_cons, List.length_nil]
            omega)
          (by
            show count + (hi - lo) = countVal ((A ++ [ls, lh]) ++ [lo, hi])
            rw [accAppend_cnt (A ++ [ls, lh]) lo hi hev, hcnt])
          (RL_tail (lo, hi) ps hRL)
          (fun q hq => RL_head_lt (lo, hi) ps hRL q hq)
        refine ⟨hfold.1, hfold.2.1, hfold.2.2.1, ?_⟩
        intro i
        rw [hfold.2.2.2 i, accAppend_mem (A ++ [ls, lh]) lo hi hev i, MemS_cons]
        dsimp only
        constructor
        · rintro ((h | h) | h)
          · exact Or.inl h
          · exact Or.inr (Or.inl h)
          · exact Or.inr (Or.inr h)
        · rintro (h | h | h)
          · exact Or.inl (Or.inl h)
          · exact Or.inl (Or.inr h)
          · exact Or.inr h

/-- The merge-loop invariant of `union`: with enough fuel, from a sorted
accumulator ending at the open range `[ls, lh)` that lower-bounds the
remaining ranges, the loop produces well-formed bounds, an exact count, and
denotes the union of the accumulator's set with the remaining ranges. -/
theorem unionGo_spec : ∀ (fuel : Nat) (xs ys : List (Int × Int))
    (lastHi : Option Int) (acc : List Int) (count : Int),
    xs.length + ys.length ≤ fuel →
    RL xs → RL ys →
    (match lastHi with
     | none => acc = [] ∧ count = 0
     | some lh => ∃ A ls, acc = A ++ [ls, lh] ∧ acc.Pairwise (· < ·) ∧
         acc.length % 2 = 0 ∧ count = countVal acc ∧
         (∀ p ∈ xs, ls ≤ p.1) ∧ (∀ p ∈ ys, ls ≤ p.1)) →
    (unionGo fuel xs ys lastHi acc count).1.Pairwise (· < ·) ∧
    (unionGo fuel xs ys lastHi acc count).1.length % 2 = 0 ∧
    (unionGo fuel xs ys lastHi acc count).2 =
      countVal (unionGo fuel xs ys lastHi acc count).1 ∧
    (∀ i, MemS (pairsOf (unionGo fuel xs ys lastHi acc count).1) i ↔
      (MemS (pairsOf acc) i ∨ MemS xs i ∨ MemS ys i)) := by
  intro fuel
  induction fuel with
  | zero =>
    intro xs ys lastHi acc count hfuel hRLx hRLy hmatch
    have hxs : xs = [] := List.length_eq_zero.mp (by omega)
    have hys : ys = [] := List.length_eq_zero.mp (by omega)
    subst hxs
    subst hys
    have hval : unionGo 0 [] [] lastHi acc count = (acc, count) := rfl
    rw [hval]
    have hcore : acc.Pairwise (· < ·) ∧ acc.length % 2 = 0 ∧
        count = countVal acc := by
      rcases lastHi with _ | lh
      · have h' : acc = [] ∧ count = 0 := hmatch
        rw [h'.1, h'.2]
        exact ⟨List.Pairwise.nil, rfl, rfl⟩
      · obtain ⟨A, ls, hsh, hpwa, heva, hcnta, _, _⟩ := hmatch
        exact ⟨hpwa, heva, hcnta⟩
    refine ⟨hcore.1, hcore.2.1, hcore.2.2, ?_⟩
    intro i
    constructor
    · exact fun h => Or.inl h
    · rintro (h | h | h)
      · exact h
      · exact absurd h (MemS_nil i)
      · exact absurd h (MemS_nil i)
  | succ fuel ih =>
    intro xs ys lastHi acc count hfuel hRLx hRLy hmatch
    rcases xs with _ | ⟨⟨tl, th⟩, xs⟩
    · -- xs exhausted: addRest over ys
      have hval : unionGo (fuel + 1) [] ys lastHi acc count =
          addRest lastHi acc count ys := by
        cases ys with
        | nil => rfl
        | cons p ys =>
          rcases p with ⟨a, b⟩
          rfl
      rw [hval]
      rcases lastHi with _ | lh
      · have h' : acc = [] ∧ count = 0 := hmatch
        rw [h'.1, h'.2]
        obtain ⟨h1, h2, h3, h4⟩ := addRest_none_spec ys hRLy
        refine ⟨h1, h2, h3, ?_⟩
        intro i
        rw [h4 i]
        constructor
        · exact fun h => Or.inr (Or.inr h)
        · rintro (h | h | h)
          · exact absurd h (MemS_nil i)
          · exact absurd h (MemS_nil i)
          · exact h
      · obtain ⟨A, ls, hsh, hpwa, heva, hcnta, _, hby⟩ := hmatch
        subst hsh
        obtain ⟨h1, h2, h3, h4⟩ := addRest_some_spec lh A ls count hpwa heva
          hcnta ys hRLy hby
        refine ⟨h1, h2, h3, ?_⟩
        intro i
        rw [h4 i]
        constructor
        · rintro (h | h)
          · exact Or.inl h
          · exact Or.inr (Or.inr h)
        · rintro (h | h | h)
          · exact Or.inl h
          · exact absurd h (MemS_nil i)
          · exact Or.inr h
    · rcases ys with _ | ⟨⟨ol, oh⟩, ys⟩
      · -- ys exhausted: addRest over xs
        have hval : unionGo (fuel + 1) ((tl, th) :: xs) [] lastHi acc count =
            addRest lastHi acc count ((tl, th) :: xs) := rfl
        rw [hval]
        rcases lastHi with _ | lh
        · have h' : acc = [] ∧ count = 0 := hmatch
          rw [h'.1, h'.2]
          obtain ⟨h1, h2, h3, h4⟩ := addRest_none_spec ((tl, th) :: xs) hRLx
          refine ⟨h1, h2, h3, ?_⟩
          intro i
          rw [h4 i]
          constructor
          · exact fun h => Or.inr (Or.inl h)
          · rintro (h | h | h)
            · exact absurd h (MemS_nil i)
            · exact h
            · exact absurd h (MemS_nil i)
        · obtain ⟨A, ls, hsh, hpwa, heva, hcnta, hbx, _⟩ := hmatch
          subst hsh
          obtain ⟨h1, h2, h3, h4⟩ := addRest_some_spec lh A ls count hpwa heva
            hcnta ((tl, th) :: xs) hRLx hbx
          refine ⟨h1, h2, h3, ?_⟩
          intro i
          rw [h4 i]
          constructor
          · rintro (h | h)
            · exact Or.inl h
            · exact Or.inr (Or.inl h)
          · rintro (h | h | h)
            · exact Or.inl h
            · exact Or.inr h
            · exact absurd h (MemS_nil i)
      · -- both nonempty: one merge step
        simp only [List.length_cons] at hfuel
        have htlth : tl < th := hRLx.1 (tl, th) (List.mem_cons_self _ _)
        have holoh : ol < oh := hRLy.1 (ol, oh) (List.mem_cons_self _ _)
        have hxtail : ∀ p ∈ xs, th < p.1 := RL_head_lt (tl, th) xs hRLx
        have hytail : ∀ p ∈ ys, oh < p.1 := RL_head_lt (ol, oh) ys hRLy
        by_cases hp : tl < ol
        · -- the x-range is consumed
          have hval : unionGo (fuel + 1) ((tl, th) :: xs) ((ol, oh) :: ys)
              lastHi acc count =
              if hiLE th lastHi then
                unionGo fuel xs ((ol, oh) :: ys) lastHi acc count
              else if hiLE tl lastHi then
                unionGo fuel xs ((ol, oh) :: ys) (some th)
                  (acc.dropLast ++ [th]) (count + (th - lastHi.getD 0))
              else unionGo fuel xs ((ol, oh) :: ys) (some th)
                (acc ++ [tl, th]) (count + (th - tl)) := by
            show (if hiLE (if tl < ol then ((tl, th), xs, (ol, oh) :: ys)
                else ((ol, oh), (tl, th) :: xs, ys)).1.2 lastHi
              then _ else _) = _
            rw [if_pos hp]
          rw [hval]
          have hrem : ∀ p ∈ (ol, oh) :: ys, tl ≤ p.1 := by
            intro p hp'
            rcases List.mem_cons.mp hp' with h | h
            · rw [h]
              dsimp only
              omega
            · have := hytail p h
              omega
          rcases lastHi with _ | lh
          · have h' : acc = [] ∧ count = 0 := hmatch
            rw [h'.1, h'.2, hiLE_none th, hiLE_none tl,
              if_neg Bool.false_ne_true, if_neg Bool.false_ne_true]
            have hstep := ih xs ((ol, oh) :: ys) (some th)
              (([] : List Int) ++ [tl, th]) (0 + (th - tl))
              (by simp only [List.length_cons]; omega)
              (RL_tail _ _ hRLx) hRLy
              ⟨[], tl, rfl,
                accAppend_pw [] tl th List.Pairwise.nil
                  (fun x hx => absurd hx (List.not_mem_nil x)) htlth,
                by simp,
                by
                  show (0 : Int) + (th - tl) =
                    countVal (([] : List Int) ++ [tl, th])
                  rw [accAppend_cnt ([] : List Int) tl th rfl]
                  show (0 : Int) + (th - tl) = 0 + (th - tl)
                  rfl,
                fun p hp' => by have := hxtail p hp'; omega,
                fun p hp' => by have := hrem p hp'; omega⟩
            refine ⟨hstep.1, hstep.2.1, hstep.2.2.1, ?_⟩
            intro i
            rw [hstep.2.2.2 i, accAppend_mem ([] : List Int) tl th rfl i,
              show MemS ((tl, th) :: xs) i ↔ ((tl ≤ i ∧ i < th) ∨ MemS xs i)
              from MemS_cons _ _ i]
            constructor
            · rintro ((h | h) | h | h)
              · exact Or.inl h
              · exact Or.inr (Or.inl (Or.inl h))
              · exact Or.inr (Or.inl (Or.inr h))
              · exact Or.inr (Or.inr h)
            · rintro (h | (h | h) | h)
              · exact Or.inl (Or.inl h)
              · exact Or.inl (Or.inr h)
              · exact Or.inr (Or.inl h)
              · exact Or.inr (Or.inr h)
          · obtain ⟨A, ls, hsh, hpwa, heva, hcnta, hbx, hby⟩ := hmatch
            subst hsh
            have heA : A.length % 2 = 0 := by
              simp only [List.length_append, List.length_cons, List.length_nil]
                at heva
              omega
            have hlstl : ls ≤ tl := by
              have := hbx (tl, th) (List.mem_cons_self _ _)
              exact this
            rw [hiLE_some th lh, hiLE_some tl lh]
            by_cases hskip : th ≤ lh
            · rw [if_pos (by simpa using hskip)]
              have hstep := ih xs ((ol, oh) :: ys) (some lh) (A ++ [ls, lh])
                count (by simp only [List.length_cons]; omega)
                (RL_tail _ _ hRLx) hRLy
                ⟨A, ls, rfl, hpwa, heva, hcnta,
                  fun p hp' => hbx p (List.mem_cons_of_mem _ hp'), hby⟩
              refine ⟨hstep.1, hstep.2.1, hstep.2.2.1, ?_⟩
              intro i
              rw [hstep.2.2.2 i,
                show MemS ((tl, th) :: xs) i ↔ ((tl ≤ i ∧ i < th) ∨ MemS xs i)
                from MemS_cons _ _ i]
              constructor
              · rintro (h | h | h)
                · exact Or.inl h
                · exact Or.inr (Or.inl (Or.inr h))
                · exact Or.inr (Or.inr h)
              · rintro (h | (h | h) | h)
                · exact Or.inl h
                · exact Or.inl (mem_of_last A ls lh i heA (by omega) (by omega))
                · exact Or.inr (Or.inl h)
                · exact Or.inr (Or.inr h)
            · rw [if_neg (by simpa using hskip)]
              push_neg at hskip
              by_cases hmerge : tl ≤ lh
              · rw [if_pos (by simpa using hmerge)]
                rw [show (A ++ [ls, lh]).dropLast ++ [th] = A ++ [ls, th] by
                    rw [show A ++ [ls, lh] = (A ++ [ls]) ++ [lh] by simp,
                      List.dropLast_concat]
                    simp,
                  show ((some lh).getD 0 : Int) = lh from rfl]
                have hstep := ih xs ((ol, oh) :: ys) (some th) (A ++ [ls, th])
                  (count + (th - lh)) (by simp only [List.length_cons]; omega)
                  (RL_tail _ _ hRLx) hRLy
                  ⟨A, ls, rfl, accMerge_pw A ls lh th hpwa (le_of_lt hskip),
                    by
                      simp only [List.length_append, List.length_cons,
                        List.length_nil] at heva ⊢
                      omega,
                    by rw [accMerge_cnt A ls lh th heA, hcnta],
                    fun p hp' => by have := hxtail p hp'; omega,
                    fun p hp' => by have := hrem p hp'; omega⟩
                refine ⟨hstep.1, hstep.2.1, hstep.2.2.1, ?_⟩
                intro i
                rw [hstep.2.2.2 i,
                  accMerge_mem A ls lh tl th heA hlstl hmerge
                    (le_of_lt hskip) i,
                  show MemS ((tl, th) :: xs) i ↔ ((tl ≤ i ∧ i < th) ∨ MemS xs i)
                  from MemS_cons _ _ i]
                constructor
                · rintro ((h | h) | h | h)
                  · exact Or.inl h
                  · exact Or.inr (Or.inl (Or.inl h))
                  · exact Or.inr (Or.inl (Or.inr h))
                  · exact Or.inr (Or.inr h)
                · rintro (h | (h | h) | h)
                  · exact Or.inl (Or.inl h)
                  · exact Or.inl (Or.inr h)
                  · exact Or.inr (Or.inl h)
                  · exact Or.inr (Or.inr h)
              · rw [if_neg (by simpa using hmerge)]
                push_neg at hmerge
                have hbound : ∀ x ∈ A ++ [ls, lh], x < tl := by
                  intro x hx
                  have := le_of_last A ls lh hpwa x hx
                  omega
                have hstep := ih xs ((ol, oh) :: ys) (some th)
                  ((A ++ [ls, lh]) ++ [tl, th]) (count + (th - tl))
                  (by simp only [List.length_cons]; omega)
                  (RL_tail _ _ hRLx) hRLy
                  ⟨A ++ [ls, lh], tl, rfl,
                    accAppend_pw (A ++ [ls, lh]) tl th hpwa hbound htlth,
                    by
                      simp only [List.length_append, List.length_cons,
                        List.length_nil] at heva ⊢
                      omega,
                    by rw [accAppend_cnt (A ++ [ls, lh]) tl th heva, hcnta],
                    fun p hp' => by have := hxtail p hp'; omega,
                    fun p hp' => by have := hrem p hp'; omega⟩
                refine ⟨hstep.1, hstep.2.1, hstep.2.2.1, ?_⟩
                intro i
                rw [hstep.2.2.2 i,
                  accAppend_mem (A ++ [ls, lh]) tl th heva i,
                  show MemS ((tl, th) :: xs) i ↔ ((tl ≤ i ∧ i < th) ∨ MemS xs i)
                  from MemS_cons _ _ i]
                constructor
                · rintro ((h | h) | h | h)
                  · exact Or.inl h
                  · exact Or.inr (Or.inl (Or.inl h))
                  · exact Or.inr (Or.inl (Or.inr h))
                  · exact Or.inr (Or.inr h)
                · rintro (h | (h | h) | h)
                  · exact Or.inl (Or.inl h)
                  · exact Or.inl (Or.inr h)
                  · exact Or.inr (Or.inl h)
                  · exact Or.inr (Or.inr h)
        · -- the y-range is consumed
          push_neg at hp
          have hval : unionGo (fuel + 1) ((tl, th) :: xs) ((ol, oh) :: ys)
              lastHi acc count =
              if hiLE oh lastHi then
                unionGo fuel ((tl, th) :: xs) ys lastHi acc count
              else if hiLE ol lastHi then
                unionGo fuel ((tl, th) :: xs) ys (some oh)
                  (acc.dropLast ++ [oh]) (count + (oh - lastHi.getD 0))
              else unionGo fuel ((tl, th) :: xs) ys (some oh)
                (acc ++ [ol, oh]) (count + (oh - ol)) := by
            show (if hiLE (if tl < ol then ((tl, th), xs, (ol, oh) :: ys)
                else ((ol, oh), (tl, th) :: xs, ys)).1.2 lastHi
              then _ else _) = _
            rw [if_neg (show ¬ tl < ol by omega)]
          rw [hval]
          have hrem : ∀ p ∈ (tl, th) :: xs, ol ≤ p.1 := by
            intro p hp'
            rcases List.mem_cons.mp hp' with h | h
            · rw [h]
              dsimp only
              omega
            · have := hxtail p h
              omega
          rcases lastHi with _ | lh
          · have h' : acc = [] ∧ count = 0 := hmatch
            rw [h'.1, h'.2, hiLE_none oh, hiLE_none ol,
              if_neg Bool.false_ne_true, if_neg Bool.false_ne_true]
            have hstep := ih ((tl, th) :: xs) ys (some oh)
              (([] : List Int) ++ [ol, oh]) (0 + (oh - ol))
              (by simp only [List.length_cons]; omega)
              hRLx (RL_tail _ _ hRLy)
              ⟨[], ol, rfl,
                accAppend_pw [] ol oh List.Pairwise.nil
                  (fun x hx => absurd hx (List.not_mem_nil x)) holoh,
                by simp,
                by
                  show (0 : Int) + (oh - ol) =
                    countVal (([] : List Int) ++ [ol, oh])
                  rw [accAppend_cnt ([] : List Int) ol oh rfl]
                  show (0 : Int) + (oh - ol) = 0 + (oh - ol)
                  rfl,
                fun p hp' => by have := hrem p hp'; omega,
                fun p hp' => by have := hytail p hp'; omega⟩
            refine ⟨hstep.1, hstep.2.1, hstep.2.2.1, ?_⟩
            intro i
            rw [hstep.2.2.2 i, accAppend_mem ([] : List Int) ol oh rfl i,
              show MemS ((ol, oh) :: ys) i ↔ ((ol ≤ i ∧ i < oh) ∨ MemS ys i)
              from MemS_cons _ _ i]
            constructor
            · rintro ((h | h) | h | h)
              · exact Or.inl h
              · exact Or.inr (Or.inr (Or.inl h))
              · exact Or.inr (Or.inl h)
              · exact Or.inr (Or.inr (Or.inr h))
            · rintro (h | h | (h | h))
              · exact Or.inl (Or.inl h)
              · exact Or.inr (Or.inl h)
              · exact Or.inl (Or.inr h)
              · exact Or.inr (Or.inr h)
          · obtain ⟨A, ls, hsh, hpwa, heva, hcnta, hbx, hby⟩ := hmatch
            subst hsh
            have heA : A.length % 2 = 0 := by
              simp only [List.length_append, List.length_cons, List.length_nil]
                at heva
              omega
            have hlsol : ls ≤ ol := by
              have := hby (ol, oh) (List.mem_cons_self _ _)
              exact this
            rw [hiLE_some oh lh, hiLE_some ol lh]
            by_cases hskip : oh ≤ lh
            · rw [if_pos (by simpa using hskip)]
              have hstep := ih ((tl, th) :: xs) ys (some lh) (A ++ [ls, lh])
                count (by simp only [List.length_cons]; omega)
                hRLx (RL_tail _ _ hRLy)
                ⟨A, ls, rfl, hpwa, heva, hcnta, hbx,
                  fun p hp' => hby p (List.mem_cons_of_mem _ hp')⟩
              refine ⟨hstep.1, hstep.2.1, hstep.2.2.1, ?_⟩
              intro i
              rw [hstep.2.2.2 i,
                show MemS ((ol, oh) :: ys) i ↔ ((ol ≤ i ∧ i < oh) ∨ MemS ys i)
                from MemS_cons _ _ i]
              constructor
              · rintro (h | h | h)
                · exact Or.inl h
                · exact Or.inr (Or.inl h)
                · exact Or.inr (Or.inr (Or.inr h))
              · rintro (h | h | (h | h))
                · exact Or.inl h
                · exact Or.inr (Or.inl h)
                · exact Or.inl (mem_of_last A ls lh i heA (by omega) (by omega))
                · exact Or.inr (Or.inr h)
            · rw [if_neg (by simpa using hskip)]
              push_neg at hskip
              by_cases hmerge : ol ≤ lh
              · rw [if_pos (by simpa using hmerge)]
                rw [show (A ++ [ls, lh]).dropLast ++ [oh] = A ++ [ls, oh] by
                    rw [show A ++ [ls, lh] = (A ++ [ls]) ++ [lh] by simp,
                      List.dropLast_concat]
                    simp,
                  show ((some lh).getD 0 : Int) = lh from rfl]
                have hstep := ih ((tl, th) :: xs) ys (some oh) (A ++ [ls, oh])
                  (count + (oh - lh)) (by simp only [List.length_cons]; omega)
                  hRLx (RL_tail _ _ hRLy)
                  ⟨A, ls, rfl, accMerge_pw A ls lh oh hpwa (le_of_lt hskip),
                    by
                      simp only [List.length_append, List.length_cons,
                        List.length_nil] at heva ⊢
                      omega,
                    by rw [accMerge_cnt A ls lh oh heA, hcnta],
                    fun p hp' => by have := hrem p hp'; omega,
                    fun p hp' => by have := hytail p hp'; omega⟩
                refine ⟨hstep.1, hstep.2.1, hstep.2.2.1, ?_⟩
                intro i
                rw [hstep.2.2.2 i,
                  accMerge_mem A ls lh ol oh heA hlsol hmerge
                    (le_of_lt hskip) i,
                  show MemS ((ol, oh) :: ys) i ↔ ((ol ≤ i ∧ i < oh) ∨ MemS ys i)
                  from MemS_cons _ _ i]
                constructor
                · rintro ((h | h) | h | h)
                  · exact Or.inl h
                  · exact Or.inr (Or.inr (Or.inl h))
                  · exact Or.inr (Or.inl h)
                  · exact Or.inr (Or.inr (Or.inr h))
                · rintro (h | h | (h | h))
                  · exact Or.inl (Or.inl h)
                  · exact Or.inr (Or.inl h)
                  · exact Or.inl (Or.inr h)
                  · exact Or.inr (Or.inr h)
              · rw [if_neg (by simpa using hmerge)]
                push_neg at hmerge
                have hbound : ∀ x ∈ A ++ [ls, lh], x < ol := by
                  intro x hx
                  have := le_of_last A ls lh hpwa x hx
                  omega
                have hstep := ih ((tl, th) :: xs) ys (some oh)
                  ((A ++ [ls, lh]) ++ [ol, oh]) (count + (oh - ol))
                  (by simp only [List.length_cons]; omega)
                  hRLx (RL_tail _ _ hRLy)
                  ⟨A ++ [ls, lh], ol, rfl,
                    accAppend_pw (A ++ [ls, lh]) ol oh hpwa hbound holoh,
                    by
                      simp only [List.length_append, List.length_cons,
                        List.length_nil] at heva ⊢
                      omega,
                    by rw [accAppend_cnt (A ++ [ls, lh]) ol oh heva, hcnta],
                    fun p hp' => by have := hrem p hp'; omega,
                    fun p hp' => by have := hytail p hp'; omega⟩
                refine ⟨hstep.1, hstep.2.1, hstep.2.2.1, ?_⟩
                intro i
                rw [hstep.2.2.2 i,
                  accAppend_mem (A ++ [ls, lh]) ol oh heva i,
                  show MemS ((ol, oh) :: ys) i ↔ ((ol ≤ i ∧ i < oh) ∨ MemS ys i)
                  from MemS_cons _ _ i]
                constructor
                · rintro ((h | h) | h | h)
                  · exact Or.inl h
                  · exact Or.inr (Or.inr (Or.inl h))
                  · exact Or.inr (Or.inl h)
                  · exact Or.inr (Or.inr (Or.inr h))
                · rintro (h | h | (h | h))
                  · exact Or.inl (Or.inl h)
                  · exact Or.inr (Or.inl h)
                  · exact Or.inl (Or.inr h)
                  · exact Or.inr (Or.inr h)

/-- `RangeSet.union` produces a well-formed set denoting the union of the
two input sets. -/
theorem union_WF_mem (X Y : RangeSet) (hX : WF X) (hY : WF Y) :
    WF (X.union Y) ∧
    (∀ i, MemS (pairsOf (X.union Y).bounds) i ↔
      (MemS (pairsOf X.bounds) i ∨ MemS (pairsOf Y.bounds) i)) := by
  obtain ⟨⟨hpwX, hevX⟩, hcX⟩ := hX
  obtain ⟨⟨hpwY, hevY⟩, hcY⟩ := hY
  have hspec := unionGo_spec
    ((pairsOf X.bounds).length + (pairsOf Y.bounds).length + 1)
    (pairsOf X.bounds) (pairsOf Y.bounds) none [] 0 (by omega)
    (RL_of_WFb _ hpwX) (RL_of_WFb _ hpwY) ⟨rfl, rfl⟩
  refine ⟨⟨⟨hspec.1, hspec.2.1⟩, hspec.2.2.1⟩, ?_⟩
  intro i
  have h := hspec.2.2.2 i
  constructor
  · intro hm
    rcases h.mp hm with h' | h' | h'
    · exact absurd h' (MemS_nil i)
    · exact Or.inl h'
    · exact Or.inr h'
  · rintro (h' | h')
    · exact h.mpr (Or.inr (Or.inl h'))
    · exact h.mpr (Or.inr (Or.inr h'))

/-! ### The merge loop of `intersection` -/

theorem MemS_lower (c : Int) (ps : List (Int × Int))
    (h : ∀ p ∈ ps, c < p.1) : ∀ i, MemS ps i → c < i := by
  rintro i ⟨p, hp, h1, _⟩
  have := h p hp
  omega

theorem interGo_spec : ∀ (fuel : Nat) (xs ys : List (Int × Int))
    (acc : List Int) (count : Int),
    xs.length + ys.length ≤ fuel →
    RL xs → RL ys → acc.length % 2 = 0 →
    (interGo fuel xs ys acc count).1.length % 2 = 0 ∧
    (∀ i, MemS (pairsOf (interGo fuel xs ys acc count).1) i ↔
      (MemS (pairsOf acc) i ∨ (MemS xs i ∧ MemS ys i))) := by
  intro fuel
  induction fuel with
  | zero =>
    intro xs ys acc count hfuel hRLx hRLy hevacc
    have hxs : xs = [] := List.length_eq_zero.mp (by omega)
    subst hxs
    have hval : interGo 0 [] ys acc count = (acc, count) := rfl
    rw [hval]
    refine ⟨hevacc, ?_⟩
    intro i
    constructor
    · exact fun h => Or.inl h
    · rintro (h | ⟨h, _⟩)
      · exact h
      · exact absurd h (MemS_nil i)
  | succ fuel ih =>
    intro xs ys acc count hfuel hRLx hRLy hevacc
    rcases xs with _ | ⟨⟨tl, th⟩, xs⟩
    · have hval : interGo (fuel + 1) [] ys acc count = (acc, count) := by
        cases ys with
        | nil => rfl
        | cons p ys =>
          rcases p with ⟨a, b⟩
          rfl
      rw [hval]
      refine ⟨hevacc, ?_⟩
      intro i
      constructor
      · exact fun h => Or.inl h
      · rintro (h | ⟨h, _⟩)
        · exact h
        · exact absurd h (MemS_nil i)
    · rcases ys with _ | ⟨⟨ol, oh⟩, ys⟩
      · have hval : interGo (fuel + 1) ((tl, th) :: xs) [] acc count =
            (acc, count) := rfl
        rw [hval]
        refine ⟨hevacc, ?_⟩
        intro i
        constructor
        · exact fun h => Or.inl h
        · rintro (h | ⟨_, h⟩)
          · exact h
          · exact absurd h (MemS_nil i)
      · simp only [List.length_cons] at hfuel
        have htlth : tl < th := hRLx.1 (tl, th) (List.mem_cons_self _ _)
        have holoh : ol < oh := hRLy.1 (ol, oh) (List.mem_cons_self _ _)
        have hxtail : ∀ p ∈ xs, th < p.1 := RL_head_lt (tl, th) xs hRLx
        have hytail : ∀ p ∈ ys, oh < p.1 := RL_head_lt (ol, oh) ys hRLy
        have hBx : ∀ i, MemS xs i → th < i :=
          fun i h => MemS_lower th xs hxtail i h
        have hBy : ∀ i, MemS ys i → oh < i :=
          fun i h => MemS_lower oh ys hytail i h
        have hval : interGo (fuel + 1) ((tl, th) :: xs) ((ol, oh) :: ys)
            acc count =
            if th = oh then interGo fuel xs ys
              (if th > ol ∧ tl < oh then
                (acc ++ [max tl ol, min th oh],
                  count + (min th oh - max tl ol))
              else (acc, count)).1
              (if th > ol ∧ tl < oh then
                (acc ++ [max tl ol, min th oh],
                  count + (min th oh - max tl ol))
              else (acc, count)).2
            else if th < oh then interGo fuel xs ((ol, oh) :: ys)
              (if th > ol ∧ tl < oh then
                (acc ++ [max tl ol, min th oh],
                  count + (min th oh - max tl ol))
              else (acc, count)).1
              (if th > ol ∧ tl < oh then
                (acc ++ [max tl ol, min th oh],
                  count + (min th oh - max tl ol))
              else (acc, count)).2
            else interGo fuel ((tl, th) :: xs) ys
              (if th > ol ∧ tl < oh then
                (acc ++ [max tl ol, min th oh],
                  count + (min th oh - max tl ol))
              else (acc, count)).1
              (if th > ol ∧ tl < oh then
                (acc ++ [max tl ol, min th oh],
                  count + (min th oh - max tl ol))
              else (acc, count)).2 := rfl
        rw [hval]
        have hS1mem : ∀ i, MemS (pairsOf
            (if th > ol ∧ tl < oh then
              (acc ++ [max tl ol, min th oh],
                count + (min th oh - max tl ol))
            else (acc, count)).1) i ↔
            (MemS (pairsOf acc) i ∨ (max tl ol ≤ i ∧ i < min th oh)) := by
          intro i
          by_cases hov : th > ol ∧ tl < oh
          · rw [if_pos hov]
            exact accAppend_mem acc (max tl ol) (min th oh) hevacc i
          · rw [if_neg hov]
            push_neg at hov
            constructor
            · exact fun h => Or.inl h
            · rintro (h | h)
              · exact h
              · exfalso
                rcases Nat.lt_or_ge 0 1 with _ | _
                all_goals {
                  rcases le_or_lt th ol with h2 | h2
                  · omega
                  · have := hov h2
                    omega
                }
        have hS1ev : (if th > ol ∧ tl < oh then
            (acc ++ [max tl ol, min th oh], count + (min th oh - max tl ol))
            else (acc, count)).1.length % 2 = 0 := by
          by_cases hov : th > ol ∧ tl < oh
          · rw [if_pos hov]
            simp only [List.length_append, List.length_cons, List.length_nil]
            omega
          · rw [if_neg hov]
            exact hevacc
        by_cases h1 : th = oh
        · rw [if_pos h1]
          obtain ⟨hstepev, hstepmem⟩ := ih xs ys _ _ (by omega)
            (RL_tail _ _ hRLx) (RL_tail _ _ hRLy) hS1ev
          refine ⟨hstepev, ?_⟩
          intro i
          rw [hstepmem i, hS1mem i,
            show MemS ((tl, th) :: xs) i ↔ ((tl ≤ i ∧ i < th) ∨ MemS xs i)
            from MemS_cons _ _ i,
            show MemS ((ol, oh) :: ys) i ↔ ((ol ≤ i ∧ i < oh) ∨ MemS ys i)
            from MemS_cons _ _ i]
          constructor
          · rintro ((h | h) | ⟨hx, hy⟩)
            · exact Or.inl h
            · exact Or.inr ⟨Or.inl ⟨by omega, by omega⟩,
                Or.inl ⟨by omega, by omega⟩⟩
            · exact Or.inr ⟨Or.inr hx, Or.inr hy⟩
          · rintro (h | ⟨hA | hx, hC | hy⟩)
            · exact Or.inl (Or.inl h)
            · exact Or.inl (Or.inr ⟨by omega, by omega⟩)
            · exfalso
              have := hBy i hy
              omega
            · exfalso
              have := hBx i hx
              omega
            · exact Or.inr ⟨hx, hy⟩
        · rw [if_neg h1]
          by_cases h2 : th < oh
          · rw [if_pos h2]
            obtain ⟨hstepev, hstepmem⟩ := ih xs ((ol, oh) :: ys) _ _ (by
                simp only [List.length_cons]
                omega)
              (RL_tail _ _ hRLx) hRLy hS1ev
            refine ⟨hstepev, ?_⟩
            intro i
            rw [hstepmem i, hS1mem i,
              show MemS ((tl, th) :: xs) i ↔ ((tl ≤ i ∧ i < th) ∨ MemS xs i)
              from MemS_cons _ _ i]
            constructor
            · rintro ((h | h) | ⟨hx, hy⟩)
              · exact Or.inl h
              · refine Or.inr ⟨Or.inl ⟨by omega, by omega⟩, ?_⟩
                exact (MemS_cons _ _ i).mpr (Or.inl ⟨by omega, by omega⟩)
              · exact Or.inr ⟨Or.inr hx, hy⟩
            · rintro (h | ⟨hA | hx, hy⟩)
              · exact Or.inl (Or.inl h)
              · rcases (MemS_cons _ _ i).mp hy with hC | hy'
                · exact Or.inl (Or.inr ⟨by omega, by omega⟩)
                · exfalso
                  have := hBy i hy'
                  omega
              · exact Or.inr ⟨hx, hy⟩
          · rw [if_neg h2]
            obtain ⟨hstepev, hstepmem⟩ := ih ((tl, th) :: xs) ys _ _ (by
                simp only [List.length_cons]
                omega)
              hRLx (RL_tail _ _ hRLy) hS1ev
            refine ⟨hstepev, ?_⟩
            intro i
            rw [hstepmem i, hS1mem i,
              show MemS ((ol, oh) :: ys) i ↔ ((ol ≤ i ∧ i < oh) ∨ MemS ys i)
              from MemS_cons _ _ i]
            constructor
            · rintro ((h | h) | ⟨hx, hy⟩)
              · exact Or.inl h
              · refine Or.inr ⟨?_, Or.inl ⟨by omega, by omega⟩⟩
                exact (MemS_cons _ _ i).mpr (Or.inl ⟨by omega, by omega⟩)
              · exact Or.inr ⟨hx, Or.inr hy⟩
            · rintro (h | ⟨hx, hC | hy⟩)
              · exact Or.inl (Or.inl h)
              · rcases (MemS_cons _ _ i).mp hx with hA | hx'
                · exact Or.inl (Or.inr ⟨by omega, by omega⟩)
                · exfalso
                  have := hBx i hx'
                  omega
              · exact Or.inr ⟨hx, hy⟩

/-- `RangeSet.intersection` denotes the intersection of the two sets. -/
theorem intersection_mem (X Y : RangeSet) (hX : WF X) (hY : WF Y) :
    ∀ i, MemS (pairsOf (X.intersection Y).bounds) i ↔
      (MemS (pairsOf X.bounds) i ∧ MemS (pairsOf Y.bounds) i) := by
  have hspec := interGo_spec
    ((pairsOf X.bounds).length + (pairsOf Y.bounds).length + 1)
    (pairsOf X.bounds) (pairsOf Y.bounds) [] 0 (by omega)
    (RL_of_WFb _ hX.1.1) (RL_of_WFb _ hY.1.1) rfl
  intro i
  have h := hspec.2 i
  constructor
  · intro hm
    rcases h.mp hm with h' | h'
    · exact absurd h' (MemS_nil i)
    · exact h'
  · exact fun h' => h.mpr (Or.inr h')

/-! ### `difference` and `symmetricDifference` as folds -/

/-- `memB` in terms of the denoted set. -/
theorem memB_iff (rs : RangeSet) (i : Int) :
    rs.memB i = true ↔ MemS (pairsOf rs.bounds) i := by
  show (pairsOf rs.bounds).any _ = true ↔ _
  rw [List.any_eq_true]
  constructor
  · rintro ⟨p, hp, hb⟩
    rw [Bool.and_eq_true, decide_eq_true_eq, decide_eq_true_eq] at hb
    exact ⟨p, hp, hb⟩
  · rintro ⟨p, hp, hb⟩
    refine ⟨p, hp, ?_⟩
    rw [Bool.and_eq_true, decide_eq_true_eq, decide_eq_true_eq]
    exact hb

theorem removeFold_spec : ∀ (ps : List (Int × Int)) (U : RangeSet), WF U →
    WF (ps.foldl (fun acc p => acc.remove p.1 p.2) U) ∧
    (∀ i,
      MemS (pairsOf (ps.foldl (fun acc p => acc.remove p.1 p.2) U).bounds) i ↔
      (MemS (pairsOf U.bounds) i ∧ ¬ MemS ps i)) := by
  intro ps
  induction ps with
  | nil =>
    intro U hU
    exact ⟨hU, fun i => ⟨fun h => ⟨h, MemS_nil i⟩, fun h => h.1⟩⟩
  | cons p ps ih =>
    intro U hU
    simp only [List.foldl_cons]
    obtain ⟨ih1, ih2⟩ := ih (U.remove p.1 p.2) (remove_WF U p.1 p.2 hU)
    refine ⟨ih1, ?_⟩
    intro i
    rw [ih2 i, remove_mem U p.1 p.2 i hU, MemS_cons]
    constructor
    · rintro ⟨⟨hm, hni⟩, hnp⟩
      refine ⟨hm, ?_⟩
      rintro (h | h)
      · exact hni h
      · exact hnp h
    · rintro ⟨hm, hn⟩
      exact ⟨⟨hm, fun h => hn (Or.inl h)⟩, fun h => hn (Or.inr h)⟩

/-- `RangeSet.difference` denotes the set difference. -/
theorem difference_WF_mem (U I : RangeSet) (hU : WF U) :
    WF (U.difference I) ∧
    (∀ i, MemS (pairsOf (U.difference I).bounds) i ↔
      (MemS (pairsOf U.bounds) i ∧ ¬ MemS (pairsOf I.bounds) i)) :=
  removeFold_spec (pairsOf I.bounds) U hU

theorem toggleFold_spec : ∀ (ps : List (Int × Int)), RL ps →
    ∀ (U : RangeSet), WF U →
    WF (ps.foldl (fun acc p => acc.toggle p.1 p.2) U) ∧
    (∀ i,
      MemS (pairsOf (ps.foldl (fun acc p => acc.toggle p.1 p.2) U).bounds) i ↔
      Xor' (MemS (pairsOf U.bounds) i) (MemS ps i)) := by
  intro ps
  induction ps with
  | nil =>
    intro _ U hU
    refine ⟨hU, ?_⟩
    intro i
    constructor
    · intro h
      exact Or.inl ⟨h, MemS_nil i⟩
    · rintro (⟨h, _⟩ | ⟨h, _⟩)
      · exact h
      · exact absurd h (MemS_nil i)
  | cons p ps ih =>
    intro hRL U hU
    simp only [List.foldl_cons]
    obtain ⟨ih1, ih2⟩ := ih (RL_tail p ps hRL) (U.toggle p.1 p.2)
      (toggle_WF U p.1 p.2 hU)
    refine ⟨ih1, ?_⟩
    intro i
    rw [ih2 i, MemS_cons, toggle_mem U p.1 p.2 i hU]
    have hdisj : ∀ h1 : MemS ps i, ¬ (p.1 ≤ i ∧ i < p.2) := by
      intro h1 h2
      have := MemS_lower p.2 ps (RL_head_lt p ps hRL) i h1
      omega
    simp only [Xor']
    constructor
    · rintro (⟨⟨hu, hnp⟩ | ⟨hp', hnu⟩, hnps⟩ | ⟨hps, hn2⟩)
      · refine Or.inl ⟨hu, ?_⟩
        rintro (h | h)
        · exact hnp h
        · exact hnps h
      · exact Or.inr ⟨Or.inl hp', hnu⟩
      · refine Or.inr ⟨Or.inr hps, ?_⟩
        intro hu
        exact hn2 (Or.inl ⟨hu, hdisj hps⟩)
    · rintro (⟨hu, hn⟩ | ⟨hp' | hps, hnu⟩)
      · exact Or.inl ⟨Or.inl ⟨hu, fun h => hn (Or.inl h)⟩,
          fun h => hn (Or.inr h)⟩
      · exact Or.inl ⟨Or.inr ⟨hp', hnu⟩, fun hps => hdisj hps hp'⟩
      · refine Or.inr ⟨hps, ?_⟩
        rintro (⟨hu, _⟩ | ⟨hp', _⟩)
        · exact hnu hu
        · exact hdisj hps hp'

/-- `RangeSet.symmetricDifference` denotes the symmetric difference. -/
theorem symmDiff_WF_mem (X Y : RangeSet) (hX : WF X) (hY : WF Y) :
    WF (X.symmetricDifference Y) ∧
    (∀ i, MemS (pairsOf (X.symmetricDifference Y).bounds) i ↔
      Xor' (MemS (pairsOf X.bounds) i) (MemS (pairsOf Y.bounds) i)) := by
  by_cases hc : X.bounds.length < Y.bounds.length
  · have heq : X.symmetricDifference Y =
        (pairsOf X.bounds).foldl (fun acc p => acc.toggle p.1 p.2) Y := by
      show (pairsOf (if X.bounds.length < Y.bounds.length then (Y, X)
          else (X, Y)).2.bounds).foldl _
        (if X.bounds.length < Y.bounds.length then (Y, X) else (X, Y)).1 = _
      rw [if_pos hc]
    rw [heq]
    obtain ⟨h1, h2⟩ := toggleFold_spec (pairsOf X.bounds)
      (RL_of_WFb _ hX.1.1) Y hY
    refine ⟨h1, ?_⟩
    intro i
    rw [h2 i]
    constructor
    · rintro (⟨ha, hb⟩ | ⟨ha, hb⟩)
      · exact Or.inr ⟨ha, hb⟩
      · exact Or.inl ⟨ha, hb⟩
    · rintro (⟨ha, hb⟩ | ⟨ha, hb⟩)
      · exact Or.inr ⟨ha, hb⟩
      · exact Or.inl ⟨ha, hb⟩
  · have heq : X.symmetricDifference Y =
        (pairsOf Y.bounds).foldl (fun acc p => acc.toggle p.1 p.2) X := by
      show (pairsOf (if X.bounds.length < Y.bounds.length then (Y, X)
          else (X, Y)).2.bounds).foldl _
        (if X.bounds.length < Y.bounds.length then (Y, X) else (X, Y)).1 = _
      rw [if_neg hc]
    rw [heq]
    obtain ⟨h1, h2⟩ := toggleFold_spec (pairsOf Y.bounds)
      (RL_of_WFb _ hY.1.1) X hX
    exact ⟨h1, h2⟩

/-! ### Counting members through finite sets -/

def psFinset (ps : List (Int × Int)) : Finset Int :=
  ps.foldr (fun p acc => Finset.Ico p.1 p.2 ∪ acc) ∅

theorem mem_psFinset : ∀ (ps : List (Int × Int)) (i : Int),
    i ∈ psFinset ps ↔ MemS ps i := by
  intro ps
  induction ps with
  | nil =>
    intro i
    show i ∈ (∅ : Finset Int) ↔ MemS [] i
    constructor
    · intro h
      exact absurd h (Finset.not_mem_empty i)
    · intro h
      exact absurd h (MemS_nil i)
  | cons p ps ih =>
    intro i
    show i ∈ Finset.Ico p.1 p.2 ∪ psFinset ps ↔ MemS (p :: ps) i
    rw [Finset.mem_union, Finset.mem_Ico, ih i, MemS_cons]

theorem card_psFinset : ∀ (ps : List (Int × Int)), RL ps →
    ((psFinset ps).card : Int) = sumPairs ps := by
  intro ps
  induction ps with
  | nil =>
    intro _
    show (((∅ : Finset Int).card : Nat) : Int) = sumPairs []
    rw [Finset.card_empty]
    rfl
  | cons p ps ih =>
    intro hRL
    have hdisj : Disjoint (Finset.Ico p.1 p.2) (psFinset ps) := by
      rw [Finset.disjoint_left]
      intro a ha hb
      rw [Finset.mem_Ico] at ha
      have := MemS_lower p.2 ps (RL_head_lt p ps hRL) a
        ((mem_psFinset ps a).mp hb)
      omega
    show (((Finset.Ico p.1 p.2 ∪ psFinset ps).card : Nat) : Int) =
      sumPairs (p :: ps)
    rw [Finset.card_union_of_disjoint hdisj, sumPairs_cons,
      ← ih (RL_tail p ps hRL), Int.card_Ico]
    have hle : p.1 < p.2 := hRL.1 p (List.mem_cons_self p ps)
    push_cast [Int.toNat_of_nonneg (by omega : (0 : Int) ≤ p.2 - p.1)]
    ring

/-- Membership-monotone well-formed bounds have monotone counts. -/
theorem countVal_le_of_sub (b1 b2 : List Int)
    (hpw1 : b1.Pairwise (· < ·)) (hpw2 : b2.Pairwise (· < ·))
    (hsub : ∀ i, MemS (pairsOf b1) i → MemS (pairsOf b2) i) :
    countVal b1 ≤ countVal b2 := by
  rw [countVal_eq, countVal_eq, ← card_psFinset _ (RL_of_WFb b1 hpw1),
    ← card_psFinset _ (RL_of_WFb b2 hpw2)]
  have hss : psFinset (pairsOf b1) ⊆ psFinset (pairsOf b2) := by
    intro a ha
    exact (mem_psFinset _ a).mpr (hsub a ((mem_psFinset _ a).mp ha))
  exact_mod_cast Finset.card_le_card hss

end RangeSet

/-! ### The `RangeSet` invariant as a statement about its stored ranges -/

/-- One mutating call on a `RangeSet`. -/
inductive RsOp where
  | ins (s e : Int)
  | rem (s e : Int)
  | tog (s e : Int)
deriving DecidableEq, Repr

def applyRsOp (rs : RangeSet) : RsOp → RangeSet
  | .ins s e => rs.insert s e
  | .rem s e => rs.remove s e
  | .tog s e => rs.toggle s e

/-- A finite sequence of `insert` / `remove` / `toggle` calls. -/
def applyRsOps (rs : RangeSet) (ops : List RsOp) : RangeSet :=
  ops.foldl applyRsOp rs

theorem applyRsOp_WF (rs : RangeSet) (op : RsOp) (h : WF rs) :
    WF (applyRsOp rs op) := by
  match op with
  | .ins s e => exact RangeSet.insert_WF rs s e h
  | .rem s e => exact RangeSet.remove_WF rs s e h
  | .tog s e => exact RangeSet.toggle_WF rs s e h

theorem applyRsOps_WF : ∀ (ops : List RsOp) (rs : RangeSet), WF rs →
    WF (applyRsOps rs ops) := by
  intro ops
  induction ops with
  | nil => exact fun rs h => h
  | cons op rest ih =>
    intro rs h
    exact ih (applyRsOp rs op) (applyRsOp_WF rs op h)

/-! ## Claim theorems (part 1) -/

/-- C2: for `A = [0,1,2,3,4]` and `B = [2,3,5,7,9]` under standard element
equality, the diff has exactly 3 removals, at source indices 0, 1, 4 with
elements 0, 1, 4 (ascending), and exactly 3 insertions, at destination
indices 2, 3, 4 with elements 5, 7, 9 (ascending), and applying the diff to
`A` yields `B` — which fixes the Myers tie-break (prefer the move that
increases `x`) as observable behaviour. -/
theorem c2_concrete_scenario :
    arrayDiff [0, 1, 2, 3, 4] [2, 3, 5, 7, 9] (fun u v => u == v) 0 =
      { removals := [⟨0, 0⟩, ⟨1, 1⟩, ⟨4, 4⟩],
        insertions := [⟨2, 5⟩, ⟨3, 7⟩, ⟨4, 9⟩] } ∧
    (arrayDiff [0, 1, 2, 3, 4] [2, 3, 5, 7, 9] (fun u v => u == v) 0).apply
      [0, 1, 2, 3, 4] = [2, 3, 5, 7, 9] := by
  constructor <;> decide

/-- C1 (counterexample): with the predicate that accepts every pair — an
"equality predicate" that is not sound for actual equality — the round trip
fails: `arrayDiff [1] [2]` finds no changes, so applying it to `[1]` cannot
produce `[2]`. -/
theorem c1_counterexample :
    ¬ ((arrayDiff [1] [2] (fun _ _ => true) 0).apply [1] = [2] ∧
       (arrayDiff [1] [2] (fun _ _ => true) 0).inverse.apply [2] = [1]) := by
  decide

/-- C1 (amended): the round trip holds for every equality predicate that is
sound for actual equality — for all sequences `A`, `B` and any `eq` with
`eq u v = true → u = v`, `diff = arrayDiff A B eq` satisfies
`diff.apply A = B` and `diff.inverse.apply B = A`.  (The unamended claim,
quantifying over arbitrary predicates, fails: see the counterexample.) -/
theorem c1_amended_round_trip [Inhabited α] (a b : List α)
    (equal : α → α → Bool)
    (hsound : ∀ u v : α, equal u v = true → u = v) :
    (arrayDiff a b equal 0).apply a = b ∧
    (arrayDiff a b equal 0).inverse.apply b = a := by
  obtain ⟨ri, ii, hd, hrp, hrb, hip, hib, hal⟩ :=
    arrayDiff_shape a b equal hsound
  constructor
  · rw [hd]
    exact applyInto_sieve a b ri ii (fun i => jsGet a (i : Int))
      hrp hrb hip hib hal
  · rw [hd]
    unfold ArrayDiff.apply ArrayDiff.inverse
    dsimp only
    rw [List.map_map, List.map_map]
    exact applyInto_sieve b a ii ri (fun i => jsGet b (i : Int))
      hip hib hrp hrb hal.symm

theorem c1_amended_round_trip_witness :
    (arrayDiff [0, 1, 2, 3, 4] [2, 3, 5, 7, 9] (fun u v : Nat => u == v) 0).apply
      [0, 1, 2, 3, 4] = [2, 3, 5, 7, 9] ∧
    (arrayDiff [0, 1, 2, 3, 4] [2, 3, 5, 7, 9]
      (fun u v : Nat => u == v) 0).inverse.apply [2, 3, 5, 7, 9] = [0, 1, 2, 3, 4] :=
  c1_amended_round_trip [0, 1, 2, 3, 4] [2, 3, 5, 7, 9] (fun u v : Nat => u == v)
    (fun u v h => by simpa using h)

/-- C5: element-wise equal inputs (under the supplied predicate) produce a
diff with zero removals and zero insertions; an empty `B` produces exactly
`A.length` removals covering every source index ascending and no insertions;
an empty `A` produces exactly `B.length` insertions covering every destination
index ascending and no removals. -/
theorem c5_edge_cases [Inhabited α] (a b : List α) (equal : α → α → Bool) :
    (a.length = b.length →
      (∀ x : Nat, x < a.length → matchAt a b equal x (x : Int) = true) →
      arrayDiff a b equal 0 = ⟨[], []⟩) ∧
    arrayDiff a ([] : List α) equal 0 =
      ⟨(List.range' 0 a.length).map
        (fun (i : Nat) => ⟨(i : Int), jsGet a (i : Int)⟩), []⟩ ∧
    arrayDiff ([] : List α) b equal 0 =
      ⟨[], (List.range' 0 b.length).map
        (fun (i : Nat) => ⟨(i : Int), jsGet b (i : Int)⟩)⟩ :=
  ⟨fun hlen hpt => arrayDiff_of_equal a b equal hlen hpt,
   arrayDiff_b_nil a equal, arrayDiff_a_nil b equal⟩

theorem c5_edge_cases_witness :
    arrayDiff [7, 8, 9] [7, 8, 9] (fun u v : Nat => u == v) 0 = ⟨[], []⟩ ∧
    arrayDiff [7, 8, 9] ([] : List Nat) (fun u v : Nat => u == v) 0 =
      ⟨[⟨0, 7⟩, ⟨1, 8⟩, ⟨2, 9⟩], []⟩ ∧
    arrayDiff ([] : List Nat) [5, 6] (fun u v : Nat => u == v) 0 =
      ⟨[], [⟨0, 5⟩, ⟨1, 6⟩]⟩ := by
  refine ⟨(c5_edge_cases [7, 8, 9] [7, 8, 9] (fun u v : Nat => u == v)).1
      rfl (by decide), ?_, ?_⟩
  · have h := (c5_edge_cases [7, 8, 9] ([] : List Nat)
      (fun u v : Nat => u == v)).2.1
    rw [h]
    decide
  · have h := (c5_edge_cases ([] : List Nat) [5, 6]
      (fun u v : Nat => u == v)).2.2
    rw [h]
    decide

/-- C6 (counterexample): a pure tail truncation performed through the
`length` setter — a single elementary mutation inside a session — takes a
snapshot of the pre-mutation sequence (`_original` is loaded) and leaves no
pending diff, refuting the claim that a pure tail-truncation never enters the
snapshot path. -/
theorem c6_counterexample :
    (setLength (⟨[10, 20, 30], 1, none, none, []⟩ : CoreState Nat) 2).state.original
        = some [10, 20, 30] ∧
    (setLength (⟨[10, 20, 30], 1, none, none, []⟩ : CoreState Nat) 2).state.onlyChange
        = none := by
  decide

/-- C6 (amended): in a clean open session (nonzero balance, no pending diff,
no snapshot), each of the four pure shapes performed through its element-level
operation — in-bounds index replacement via `setAt`, append run and
prefix-insert run via `replaceIn` (`push`/`unshift`/`splice`), and tail
truncation via `replaceIn` (`splice`/`pop`) — leaves exactly one pending
`ArrayDiff` that precisely represents the change (applying it to the
pre-mutation sequence yields the post-mutation sequence) and takes no
snapshot.  A tail truncation performed through the `length` setter, however,
takes a snapshot of the pre-mutation sequence and records no pending diff. -/
theorem c6_pure_shapes [Inhabited α] (equal : α → α → Bool) (host : List α)
    (bal : Int) (posted : List (ArrayDiff α)) (hbal : bal ≠ 0) :
    (∀ (k : Nat) (v : α), k < host.length →
      equal (host.getD k default) v = false →
      ∃ d : ArrayDiff α,
        setAt equal ⟨host, bal, none, none, posted⟩ ((k : Nat) : Int) v =
          ⟨⟨host.set k v, bal, some d, none, posted⟩, false⟩ ∧
        d.apply host = host.set k v) ∧
    (∀ es : List α, es ≠ [] →
      ∃ d : ArrayDiff α,
        replaceIn equal ⟨host, bal, none, none, posted⟩
            (.more ((host.length : Nat) : Int) 0 es) =
          (⟨⟨host ++ es, bal, some d, none, posted⟩, false⟩, []) ∧
        d.apply host = host ++ es) ∧
    (∀ es : List α, es ≠ [] →
      ∃ d : ArrayDiff α,
        replaceIn equal ⟨host, bal, none, none, posted⟩ (.more 0 0 es) =
          (⟨⟨es ++ host, bal, some d, none, posted⟩, false⟩, []) ∧
        d.apply host = es ++ host) ∧
    (∀ k : Nat, k < host.length →
      ∃ d : ArrayDiff α,
        replaceIn equal ⟨host, bal, none, none, posted⟩ (.one ((k : Nat) : Int)) =
          (⟨⟨host.take k, bal, some d, none, posted⟩, false⟩, host.drop k) ∧
        d.apply host = host.take k) ∧
    (∀ k : Nat, k < host.length →
      setLength (⟨host, bal, none, none, posted⟩ : CoreState α) k =
        ⟨⟨host.take k, bal, none, some host, posted⟩, false⟩) := by
  refine ⟨?_, ?_, ?_, ?_, ?_⟩
  · intro k v hk hne
    refine ⟨ArrayDiff.singleChange ((k : Nat) : Int) (host.getD k default) v,
      setAt_inbounds equal host bal posted k v hbal hk hne, ?_⟩
    have h := singleChange_apply host k v (host.getD k default) hk
    exact h
  · intro es hes
    exact ⟨arrayDiff ([] : List α) es equal ((host.length : Nat) : Int),
      replaceIn_append equal host bal posted es hbal hes,
      appendDiff_apply host es equal⟩
  · intro es hes
    exact ⟨arrayDiff ([] : List α) es equal 0,
      replaceIn_prefix equal host bal posted es hbal hes,
      prefixDiff_apply host es equal⟩
  · intro k hk
    exact ⟨arrayDiff (host.drop k) ([] : List α) equal ((k : Nat) : Int),
      replaceIn_truncate equal host bal posted k hbal hk,
      truncateDiff_apply host k equal (by omega)⟩
  · intro k hk
    exact setLength_truncate host bal posted k hbal hk

theorem c6_pure_shapes_witness :
    (∃ d : ArrayDiff Nat,
      setAt (fun u v : Nat => u == v) ⟨[10, 20, 30], 1, none, none, []⟩
          ((1 : Nat) : Int) 99 =
        ⟨⟨([10, 20, 30] : List Nat).set 1 99, 1, some d, none, []⟩, false⟩ ∧
      d.apply [10, 20, 30] = ([10, 20, 30] : List Nat).set 1 99) ∧
    (∃ d : ArrayDiff Nat,
      replaceIn (fun u v : Nat => u == v) ⟨[10, 20, 30], 1, none, none, []⟩
          (.more ((([10, 20, 30] : List Nat).length : Nat) : Int) 0 [7]) =
        (⟨⟨[10, 20, 30] ++ [7], 1, some d, none, []⟩, false⟩, []) ∧
      d.apply [10, 20, 30] = [10, 20, 30] ++ [7]) ∧
    (∃ d : ArrayDiff Nat,
      replaceIn (fun u v : Nat => u == v) ⟨[10, 20, 30], 1, none, none, []⟩
          (.more 0 0 [7]) =
        (⟨⟨[7] ++ [10, 20, 30], 1, some d, none, []⟩, false⟩, []) ∧
      d.apply [10, 20, 30] = [7] ++ [10, 20, 30]) ∧
    (∃ d : ArrayDiff Nat,
      replaceIn (fun u v : Nat => u == v) ⟨[10, 20, 30], 1, none, none, []⟩
          (.one ((1 : Nat) : Int)) =
        (⟨⟨([10, 20, 30] : List Nat).take 1, 1, some d, none, []⟩, false⟩,
         ([10, 20, 30] : List Nat).drop 1) ∧
      d.apply [10, 20, 30] = ([10, 20, 30] : List Nat).take 1) ∧
    setLength (⟨[10, 20, 30], 1, none, none, []⟩ : CoreState Nat) 1 =
      ⟨⟨([10, 20, 30] : List Nat).take 1, 1, none, some [10, 20, 30], []⟩,
        false⟩ := by
  have h := c6_pure_shapes (fun u v : Nat => u == v) [10, 20, 30] 1 []
    (by decide)
  exact ⟨h.1 1 99 (by decide) (by decide), h.2.1 [7] (by decide),
    h.2.2.1 [7] (by decide), h.2.2.2.1 1 (by decide),
    h.2.2.2.2 1 (by decide)⟩

/-- C9: the caller-supplied offset is added uniformly to every removal and
insertion index as a final pass over the two lists that were sorted with
offset zero. -/
theorem c9_dropped_start_offset [Inhabited α] (a b : List α)
    (equal : α → α → Bool) (s : Int) :
    (arrayDiff a b equal s).removals =
      (arrayDiff a b equal 0).removals.map
        (fun c => { c with removedAt := c.removedAt + s }) ∧
    (arrayDiff a b equal s).insertions =
      (arrayDiff a b equal 0).insertions.map
        (fun c => { c with insertedAt := c.insertedAt + s }) := by
  unfold arrayDiff
  by_cases hs : s = 0
  · subst hs; simp
  · simp [hs]

/-- C10: `apply` never reads the element values stored in removal records —
only their indices, through the derived `removedIndices` range set.  Two diffs
with the same removal indices and identical insertion lists produce the same
output on every input array. -/
theorem c10_apply_ignores_removal_elements [Inhabited α] (d₁ d₂ : ArrayDiff α)
    (hrem : d₁.removals.map ArrayRemoval.removedAt =
      d₂.removals.map ArrayRemoval.removedAt)
    (hins : d₁.insertions = d₂.insertions) :
    ∀ array : List α, d₁.apply array = d₂.apply array := by
  intro array
  have key : ∀ (l1 l2 : List (ArrayRemoval α)) (init : RangeSet),
      l1.map ArrayRemoval.removedAt = l2.map ArrayRemoval.removedAt →
      l1.foldl (fun rs c => rs.insert c.removedAt (c.removedAt + 1)) init =
        l2.foldl (fun rs c => rs.insert c.removedAt (c.removedAt + 1)) init := by
    intro l1
    induction l1 with
    | nil =>
      intro l2 init h
      cases l2 with
      | nil => rfl
      | cons c cs => exact absurd h (by simp)
    | cons c cs ih =>
      intro l2 init h
      cases l2 with
      | nil => exact absurd h (by simp)
      | cons c2 cs2 =>
        simp only [List.map_cons, List.cons.injEq] at h
        simp only [List.foldl_cons, h.1]
        exact ih cs2 _ h.2
  have h1 : d₁.removedIndices = d₂.removedIndices := key d₁.removals d₂.removals _ hrem
  have h2 : d₁.insertedIndices = d₂.insertedIndices := by
    unfold ArrayDiff.insertedIndices
    rw [hins]
  unfold ArrayDiff.apply ArrayDiff.applyInto
  rw [h1, h2, hins]

/-- A closed instance of C10: two diffs whose removal records carry different
elements but share indices and insertions act identically. -/
theorem c10_witness :
    (ArrayDiff.mk [⟨0, (5 : Nat)⟩] []).removals.map ArrayRemoval.removedAt =
      (ArrayDiff.mk [⟨0, 99⟩] []).removals.map ArrayRemoval.removedAt ∧
    (ArrayDiff.mk [⟨0, (5 : Nat)⟩] ([] : List (ArrayInsertion Nat))).insertions =
      (ArrayDiff.mk [⟨0, 99⟩] []).insertions ∧
    (ArrayDiff.mk [⟨0, (5 : Nat)⟩] []).apply [1, 2] =
      (ArrayDiff.mk [⟨0, 99⟩] []).apply [1, 2] :=
  ⟨by decide, by decide,
    c10_apply_ignores_removal_elements (ArrayDiff.mk [⟨0, 5⟩] [])
      (ArrayDiff.mk [⟨0, 99⟩] []) (by decide) (by decide) [1, 2]⟩

/-- C3 (counterexample): a session that changes an element and then changes it
back leaves the host sequence element-wise unchanged, yet the outermost
`endMutation` still posts one notification (carrying an empty diff). -/
theorem c3_counterexample :
    ((execProg (fun u v : Nat => u == v)
        (.block [.op (.set 0 99), .op (.set 0 10)])
        ⟨[10, 20, 30], 0, none, none, []⟩).state.host = [10, 20, 30]) ∧
    ((execProg (fun u v : Nat => u == v)
        (.block [.op (.set 0 99), .op (.set 0 10)])
        ⟨[10, 20, 30], 0, none, none, []⟩).state.posted =
      [{ removals := [], insertions := [] }]) := by
  constructor <;> decide

/-- C3 (amended): per outermost session at most one notification is posted;
an `endMutation` that leaves the balance nonzero (a nested session) posts
nothing; and a notification is posted only if some elementary mutation of the
session was recorded — a session whose body left neither a pending diff nor a
snapshot posts nothing.  (A session that changed the sequence and reverted it
still posts one notification, with an empty diff.) -/
theorem c3_amended_sessions [Inhabited α] (equal : α → α → Bool)
    (p q : Prog α) (ps : List (Prog α)) (s s2 s3 : CoreState α)
    (h0 : s.balance = 0) (h1 : 1 ≤ s2.balance) (h3 : s3.balance = 0)
    (hc : (execBody equal ps (beginMutation s3)).state.onlyChange = none)
    (hd : (execBody equal ps (beginMutation s3)).state.original = none) :
    (execProg equal p s).state.posted.length ≤ s.posted.length + 1 ∧
    (execProg equal q s2).state.posted = s2.posted ∧
    (execProg equal (.block ps) s3).state.posted = s3.posted := by
  refine ⟨?_, (execProg_keeps equal q s2).2 h1, ?_⟩
  · cases p with
    | op e =>
      have he := execElem_keeps equal e (beginMutation s)
      unfold execProg instrumented
      dsimp only
      split
      · rw [cancelMutation_posted, he.2, beginMutation_posted]; omega
      · rcases endMutation_posted_le equal (execElem equal e (beginMutation s)).state
          with h | ⟨d, h⟩ <;>
          rw [h, he.2, beginMutation_posted] <;> simp
    | block qs =>
      have hb := execBody_keeps equal qs (beginMutation s)
      have hb2 := hb.2 (by rw [beginMutation_balance]; omega)
      unfold execProg
      dsimp only
      split
      · rw [cancelMutation_posted, hb2, beginMutation_posted]; omega
      · rcases endMutation_posted_le equal (execBody equal qs (beginMutation s)).state
          with h | ⟨d, h⟩ <;>
          rw [h, hb2, beginMutation_posted] <;> simp
  · have hb := execBody_keeps equal ps (beginMutation s3)
    have hb2 := hb.2 (by rw [beginMutation_balance]; omega)
    unfold execProg
    dsimp only
    split
    · rw [cancelMutation_posted, hb2, beginMutation_posted]
    · rw [endMutation_posted_none equal _ hc hd, hb2, beginMutation_posted]

/-- A closed instance of C3 (amended): a nontrivial nested session. -/
theorem c3_amended_sessions_witness :
    (execProg (fun u v : Nat => u == v)
        (.block [.op (.set 0 7)]) ⟨[1, 2], 0, none, none, []⟩).state.posted.length ≤
      0 + 1 ∧
    (execProg (fun u v : Nat => u == v) (.op (.set 0 7))
        ⟨[1, 2], 2, none, none, []⟩).state.posted = [] ∧
    (execProg (fun u v : Nat => u == v) (.block [.op (.set 0 1)])
        ⟨[1, 2], 0, none, none, []⟩).state.posted = [] := by
  have h := c3_amended_sessions (fun u v : Nat => u == v)
    (.block [.op (.set 0 7)]) (.op (.set 0 7)) [.op (.set 0 1)]
    ⟨[1, 2], 0, none, none, []⟩ ⟨[1, 2], 2, none, none, []⟩ ⟨[1, 2], 0, none, none, []⟩
    (by decide) (by decide) (by decide) (by decide) (by decide)
  simpa using h

/-- C7: if the body of an instrumented mutation throws, the error path runs
`cancelMutation`: for an outermost session that unwinds this way, the result
is exactly `cancelMutation` of the body's exit state with the error
propagated, zero notifications are posted, any pending diff and snapshot are
discarded, and the balance returns to zero. -/
theorem c7_cancellation_on_throw [Inhabited α] (equal : α → α → Bool)
    (e : ElemOp α) (ps : List (Prog α)) (s s2 : CoreState α)
    (h0 : s.balance = 0) (h02 : s2.balance = 0)
    (hbe : (execElem equal e (beginMutation s)).threw = true)
    (hbp : (execBody equal ps (beginMutation s2)).threw = true) :
    (execProg equal (.op e) s =
      ⟨cancelMutation (execElem equal e (beginMutation s)).state, true⟩ ∧
     (execProg equal (.op e) s).state.posted = s.posted ∧
     (execProg equal (.op e) s).state.onlyChange = none ∧
     (execProg equal (.op e) s).state.original = none ∧
     (execProg equal (.op e) s).state.balance = 0) ∧
    (execProg equal (.block ps) s2 =
      ⟨cancelMutation (execBody equal ps (beginMutation s2)).state, true⟩ ∧
     (execProg equal (.block ps) s2).state.posted = s2.posted ∧
     (execProg equal (.block ps) s2).state.onlyChange = none ∧
     (execProg equal (.block ps) s2).state.original = none ∧
     (execProg equal (.block ps) s2).state.balance = 0) := by
  have he := execElem_keeps equal e (beginMutation s)
  have hb := execBody_keeps equal ps (beginMutation s2)
  have hb2 := hb.2 (by rw [beginMutation_balance]; omega)
  have heq1 : execProg equal (.op e) s =
      ⟨cancelMutation (execElem equal e (beginMutation s)).state, true⟩ := by
    unfold execProg instrumented
    dsimp only
    rw [if_pos hbe]
  have heq2 : execProg equal (.block ps) s2 =
      ⟨cancelMutation (execBody equal ps (beginMutation s2)).state, true⟩ := by
    unfold execProg
    dsimp only
    rw [if_pos hbp]
  have hc1 := cancelMutation_clears (execElem equal e (beginMutation s)).state
    (by rw [he.1, beginMutation_balance, h0]; ring)
  have hc2 := cancelMutation_clears (execBody equal ps (beginMutation s2)).state
    (by rw [hb.1, beginMutation_balance, h02]; ring)
  refine ⟨⟨heq1, ?_, ?_, ?_, ?_⟩, ⟨heq2, ?_, ?_, ?_, ?_⟩⟩
  · rw [heq1]; exact (cancelMutation_posted _).trans (he.2.trans rfl)
  · rw [heq1]; exact hc1.1
  · rw [heq1]; exact hc1.2
  · rw [heq1]
    dsimp only
    rw [cancelMutation_balance, he.1, beginMutation_balance, h0]; ring
  · rw [heq2]; exact (cancelMutation_posted _).trans (hb2.trans rfl)
  · rw [heq2]; exact hc2.1
  · rw [heq2]; exact hc2.2
  · rw [heq2]
    dsimp only
    rw [cancelMutation_balance, hb.1, beginMutation_balance, h02]; ring

/-- A closed instance of C7: a body that throws after a recorded change. -/
theorem c7_cancellation_on_throw_witness :
    (execProg (fun u v : Nat => u == v) (.block [.op (.set 0 7), .op .fail])
      ⟨[1, 2], 0, none, none, []⟩).state.posted = [] ∧
    (execProg (fun u v : Nat => u == v) (.block [.op (.set 0 7), .op .fail])
      ⟨[1, 2], 0, none, none, []⟩).state.original = none := by
  have h := c7_cancellation_on_throw (fun u v : Nat => u == v)
    .fail [.op (.set 0 7), .op .fail] ⟨[1, 2], 0, none, none, []⟩
    ⟨[1, 2], 0, none, none, []⟩ (by decide) (by decide) (by decide) (by decide)
  exact ⟨h.2.2.1, h.2.2.2.2.1⟩

/-- C4: starting from any `RangeSet` constructor state, after every finite
sequence of `insert`, `remove`, and `toggle` calls with arbitrary integer
arguments, every stored range has `start < end`, the stored ranges are sorted
ascending and pairwise neither overlapping nor adjacent (each range's `end` is
strictly below the next range's `start`, which also makes the `start`s
strictly ascending), and the cached `count` equals the sum of `end - start`
over the stored ranges. -/
theorem c4_rangeset_invariant (init : RangeSet)
    (hinit : init = RangeSet.mk0 ∨ (∃ s, init = RangeSet.mk1 s) ∨
      ∃ s e, init = RangeSet.mk2 s e)
    (ops : List RsOp) :
    (∀ p ∈ (applyRsOps init ops).ranges, p.1 < p.2) ∧
    (applyRsOps init ops).ranges.Pairwise (fun p q => p.2 < q.1) ∧
    (applyRsOps init ops).count = countVal (applyRsOps init ops).bounds := by
  have hWF : WF (applyRsOps init ops) := by
    refine applyRsOps_WF ops init ?_
    rcases hinit with h | ⟨s, h⟩ | ⟨s, e, h⟩
    · rw [h]; exact RangeSet.mk0_WF
    · rw [h]; exact RangeSet.mk1_WF s
    · rw [h]; exact RangeSet.mk2_WF s e
  obtain ⟨h1, h2⟩ := pairsOf_of_pairwise (applyRsOps init ops).bounds hWF.1.1
  exact ⟨h1, h2, hWF.2⟩

/-- A closed instance of C4: from `new RangeSet(1, 5)`, after
`toggle(3, 9)`, `remove(4, 6)`, `insert(8, 12)` the invariant holds. -/
theorem c4_witness :
    ((RangeSet.mk2 1 5 = RangeSet.mk0 ∨
        (∃ s, RangeSet.mk2 1 5 = RangeSet.mk1 s) ∨
        ∃ s e, RangeSet.mk2 1 5 = RangeSet.mk2 s e) ∧
      ((∀ p ∈ (applyRsOps (RangeSet.mk2 1 5)
          [.tog 3 9, .rem 4 6, .ins 8 12]).ranges, p.1 < p.2) ∧
        (applyRsOps (RangeSet.mk2 1 5)
          [.tog 3 9, .rem 4 6, .ins 8 12]).ranges.Pairwise
            (fun p q => p.2 < q.1) ∧
        (applyRsOps (RangeSet.mk2 1 5) [.tog 3 9, .rem 4 6, .ins 8 12]).count =
          countVal (applyRsOps (RangeSet.mk2 1 5)
            [.tog 3 9, .rem 4 6, .ins 8 12]).bounds)) :=
  ⟨Or.inr (Or.inr ⟨1, 5, rfl⟩),
    c4_rangeset_invariant (RangeSet.mk2 1 5) (Or.inr (Or.inr ⟨1, 5, rfl⟩))
      [.tog 3 9, .rem 4 6, .ins 8 12]⟩

/-- C8: for well-formed `X` and `Y` (by C4 every `RangeSet` reachable from a
constructor through the mutators is well-formed): `X.union(Y).count` is at
least `X.count` and at least `Y.count`; every member of `X.intersection(Y)`
is a member of both `X` and `Y`; and `X.symmetricDifference(Y)` equals, as a
set of integers, `X.union(Y).difference(X.intersection(Y))`, i.e. the two
agree on membership at every integer. -/
theorem c8_algebra_laws (X Y : RangeSet) (hX : WF X) (hY : WF Y) :
    X.count ≤ (X.union Y).count ∧ Y.count ≤ (X.union Y).count ∧
    (∀ i, (X.intersection Y).memB i = true →
      X.memB i = true ∧ Y.memB i = true) ∧
    (∀ i, (X.symmetricDifference Y).memB i =
      ((X.union Y).difference (X.intersection Y)).memB i) := by
  obtain ⟨hUWF, hUmem⟩ := RangeSet.union_WF_mem X Y hX hY
  refine ⟨?_, ?_, ?_, ?_⟩
  · rw [hX.2, hUWF.2]
    exact RangeSet.countVal_le_of_sub X.bounds (X.union Y).bounds hX.1.1
      hUWF.1.1 (fun i h => (hUmem i).mpr (Or.inl h))
  · rw [hY.2, hUWF.2]
    exact RangeSet.countVal_le_of_sub Y.bounds (X.union Y).bounds hY.1.1
      hUWF.1.1 (fun i h => (hUmem i).mpr (Or.inr h))
  · intro i hi
    have h := (RangeSet.intersection_mem X Y hX hY i).mp
      ((RangeSet.memB_iff _ i).mp hi)
    exact ⟨(RangeSet.memB_iff X i).mpr h.1, (RangeSet.memB_iff Y i).mpr h.2⟩
  · intro i
    rw [Bool.eq_iff_iff, RangeSet.memB_iff, RangeSet.memB_iff,
      (RangeSet.symmDiff_WF_mem X Y hX hY).2 i,
      (RangeSet.difference_WF_mem (X.union Y) (X.intersection Y) hUWF).2 i,
      hUmem i, RangeSet.intersection_mem X Y hX hY i]
    constructor
    · rintro (⟨ha, hb⟩ | ⟨hb, ha⟩)
      · exact ⟨Or.inl ha, fun h => hb h.2⟩
      · exact ⟨Or.inr hb, fun h => ha h.1⟩
    · rintro ⟨ha | hb, hn⟩
      · exact Or.inl ⟨ha, fun hb => hn ⟨ha, hb⟩⟩
      · exact Or.inr ⟨hb, fun ha => hn ⟨ha, hb⟩⟩

/-- A closed instance of C8: `X = new RangeSet(0, 5)`,
`Y = new RangeSet(3, 8)`. -/
theorem c8_witness :
    WF (RangeSet.mk2 0 5) ∧ WF (RangeSet.mk2 3 8) ∧
    ((RangeSet.mk2 0 5).count ≤
        ((RangeSet.mk2 0 5).union (RangeSet.mk2 3 8)).count ∧
      (RangeSet.mk2 3 8).count ≤
        ((RangeSet.mk2 0 5).union (RangeSet.mk2 3 8)).count ∧
      (∀ i, ((RangeSet.mk2 0 5).intersection (RangeSet.mk2 3 8)).memB i =
          true →
        (RangeSet.mk2 0 5).memB i = true ∧
          (RangeSet.mk2 3 8).memB i = true) ∧
      (∀ i,
        ((RangeSet.mk2 0 5).symmetricDifference (RangeSet.mk2 3 8)).memB i =
        (((RangeSet.mk2 0 5).union (RangeSet.mk2 3 8)).difference
          ((RangeSet.mk2 0 5).intersection (RangeSet.mk2 3 8))).memB i)) :=
  ⟨⟨⟨by decide, by decide⟩, by decide⟩, ⟨⟨by decide, by decide⟩, by decide⟩,
    c8_algebra_laws (RangeSet.mk2 0 5) (RangeSet.mk2 3 8)
      ⟨⟨by decide, by decide⟩, by decide⟩ ⟨⟨by decide, by decide⟩, by decide⟩⟩

end Alkaline
